import Mathlib

/-!
# Morse audio decoder: the duration pipeline of `decoder.go` and the WAV source of `wav.go`

A shallow embedding of the Go package `morse`.

Conventions of the embedding.

* Go `int` values (samples, edge indices, durations, break indices) are `Int`; cluster labels,
  which are indices into the centre list, are `Nat`.
* Go `float64` values are rationals `ℚ`: conversion `float64(i)` of a sample count is the cast
  (exact below `2^53`), `math.Abs` is the absolute value, `math.MaxFloat64` is the rational
  `(2 - 2^(-52)) * 2^1023` and the literal `1e-6` is `1 / 1000000`.
* `roundFloat64` is the rounding of a real result to the nearest `float64` (ties to even, 53-bit
  significand).  It is applied where the code compares a rounded quantity with an integer: the
  dot threshold of `detectDashesDots` and the sample count of `wavDecoder.PCMBuffer`.  The sums,
  means and distances of `kMeans` and `detectSpaces` are exact; rounding is not modelled there.
  On integer durations the sums, and the means of equal values, are exact in `float64` as well;
  a mean such as 5/3 is not, so a point that is exactly midway between two exact centres can
  get the other label in the code.
* `sort.Float64s` is an insertion sort by `≤`.
* A Go `map[string]string` is a function `String → Option String`; indexing a missing key gives
  the zero value `""`.
* A function that returns an `error`, or that can stop with a run-time panic (integer division
  by zero, slice bounds out of range), returns `Except Failure _`.
-/

namespace Morse

/-! ## Failures -/

/-- The two ways a Go call can fail: a returned `error` value, or a run-time panic. -/
inductive Failure where
  | error (msg : String)
  | panic (msg : String)
  deriving DecidableEq, Repr

deriving instance DecidableEq for Except

/-! ## Constants of `decoder.go` -/

/-- The constant `thresholdRatio = 0.5`. -/
def thresholdRatio : ℚ := 1 / 2

/-- The constant `dotDurationMultiplier = 1.5`. -/
def dotDurationMultiplier : ℚ := 3 / 2

/-- The constant `wpmGuess = 20`. -/
def wpmGuess : ℚ := 20

/-- The constant `math.MaxFloat64`, the largest finite `float64`. -/
def maxFloat64 : ℚ := 2 ^ 1024 - 2 ^ 971

/-- The convergence tolerance `1e-6` of `kMeans`. -/
def tolerance : ℚ := 1 / 1000000

/-! ## Rounding to `float64` -/

/-- The power of two `2^e` for an integer exponent. -/
def pow2 (e : Int) : ℚ :=
  if 0 ≤ e then ((2 ^ e.toNat : Nat) : ℚ) else 1 / ((2 ^ (-e).toNat : Nat) : ℚ)

/-- The loop that counts the halvings of `n` down to 1: with enough fuel, the integer part of
the binary logarithm of `n ≥ 1`. -/
def log2Loop : Nat → Nat → Nat
  | 0, _ => 0
  | fuel + 1, n => if 2 ≤ n then log2Loop fuel (n / 2) + 1 else 0

/-- The binary exponent of a positive rational `x`: the integer `e` with `2^e ≤ x < 2^(e+1)`.
The difference of the binary logarithms of numerator and denominator is `e` or `e + 1`. -/
def floorLog2 (x : ℚ) : Int :=
  let e0 : Int :=
    (log2Loop x.num.natAbs x.num.natAbs : Int) - (log2Loop x.den x.den : Int)
  if pow2 e0 ≤ x then e0 else e0 - 1

/-- Rounding to the nearest integer, a tie going to the even neighbour. -/
def roundHalfEven (q : ℚ) : Int :=
  let f := ⌊q⌋
  let r := q - (f : ℚ)
  if r < 1 / 2 then f else if 1 / 2 < r then f + 1 else if f % 2 = 0 then f else f + 1

/-- The `float64` nearest to the real number `x` (IEEE 754 binary64, round to nearest, ties to
even): `x` is scaled by its unit in the last place `2^(e-52)`, rounded to an integer
significand and scaled back.  The exponent range is unbounded: overflow to infinity and
subnormal numbers are not modelled. -/
def roundFloat64 (x : ℚ) : ℚ :=
  if x = 0 then 0
  else
    let ulp := pow2 (floorLog2 |x| - 52)
    (if x < 0 then -1 else 1) * ((roundHalfEven (|x| / ulp) : Int) : ℚ) * ulp

/-! ## Binarizer -/

/-- The loop of `slicesMax`: `for _, v := range s[1:] { if v > maxVal { maxVal = v } }`. -/
def slicesMaxLoop : ℚ → List ℚ → ℚ
  | maxVal, [] => maxVal
  | maxVal, v :: rest => if v > maxVal then slicesMaxLoop v rest else slicesMaxLoop maxVal rest

/-- The function `slicesMax`: `0` for the empty slice, else the running maximum from `s[0]`. -/
def slicesMax : List ℚ → ℚ
  | [] => 0
  | s0 :: rest => slicesMaxLoop s0 rest

/-- The function `squaredSignal`: threshold the envelope at `thresholdRatio * max`. -/
def squaredSignal (envelope : List ℚ) : List Int :=
  let maxVal := slicesMax envelope
  let threshold := thresholdRatio * maxVal
  envelope.map (fun v => if v > threshold then 1 else 0)

/-! ## Edge detection and durations -/

/-- The loop of `findEdges` from index `i` on, with the previous sample `prev` and the edge
lists collected so far. -/
def findEdgesLoop : Int → Int → List Int → List Int → List Int → List Int × List Int
  | _, _, [], rising, falling => (rising, falling)
  | prev, i, current :: rest, rising, falling =>
    if prev = 0 ∧ current = 1 then
      findEdgesLoop current (i + 1) rest (rising ++ [i]) falling
    else if prev = 1 ∧ current = 0 then
      findEdgesLoop current (i + 1) rest rising (falling ++ [i])
    else
      findEdgesLoop current (i + 1) rest rising falling

/-- The function `findEdges`: the rising (`0 → 1`) and falling (`1 → 0`) edge indices. -/
def findEdges : List Int → List Int × List Int
  | [] => ([], [])
  | b0 :: rest => findEdgesLoop b0 1 rest [] []

/-- The boundary correction at the head of `calculateDurations`: a virtual rising edge `-1` is
prepended when the first falling edge precedes the first rising edge, then a virtual falling edge
`totalLength - 1` is appended when the last rising edge follows the last falling edge. -/
def correctEdges (rising falling : List Int) (totalLength : Int) : List Int × List Int :=
  match rising, falling with
  | r0 :: rs, f0 :: fs =>
    let rising1 := if f0 < r0 then (-1) :: r0 :: rs else r0 :: rs
    let falling1 :=
      if rising1.getLast?.getD 0 > (f0 :: fs).getLast?.getD 0 then
        (f0 :: fs) ++ [totalLength - 1]
      else f0 :: fs
    (rising1, falling1)
  | _, _ => (rising, falling)

/-- The function `calculateDurations`: ON durations `falling[i] - rising[i]` for
`i < min(len falling, len rising)`, OFF durations `rising[i+1] - falling[i]` for
`i < min(len rising - 1, len falling)`, both after the boundary correction. -/
def calculateDurations (rising falling : List Int) (totalLength : Int) : List Int × List Int :=
  let edges := correctEdges rising falling totalLength
  let onSamples := List.zipWith (fun f r => f - r) edges.2 edges.1
  let offSamples := List.zipWith (fun r f => r - f) (edges.1.drop 1) edges.2
  (onSamples, offSamples)

/-! ## One-dimensional k-means -/

/-- The function `sort.Float64s`. -/
def sortFloat64s (xs : List ℚ) : List ℚ := xs.insertionSort (fun a b => a ≤ b)

/-- The initial centres: `sortedData[min(i*step, len(data)-1)]` for `i = 0 .. k-1`. -/
def initCenters (sortedData : List ℚ) (step k : Nat) : List ℚ :=
  (List.range k).map (fun i => sortedData.getD (min (i * step) (sortedData.length - 1)) 0)

/-- The inner loop of the assignment step for one point `d`: scan the centres from index `cIdx`
on, keeping the smallest distance seen and the index at which it was first reached. -/
def nearestLoop (d : ℚ) : List ℚ → Nat → ℚ → Nat → Nat
  | [], _, _, label => label
  | center :: rest, cIdx, minDist, label =>
    let dist := |d - center|
    if dist < minDist then nearestLoop d rest (cIdx + 1) dist cIdx
    else nearestLoop d rest (cIdx + 1) minDist label

/-- The label of one point: `minDist` starts at `math.MaxFloat64`, the label at `0`. -/
def nearest (centers : List ℚ) (d : ℚ) : Nat := nearestLoop d centers 0 maxFloat64 0

/-- The assignment step: one label per data point. -/
def assign (data centers : List ℚ) : List Nat := data.map (nearest centers)

/-- The value `counts[c]` after the assignment step. -/
def clusterCount (labels : List Nat) (c : Nat) : Nat := labels.count c

/-- The value `sums[c]` after the assignment step. -/
def clusterSum (data : List ℚ) (labels : List Nat) (c : Nat) : ℚ :=
  ((data.zip labels).map (fun p => if p.2 = c then p.1 else 0)).sum

/-- The update step: the mean of each non-empty cluster, the old centre of an empty one. -/
def updateCenters (data : List ℚ) (labels : List Nat) (centers : List ℚ) (k : Nat) : List ℚ :=
  (List.range k).map (fun i =>
    if clusterCount labels i > 0 then clusterSum data labels i / (clusterCount labels i : ℚ)
    else centers.getD i 0)

/-- The convergence test: some centre moved by more than `1e-6`. -/
def centersChanged (centers newCenters : List ℚ) : Bool :=
  (List.zipWith (fun c n => decide (|c - n| > tolerance)) centers newCenters).any id

/-- The main loop of `kMeans`, `fuel` rounds at most: assign, update, and stop as soon as no
centre changed. -/
def kMeansIter (data : List ℚ) (k : Nat) : Nat → List ℚ → List Nat → List ℚ × List Nat
  | 0, centers, labels => (centers, labels)
  | fuel + 1, centers, _ =>
    let labels := assign data centers
    let newCenters := updateCenters data labels centers k
    if centersChanged centers newCenters then kMeansIter data k fuel newCenters labels
    else (newCenters, labels)

/-- The map `remapping` at key `label`: the first index of `centers[label]` in the sorted
centres (`0`, the zero value, for a missing key). -/
def remapLabel (centers sortedCenters : List ℚ) (label : Nat) : Nat :=
  match centers.get? label with
  | some c => (sortedCenters.findIdx? (fun sc => decide (c = sc))).getD 0
  | none => 0

/-- The function `kMeans`.  An empty input gives no centres and no labels; `k = 0` on a
non-empty input divides by zero in `len(data) / k`.  The centres are returned in cluster order
(not sorted), the labels remapped to the rank of their centre. -/
def kMeans (data : List ℚ) (k : Nat) : Except Failure (List ℚ × List Nat) :=
  if data.length = 0 then .ok ([], [])
  else if k = 0 then .error (.panic "integer divide by zero")
  else
    let sortedData := sortFloat64s data
    let step := data.length / k
    let centers0 := initCenters sortedData step k
    let res := kMeansIter data k 100 centers0 []
    let centers := res.1
    let sortedCenters := sortFloat64s centers
    .ok (centers, res.2.map (remapLabel centers sortedCenters))

/-! ## Dot/dash classification -/

/-- The loop `for label, center := range centers` of the `k != 1` branch of `detectDashesDots`,
from index `label` on: a centre equal to `sortedCenters[0]` sets `dotLabel`, otherwise one equal
to `sortedCenters[1]` sets `dashLabel`.  (The branch runs with `len(centers) = 2`.) -/
def pickLabels (sortedCenters : List ℚ) : List ℚ → Int → Int → Int → Int × Int
  | [], _, dotLabel, dashLabel => (dotLabel, dashLabel)
  | center :: rest, label, dotLabel, dashLabel =>
    if center = sortedCenters.getD 0 0 then pickLabels sortedCenters rest (label + 1) label dashLabel
    else if center = sortedCenters.getD 1 0 then
      pickLabels sortedCenters rest (label + 1) dotLabel label
    else pickLabels sortedCenters rest (label + 1) dotLabel dashLabel

/-- The expected dot duration in samples at `wpmGuess` words per minute:
`float64(sampleRate) / (float64(wpmGuess) * 60 / 1000)`.  The divisor is a constant expression,
evaluated exactly to 1.2 and rounded once to `float64`; the quotient is rounded. -/
def dotDuration (sampleRate : Int) : ℚ :=
  roundFloat64 (roundFloat64 (sampleRate : ℚ) / roundFloat64 (wpmGuess * 60 / 1000))

/-- The values of `dotLabel` and `dashLabel` (`-1` when unset) chosen by `detectDashesDots`. -/
def dotDashLabels (centers : List ℚ) (k : Nat) (sampleRate : Int) : Int × Int :=
  let sortedCenters := sortFloat64s centers
  if k = 1 then
    let isDot :=
      sortedCenters.getD 0 0 < roundFloat64 (dotDuration sampleRate * dotDurationMultiplier)
    if isDot then (0, -1) else (-1, 0)
  else pickLabels sortedCenters centers 0 (-1) (-1)

/-- The `switch` of `detectDashesDots` for one label. -/
def symbolOf (dotLabel dashLabel : Int) (label : Nat) : String :=
  if dotLabel ≠ -1 ∧ (label : Int) = dotLabel then "."
  else if dashLabel ≠ -1 ∧ (label : Int) = dashLabel then "-"
  else "?"

/-- The function `detectDashesDots`. -/
def detectDashesDots (onSamples : List Int) (sampleRate : Int) : Except Failure (List String) :=
  if onSamples.length = 0 then .ok []
  else
    let floatSamples : List ℚ := onSamples.map (fun (s : Int) => (s : ℚ))
    let k := min 2 onSamples.length
    match kMeans floatSamples k with
    | .error e => .error e
    | .ok (centers, labels) =>
      if centers.length = 0 then .error (.error "聚类失败")
      else
        let lbls := dotDashLabels centers k sampleRate
        .ok (labels.map (symbolOf lbls.1 lbls.2))

/-! ## Gap classification -/

/-- The mean duration of the gaps carrying label `lbl`: `sums[lbl] / float64(counts[lbl])`. -/
def labelMean (floatSamples : List ℚ) (labels : List Nat) (lbl : Nat) : ℚ :=
  clusterSum floatSamples labels lbl / (clusterCount labels lbl : ℚ)

/-- The slice `pairs` of `detectSpaces` after `sort.Slice`: one `(label, mean)` pair per label
that occurs, ordered by mean.  The Go map is ranged over in an unspecified order and `sort.Slice`
is not stable; here the labels are taken in ascending order and sorted stably, which fixes the
order of pairs with equal means. -/
def sortedPairs (floatSamples : List ℚ) (labels : List Nat) : List (Nat × ℚ) :=
  let present := (labels.insertionSort (fun a b => a ≤ b)).dedup
  let pairs := present.map (fun lbl => (lbl, labelMean floatSamples labels lbl))
  pairs.insertionSort (fun p q => p.2 ≤ q.2)

/-- The loops `for i, lbl := range labels { if ... { idxs = append(idxs, i+1) } }` of
`detectSpaces`, from index `i` on. -/
def collectIdxs (keep : Nat → Bool) : List Nat → Int → List Int
  | [], _ => []
  | lbl :: rest, i =>
    if keep lbl then (i + 1) :: collectIdxs keep rest (i + 1) else collectIdxs keep rest (i + 1)

/-- The function `detectSpaces`: the character-break and the word-break positions. -/
def detectSpaces (offSamples : List Int) : Except Failure (List Int × List Int) :=
  if offSamples.length = 0 then .ok ([], [])
  else
    let floatSamples : List ℚ := offSamples.map (fun (s : Int) => (s : ℚ))
    let k := min 3 offSamples.length
    match kMeans floatSamples k with
    | .error e => .error e
    | .ok (_, labels) =>
      if labels.length = 0 then .ok ([], [])
      else
        let pairs := sortedPairs floatSamples labels
        let intraSpaceLabel := ((pairs.get? 0).map Prod.fst).getD 0
        let wordSpaceLabel := ((pairs.get? 2).map Prod.fst).getD 0
        let charBreakIdxs := collectIdxs (fun lbl => decide (lbl ≠ intraSpaceLabel)) labels 0
        let wordSpaceIdxs :=
          collectIdxs (fun lbl => decide (pairs.length = 3 ∧ lbl = wordSpaceLabel)) labels 0
        .ok (charBreakIdxs, wordSpaceIdxs)

/-! ## Text assembly -/

/-- The Go map index `morseMap[morse]`: the zero value `""` for a missing key. -/
def mapIndex (morseMap : String → Option String) (morse : String) : String :=
  (morseMap morse).getD ""

/-- The function `translateMorseWord`: one table entry per Morse string, `"?"` for an empty
entry, written to a string builder in order. -/
def translateMorseWord (morseChars : List String) (morseMap : String → Option String) : String :=
  morseChars.foldl
    (fun word morse =>
      let char := mapIndex morseMap morse
      word ++ (if char = "" then "?" else char))
    ""

/-- A Go slice expression `xs[lo:hi]`, which panics unless `0 ≤ lo ≤ hi ≤ len(xs)`.  (Go checks
`hi` against the capacity; at every use below `hi` is at most the length.) -/
def goSlice {α : Type} (xs : List α) (lo hi : Int) : Except Failure (List α) :=
  if 0 ≤ lo ∧ lo ≤ hi ∧ hi ≤ (xs.length : Int) then
    .ok ((xs.drop lo.toNat).take (hi - lo).toNat)
  else .error (.panic "slice bounds out of range")

/-- The first loop of `mergeToText`: cut the symbols at each break index, clamped to the
number of symbols.  Returns the final `charStartIdx` and the Morse strings built. -/
def splitChars (dashDotChars : List String) :
    List Int → Int → List String → Except Failure (Int × List String)
  | [], charStartIdx, morseCharacters => .ok (charStartIdx, morseCharacters)
  | breakIdx :: rest, charStartIdx, morseCharacters =>
    let charEndIdx := min breakIdx (dashDotChars.length : Int)
    match goSlice dashDotChars charStartIdx charEndIdx with
    | .error e => .error e
    | .ok chars => splitChars dashDotChars rest charEndIdx (morseCharacters ++ [String.join chars])

/-- The per-character Morse strings of `mergeToText`: the first loop, then the trailing
symbols as a last character. -/
def morseCharactersOf (dashDotChars : List String) (charBreakIdxs : List Int) :
    Except Failure (List String) :=
  match splitChars dashDotChars charBreakIdxs 0 [] with
  | .error e => .error e
  | .ok (charStartIdx, morseCharacters) =>
    if charStartIdx < (dashDotChars.length : Int) then
      match goSlice dashDotChars charStartIdx dashDotChars.length with
      | .error e => .error e
      | .ok chars => .ok (morseCharacters ++ [String.join chars])
    else .ok morseCharacters

/-- The second loop of `mergeToText`: a word ends at every word-break index that is smaller
than the number of characters, and the next word starts one past it.  Returns the final
`wordStart` and the translated words. -/
def splitWords (morseMap : String → Option String) (morseCharacters : List String) :
    List Int → Int → List String → Except Failure (Int × List String)
  | [], wordStart, textSegments => .ok (wordStart, textSegments)
  | spaceIdx :: rest, wordStart, textSegments =>
    if spaceIdx < (morseCharacters.length : Int) then
      match goSlice morseCharacters wordStart spaceIdx with
      | .error e => .error e
      | .ok word =>
        splitWords morseMap morseCharacters rest (spaceIdx + 1)
          (textSegments ++ [translateMorseWord word morseMap])
    else splitWords morseMap morseCharacters rest wordStart textSegments

/-- The translated words of `mergeToText`, before they are joined. -/
def textSegmentsOf (morseMap : String → Option String) (morseCharacters : List String)
    (wordSpaceIdxs : List Int) : Except Failure (List String) :=
  match splitWords morseMap morseCharacters wordSpaceIdxs 0 [] with
  | .error e => .error e
  | .ok (wordStart, textSegments) =>
    match
      (if wordStart < (morseCharacters.length : Int) then
        match goSlice morseCharacters wordStart morseCharacters.length with
        | .error e => .error e
        | .ok word => .ok (textSegments ++ [translateMorseWord word morseMap])
      else (.ok textSegments : Except Failure (List String))) with
    | .error e => .error e
    | .ok textSegments1 =>
      if morseCharacters.length > 0 ∧ textSegments1.length = 0 then
        .ok (textSegments1 ++ [translateMorseWord morseCharacters morseMap])
      else .ok textSegments1

/-- The function `mergeToText`, with the lookup table `morseMap` as a parameter. -/
def mergeToText (morseMap : String → Option String) (dashDotChars : List String)
    (charBreakIdxs wordSpaceIdxs : List Int) : Except Failure String :=
  match morseCharactersOf dashDotChars charBreakIdxs with
  | .error e => .error e
  | .ok morseCharacters =>
    match textSegmentsOf morseMap morseCharacters wordSpaceIdxs with
    | .error e => .error e
    | .ok textSegments => .ok (" ".intercalate textSegments)

/-- The method `PCMBuffer.MorseText` on a buffer whose computed OFF durations are
`offSamples`: the breaks of `detectSpaces` fed to `mergeToText`. -/
def MorseText (morseMap : String → Option String) (offSamples : List Int)
    (dotChars : List String) : Except Failure String :=
  match detectSpaces offSamples with
  | .error e => .error e
  | .ok (charBreakIdxs, wordSpaceIdxs) => mergeToText morseMap dotChars charBreakIdxs wordSpaceIdxs

/-- Modelled from the spec: the static Morse lookup table `morseMap`, which is not among the
sources; a fixed mapping from dot/dash strings to single characters, here the international
Morse code of the letters and digits. -/
def morseMap (morse : String) : Option String :=
  [(".-", "A"), ("-...", "B"), ("-.-.", "C"), ("-..", "D"), (".", "E"), ("..-.", "F"),
   ("--.", "G"), ("....", "H"), ("..", "I"), (".---", "J"), ("-.-", "K"), (".-..", "L"),
   ("--", "M"), ("-.", "N"), ("---", "O"), (".--.", "P"), ("--.-", "Q"), (".-.", "R"),
   ("...", "S"), ("-", "T"), ("..-", "U"), ("...-", "V"), (".--", "W"), ("-..-", "X"),
   ("-.--", "Y"), ("--..", "Z"), ("-----", "0"), (".----", "1"), ("..---", "2"),
   ("...--", "3"), ("....-", "4"), (".....", "5"), ("-....", "6"), ("--...", "7"),
   ("---..", "8"), ("----.", "9")].lookup morse

/-! ## The WAV source and the decode entry point -/

/-- The conversion `int(x)` of a `float64`: truncation toward zero. -/
def truncToInt (x : ℚ) : Int := if 0 ≤ x then ⌊x⌋ else ⌈x⌉

/-- The state of a `wavDecoder` that `PCMBuffer` and `SampleRate` read: the outcome of the
library call `FullPCMBuffer()` (the decoded `buf.Data`, or its error), and the header fields
`SampleRate` and `NumChans`. -/
structure wavDecoder where
  fullPCMBuffer : Except Failure (List Int)
  sampleRate : Nat
  numChans : Nat

/-- The method `wavDecoder.SampleRate`. -/
def wavDecoder.SampleRate (wd : wavDecoder) : Int := (wd.sampleRate : Int)

/-- The method `wavDecoder.PCMBuffer`: the decoded data cut to its first
`int(float64(sampleRate)*end) * int(numChannels)` samples when it has more.  The product
`float64(sampleRate)*end` is rounded to `float64` before `int` truncates it.  The parameter
`start` is not read. -/
def wavDecoder.PCMBuffer (wd : wavDecoder) (_start endSec : ℚ) : Except Failure (List Int) :=
  match wd.fullPCMBuffer with
  | .error e => .error e
  | .ok data =>
    let samplesToRead :=
      truncToInt (roundFloat64 ((wd.sampleRate : ℚ) * endSec)) * (wd.numChans : Int)
    if samplesToRead < (data.length : Int) then goSlice data 0 samplesToRead else .ok data

/-- The interface `audioDecoder`. -/
structure audioDecoder where
  PCMBuffer : ℚ → ℚ → Except Failure (List Int)
  SampleRate : Int

/-- A `wavDecoder` seen through the interface `audioDecoder`. -/
def wavDecoder.toAudioDecoder (wd : wavDecoder) : audioDecoder :=
  { PCMBuffer := wd.PCMBuffer, SampleRate := wd.SampleRate }

/-- The fields of the struct `PCMBuffer` that `ParsePart` sets. -/
structure PCMBuffer where
  samples : List Int
  sampleRate : Int
  deriving DecidableEq, Repr

/-- The function `errors.Wrap` on a returned error; a panic is not caught. -/
def wrapError (e : Failure) (message : String) : Failure :=
  match e with
  | .error msg => .error (message ++ ": " ++ msg)
  | .panic msg => .panic msg

/-- The method `Decoder.ParsePart`. -/
def ParsePart (ad : audioDecoder) (start endSec : ℚ) : Except Failure PCMBuffer :=
  match ad.PCMBuffer start endSec with
  | .error e => .error (wrapError e "parse audio pcm buffer failed")
  | .ok samples => .ok { samples := samples, sampleRate := ad.SampleRate }

/-! ## Specification-side definitions

These definitions are not translations of the source: they say, in the words of the
specification, what a result should be, and the refinement theorems compare the code with them. -/

/-- Specification: the position at which the last character break cuts, each break `b` being
clamped to `min(b, len)`; `start` when there is no break. -/
def cutEnd (len : Nat) : Nat → List Int → Nat
  | start, [] => start
  | _, b :: rest => cutEnd len (min b (len : Int)).toNat rest

/-- Specification: the symbol groups that end at the clamped break positions: the group of
break `b` runs from the previous cut (or `start`) up to `min(b, len)`. -/
def cutLoop (syms : List String) : Nat → List Int → List (List String)
  | _, [] => []
  | start, b :: rest =>
    ((syms.drop start).take ((min b (syms.length : Int)).toNat - start))
      :: cutLoop syms (min b (syms.length : Int)).toNat rest

/-- Specification: the partition of the symbol sequence by the character breaks: the groups
that end at the clamped breaks, then the symbols after the last break, if any, as a final
group. -/
def cutPieces (syms : List String) (breaks : List Int) : List (List String) :=
  cutLoop syms 0 breaks ++
    (if cutEnd syms.length 0 breaks < syms.length then [syms.drop (cutEnd syms.length 0 breaks)]
     else [])

/-- Specification: the part of a binary signal made of tones and gaps given by their lengths:
for each pair `(o, z)`, `o` samples 1 followed by `z` samples 0. -/
def tonesThenGaps : List (Nat × Nat) → List Int
  | [] => []
  | p :: rest => List.replicate p.1 1 ++ (List.replicate p.2 0 ++ tonesThenGaps rest)

/-- Specification: the number of samples of `tonesThenGaps`. -/
def runsLength : List (Nat × Nat) → Nat
  | [] => 0
  | p :: rest => p.1 + p.2 + runsLength rest

/-- Specification: the indices at which the tones of `tonesThenGaps` start, when its first sample
has index `i`. -/
def risingAt : Int → List (Nat × Nat) → List Int
  | _, [] => []
  | i, p :: rest => i :: risingAt (i + p.1 + p.2) rest

/-- Specification: the indices at which the gaps of `tonesThenGaps` start, when its first sample
has index `i`. -/
def fallingAt : Int → List (Nat × Nat) → List Int
  | _, [] => []
  | i, p :: rest => (i + p.1) :: fallingAt (i + p.1 + p.2) rest

/-- Specification: the positions `i + 1` of the elements of a list that satisfy `p`, the
first element having index `i`. -/
def positionsWhere {α : Type} (p : α → Bool) : List α → Int → List Int
  | [], _ => []
  | d :: rest, i =>
    if p d then (i + 1) :: positionsWhere p rest (i + 1) else positionsWhere p rest (i + 1)

end Morse

namespace Morse

/-! ## Unfolding lemmas -/

theorem detectDashesDots_of_kMeans (onSamples : List Int) (sampleRate : Int)
    (centers : List ℚ) (labels : List Nat) (hne : onSamples.length ≠ 0)
    (hk : kMeans (onSamples.map (fun (s : Int) => (s : ℚ))) (min 2 onSamples.length)
      = .ok (centers, labels))
    (hc : centers.length ≠ 0) :
    detectDashesDots onSamples sampleRate
      = .ok (labels.map
          (symbolOf (dotDashLabels centers (min 2 onSamples.length) sampleRate).1
            (dotDashLabels centers (min 2 onSamples.length) sampleRate).2)) := by
  unfold detectDashesDots
  rw [if_neg hne]
  simp only [hk]
  rw [if_neg hc]

theorem dotDashLabels_two (centers : List ℚ) (sampleRate : Int) :
    dotDashLabels centers 2 sampleRate
      = pickLabels (sortFloat64s centers) centers 0 (-1) (-1) := by
  simp [dotDashLabels]

/-! ## Dot/dash classification on concrete tone lists -/

/-- C1: the exactly timed SOS signal at unit length 1 (tones 1,1,1,3,3,3,1,1,1, gaps
1,1,3,1,1,3,1,1, one sample of silence at each end) yields exactly those ON and OFF durations and
character breaks after the third and sixth tone, but at every sample rate `detectDashesDots`
returns the inverted symbols `- - - . . . - - -`, so the text decoded is "OSO", not "SOS". -/
theorem sos_unit_one_decodes_inverted (sampleRate : Int) :
    findEdges [0,1,0,1,0,1,0,0,0,1,1,1,0,1,1,1,0,1,1,1,0,0,0,1,0,1,0,1,0]
      = ([1, 3, 5, 9, 13, 17, 23, 25, 27], [2, 4, 6, 12, 16, 20, 24, 26, 28]) ∧
    calculateDurations [1, 3, 5, 9, 13, 17, 23, 25, 27] [2, 4, 6, 12, 16, 20, 24, 26, 28] 29
      = ([1, 1, 1, 3, 3, 3, 1, 1, 1], [1, 1, 3, 1, 1, 3, 1, 1]) ∧
    detectDashesDots [1, 1, 1, 3, 3, 3, 1, 1, 1] sampleRate
      = .ok ["-", "-", "-", ".", ".", ".", "-", "-", "-"] ∧
    detectSpaces [1, 1, 3, 1, 1, 3, 1, 1] = .ok ([3, 6], []) ∧
    MorseText morseMap [1, 1, 3, 1, 1, 3, 1, 1] ["-", "-", "-", ".", ".", ".", "-", "-", "-"]
      = .ok "OSO" ∧
    MorseText morseMap [1, 1, 3, 1, 1, 3, 1, 1] [".", ".", ".", "-", "-", "-", ".", ".", "."]
      = .ok "SOS" := by
  refine ⟨by decide, by decide, ?_, by decide!, by decide!, by decide!⟩
  have hk : kMeans (List.map (fun (s : Int) => (s : ℚ)) [1, 1, 1, 3, 3, 3, 1, 1, 1])
      (min 2 [(1 : Int), 1, 1, 3, 3, 3, 1, 1, 1].length)
      = .ok ([3, 1], [0, 0, 0, 1, 1, 1, 0, 0, 0]) := by decide!
  rw [detectDashesDots_of_kMeans _ sampleRate _ _ (by decide) hk (by decide)]
  have h2 : min 2 [(1 : Int), 1, 1, 3, 3, 3, 1, 1, 1].length = 2 := by decide
  have h3 : pickLabels (sortFloat64s [3, 1]) [3, 1] 0 (-1) (-1) = (1, 0) := by decide!
  rw [h2, dotDashLabels_two, h3]
  decide

/-- C2: on the ON durations [1,1,1,5] `kMeans` ends with the centres [5,1] and the rank labels
[0,0,0,1], and at every sample rate `detectDashesDots` marks the three shortest tones "-" and the
longest tone ".": the tones of minimal duration are not ".". -/
theorem detectDashesDots_short_majority_inverted (sampleRate : Int) :
    kMeans [1, 1, 1, 5] 2 = .ok ([5, 1], [0, 0, 0, 1]) ∧
    detectDashesDots [1, 1, 1, 5] sampleRate = .ok ["-", "-", "-", "."] := by
  refine ⟨by decide!, ?_⟩
  have hk : kMeans (List.map (fun (s : Int) => (s : ℚ)) [1, 1, 1, 5])
      (min 2 [(1 : Int), 1, 1, 5].length) = .ok ([5, 1], [0, 0, 0, 1]) := by decide!
  rw [detectDashesDots_of_kMeans _ sampleRate _ _ (by decide) hk (by decide)]
  have h2 : min 2 [(1 : Int), 1, 1, 5].length = 2 := by decide
  have h3 : pickLabels (sortFloat64s [5, 1]) [5, 1] 0 (-1) (-1) = (1, 0) := by decide!
  rw [h2, dotDashLabels_two, h3]
  decide

/-- C3: on the non-empty ON durations [10,10] `kMeans` returns the two equal centres [10,10]
and the labels [0,0], and at every sample rate `detectDashesDots` returns without error the
symbols "?" "?": the symbol "?" does appear for a non-empty list of equal durations. -/
theorem detectDashesDots_equal_pair_unknown (sampleRate : Int) :
    kMeans [10, 10] 2 = .ok ([10, 10], [0, 0]) ∧
    detectDashesDots [10, 10] sampleRate = .ok ["?", "?"] := by
  refine ⟨by decide!, ?_⟩
  have hk : kMeans (List.map (fun (s : Int) => (s : ℚ)) [10, 10])
      (min 2 [(10 : Int), 10].length) = .ok ([10, 10], [0, 0]) := by decide!
  rw [detectDashesDots_of_kMeans _ sampleRate _ _ (by decide) hk (by decide)]
  have h2 : min 2 [(10 : Int), 10].length = 2 := by decide
  have h3 : pickLabels (sortFloat64s [10, 10]) [10, 10] 0 (-1) (-1) = (1, -1) := by decide!
  rw [h2, dotDashLabels_two, h3]
  decide

/-- C7: for four dots with the gaps [1,3,7] `detectSpaces` reports the character breaks [2,3]
and the word break [3] (the position after the third symbol), `mergeToText` builds the three
characters "..", ".", "." and reads the word break 3 as an index into them, which is out of
range, so `MorseText` returns the single word "IEE" and not the two words "IE E". -/
theorem morseText_word_gap_not_split :
    detectSpaces [1, 3, 7] = .ok ([2, 3], [3]) ∧
    morseCharactersOf [".", ".", ".", "."] [2, 3] = .ok ["..", ".", "."] ∧
    MorseText morseMap [1, 3, 7] [".", ".", ".", "."] = .ok "IEE" := by
  refine ⟨by decide!, by decide, by decide!⟩

end Morse

namespace Morse

/-! ## Silence -/

theorem findEdgesLoop_zeros (rest : List Int) (h : ∀ x ∈ rest, x = 0) (i : Int)
    (rising falling : List Int) :
    findEdgesLoop 0 i rest rising falling = (rising, falling) := by
  induction rest generalizing i with
  | nil => rfl
  | cons x rest ih =>
    have hx : x = 0 := h x (List.mem_cons_self _ _)
    subst hx
    have hr : ∀ y ∈ rest, y = 0 := fun y hy => h y (List.mem_cons_of_mem _ hy)
    simp [findEdgesLoop, ih hr]

theorem findEdges_zeros (signal : List Int) (h : ∀ x ∈ signal, x = 0) :
    findEdges signal = ([], []) := by
  cases signal with
  | nil => rfl
  | cons x rest =>
    have hx : x = 0 := h x (List.mem_cons_self _ _)
    subst hx
    exact findEdgesLoop_zeros rest (fun y hy => h y (List.mem_cons_of_mem _ hy)) 1 [] []

/-- C6: for every binary signal, empty or not, whose samples are all 0, `findEdges` finds no
edge, `calculateDurations` returns empty ON and OFF lists, `detectDashesDots` on the empty ON
list returns no symbol and no error at every sample rate, `detectSpaces` on the empty OFF list
returns no break, and `mergeToText` (hence `MorseText`) returns the empty string, whatever
the lookup table. -/
theorem silent_signal_decodes_to_empty (signal : List Int) (h : ∀ x ∈ signal, x = 0)
    (sampleRate : Int) (table : String → Option String) :
    findEdges signal = ([], []) ∧
    calculateDurations (findEdges signal).1 (findEdges signal).2 signal.length = ([], []) ∧
    detectDashesDots (calculateDurations (findEdges signal).1 (findEdges signal).2
      signal.length).1 sampleRate = .ok [] ∧
    detectSpaces (calculateDurations (findEdges signal).1 (findEdges signal).2
      signal.length).2 = .ok ([], []) ∧
    mergeToText table [] [] [] = .ok "" ∧
    MorseText table (calculateDurations (findEdges signal).1 (findEdges signal).2
      signal.length).2 [] = .ok "" := by
  have he := findEdges_zeros signal h
  have hm : mergeToText table [] [] [] = .ok "" := by
    simp [mergeToText, morseCharactersOf, splitChars, textSegmentsOf, splitWords]
    rfl
  have hc : calculateDurations (findEdges signal).1 (findEdges signal).2 signal.length
      = ([], []) := by
    rw [he]; rfl
  refine ⟨he, hc, ?_, ?_, hm, ?_⟩
  · rw [hc]; rfl
  · rw [hc]; rfl
  · rw [hc]
    have hd : detectSpaces [] = .ok ([], []) := rfl
    simp only [MorseText, hd]
    exact hm

/-- C6, at the silent signal of four samples. -/
theorem silent_signal_decodes_to_empty_witness :
    (∀ x ∈ [(0 : Int), 0, 0, 0], x = 0) ∧
    MorseText morseMap (calculateDurations (findEdges [0, 0, 0, 0]).1 (findEdges [0, 0, 0, 0]).2
      ([(0 : Int), 0, 0, 0]).length).2 [] = .ok "" :=
  ⟨by decide,
    (silent_signal_decodes_to_empty [0, 0, 0, 0] (by decide) 8000 morseMap).2.2.2.2.2⟩

end Morse

namespace Morse

/-! ## A single tone -/

theorem maxFloat64_pos : 0 < maxFloat64 := by
  unfold maxFloat64
  norm_num

theorem kMeansIter_succ (data : List ℚ) (k fuel : Nat) (centers : List ℚ) (labels : List Nat) :
    kMeansIter data k (fuel + 1) centers labels
      = if centersChanged centers (updateCenters data (assign data centers) centers k) then
          kMeansIter data k fuel (updateCenters data (assign data centers) centers k)
            (assign data centers)
        else (updateCenters data (assign data centers) centers k, assign data centers) := rfl

theorem kMeans_singleton (d : ℚ) : kMeans [d] 1 = .ok ([d], [0]) := by
  have hn : nearest [d] d = 0 := by
    simp [nearest, nearestLoop]
  have hs : sortFloat64s [d] = [d] := by simp [sortFloat64s]
  have hi : initCenters [d] 1 1 = [d] := by
    simp [initCenters, List.range_succ]
  have hu : updateCenters [d] [0] [d] 1 = [d] := by
    simp [updateCenters, List.range_succ, clusterCount, clusterSum]
  have hc : centersChanged [d] [d] = false := by
    simp [centersChanged, tolerance]
  have hit : kMeansIter [d] 1 100 [d] [] = ([d], [0]) := by
    rw [show (100 : Nat) = 99 + 1 from rfl, kMeansIter_succ]
    simp only [assign, List.map_cons, List.map_nil, hn, hu, hc]
    simp
  simp [kMeans, hs, hi, hit, remapLabel]

theorem findEdgesLoop_zero_run (n : Nat) (i : Int) (tail rising falling : List Int) :
    findEdgesLoop 0 i (List.replicate n 0 ++ tail) rising falling
      = findEdgesLoop 0 (i + n) tail rising falling := by
  induction n generalizing i with
  | zero => simp
  | succ n ih =>
    simp only [List.replicate_succ, List.cons_append, findEdgesLoop]
    simp only [true_and, show ¬ ((0 : Int) = 1) by decide, false_and, if_false,
      List.append_eq]
    rw [ih]
    congr 1
    push_cast
    ring

theorem findEdgesLoop_one_run (n : Nat) (i : Int) (tail rising falling : List Int) :
    findEdgesLoop 1 i (List.replicate n 1 ++ tail) rising falling
      = findEdgesLoop 1 (i + n) tail rising falling := by
  induction n generalizing i with
  | zero => simp
  | succ n ih =>
    simp only [List.replicate_succ, List.cons_append, findEdgesLoop]
    simp only [show ¬ ((1 : Int) = 0) by decide, false_and, and_false, if_false,
      List.append_eq]
    rw [ih]
    congr 1
    push_cast
    ring

theorem findEdges_single_tone (a d b : Nat) (ha : 1 ≤ a) (hd : 1 ≤ d) (hb : 1 ≤ b) :
    findEdges (List.replicate a 0 ++ List.replicate d 1 ++ List.replicate b 0)
      = ([(a : Int)], [(a : Int) + d]) := by
  obtain ⟨a, rfl⟩ : ∃ a', a = a' + 1 := ⟨a - 1, by omega⟩
  obtain ⟨d, rfl⟩ : ∃ d', d = d' + 1 := ⟨d - 1, by omega⟩
  obtain ⟨b, rfl⟩ : ∃ b', b = b' + 1 := ⟨b - 1, by omega⟩
  simp only [List.replicate_succ, List.cons_append, findEdges, List.append_assoc]
  rw [findEdgesLoop_zero_run]
  simp only [findEdgesLoop, true_and, if_true, List.nil_append]
  rw [findEdgesLoop_one_run]
  simp only [findEdgesLoop, show ¬ ((1 : Int) = 0 ∧ (0 : Int) = 1) by decide, if_false,
    true_and, if_true, List.nil_append]
  rw [← List.append_nil (List.replicate b 0), findEdgesLoop_zero_run]
  simp only [findEdgesLoop]
  congr 2
  · push_cast; ring
  · push_cast; ring

/-! ## Rounding to `float64` and the dot threshold -/

theorem pow2_eq_zpow (e : Int) : pow2 e = (2 : ℚ) ^ e := by
  unfold pow2
  split
  · rename_i h
    obtain ⟨n, rfl⟩ := Int.eq_ofNat_of_zero_le h
    simp
  · rename_i h
    obtain ⟨n, hn⟩ := Int.eq_ofNat_of_zero_le (show 0 ≤ -e by omega)
    have he : e = -(n : Int) := by omega
    subst he
    simp

theorem log2Loop_spec (fuel n : Nat) (hf : n ≤ fuel) (hn : n ≠ 0) :
    2 ^ log2Loop fuel n ≤ n ∧ n < 2 ^ (log2Loop fuel n + 1) := by
  induction fuel generalizing n with
  | zero => omega
  | succ fuel ih =>
    simp only [log2Loop]
    split
    · rename_i h2
      obtain ⟨h1, h3⟩ := ih (n / 2) (by omega) (by omega)
      rw [pow_succ, pow_succ]
      constructor <;> omega
    · simp
      omega

theorem pow2_pos (e : Int) : 0 < pow2 e := by
  rw [pow2_eq_zpow]
  positivity

theorem floorLog2_le (x : ℚ) (hx : 0 < x) : pow2 (floorLog2 x) ≤ x := by
  unfold floorLog2
  simp only
  split
  · assumption
  · have hnum : 0 < x.num := Rat.num_pos.mpr hx
    have hn0 : x.num.natAbs ≠ 0 := by omega
    have h1 := (log2Loop_spec x.num.natAbs x.num.natAbs le_rfl hn0).1
    have h2 := (log2Loop_spec x.den x.den le_rfl x.den_nz).2
    generalize log2Loop x.num.natAbs x.num.natAbs = ln at *
    generalize log2Loop x.den x.den = ld at *
    have hxq : (x.num.natAbs : ℚ) / (x.den : ℚ) = x := by
      have hc : ((x.num.natAbs : Nat) : ℚ) = (x.num : ℚ) := by
        rw [Nat.cast_natAbs, abs_of_pos hnum]
      rw [hc]
      exact Rat.num_div_den x
    have h1q : ((2 : ℚ) ^ ln) ≤ (x.num.natAbs : ℚ) := by exact_mod_cast h1
    have h2q : (x.den : ℚ) ≤ (2 : ℚ) ^ (ld + 1) := by exact_mod_cast le_of_lt h2
    have hden : (0 : ℚ) < (x.den : ℚ) := by exact_mod_cast x.den_pos
    rw [pow2_eq_zpow]
    have he : ((ln : Int) - (ld : Int) - 1)
        = (ln : Int) - ((ld + 1 : Nat) : Int) := by push_cast; ring
    rw [he, zpow_sub₀ (by norm_num : (2 : ℚ) ≠ 0), zpow_natCast, zpow_natCast]
    calc (2 : ℚ) ^ ln / 2 ^ (ld + 1)
        ≤ (x.num.natAbs : ℚ) / 2 ^ (ld + 1) := by
          apply div_le_div_of_nonneg_right h1q (by positivity)
      _ ≤ (x.num.natAbs : ℚ) / (x.den : ℚ) := by
          apply div_le_div_of_nonneg_left (by positivity) hden h2q
      _ = x := hxq

theorem lt_floorLog2 (x : ℚ) (hx : 0 < x) : x < pow2 (floorLog2 x + 1) := by
  unfold floorLog2
  simp only
  split
  · have hnum : 0 < x.num := Rat.num_pos.mpr hx
    have hn0 : x.num.natAbs ≠ 0 := by omega
    have h1 := (log2Loop_spec x.num.natAbs x.num.natAbs le_rfl hn0).2
    have h2 := (log2Loop_spec x.den x.den le_rfl x.den_nz).1
    generalize log2Loop x.num.natAbs x.num.natAbs = ln at *
    generalize log2Loop x.den x.den = ld at *
    have hxq : (x.num.natAbs : ℚ) / (x.den : ℚ) = x := by
      have hc : ((x.num.natAbs : Nat) : ℚ) = (x.num : ℚ) := by
        rw [Nat.cast_natAbs, abs_of_pos hnum]
      rw [hc]
      exact Rat.num_div_den x
    have h1q : (x.num.natAbs : ℚ) < (2 : ℚ) ^ (ln + 1) := by exact_mod_cast h1
    have h2q : ((2 : ℚ) ^ ld) ≤ (x.den : ℚ) := by exact_mod_cast h2
    have hden : (0 : ℚ) < (x.den : ℚ) := by exact_mod_cast x.den_pos
    rw [pow2_eq_zpow]
    have he : ((ln : Int) - (ld : Int) + 1) = ((ln + 1 : Nat) : Int) - (ld : Int) := by
      push_cast; ring
    rw [he, zpow_sub₀ (by norm_num : (2 : ℚ) ≠ 0), zpow_natCast, zpow_natCast]
    calc x = (x.num.natAbs : ℚ) / (x.den : ℚ) := hxq.symm
      _ ≤ (x.num.natAbs : ℚ) / 2 ^ ld := by
          apply div_le_div_of_nonneg_left (by positivity) (by positivity) h2q
      _ < (2 : ℚ) ^ (ln + 1) / 2 ^ ld := by
          apply div_lt_div_of_pos_right h1q (by positivity)
  · rename_i h
    rw [sub_add_cancel]
    exact not_le.mp h

theorem roundHalfEven_err (q : ℚ) : |((roundHalfEven q : Int) : ℚ) - q| ≤ 1 / 2 := by
  have h1 : ((⌊q⌋ : Int) : ℚ) ≤ q := Int.floor_le q
  have h2 : q < ((⌊q⌋ : Int) : ℚ) + 1 := Int.lt_floor_add_one q
  unfold roundHalfEven
  simp only
  rw [abs_le]
  split_ifs <;> push_cast <;> constructor <;> linarith

theorem roundFloat64_err (x : ℚ) : |roundFloat64 x - x| ≤ |x| / 2 ^ 53 := by
  unfold roundFloat64
  split
  · rename_i h
    subst h
    simp
  · rename_i hx0
    simp only
    have hax : 0 < |x| := abs_pos.mpr hx0
    have hu : 0 < pow2 (floorLog2 |x| - 52) := pow2_pos _
    have hle := floorLog2_le |x| hax
    have hue : pow2 (floorLog2 |x| - 52) = pow2 (floorLog2 |x|) / 2 ^ 52 := by
      rw [pow2_eq_zpow, pow2_eq_zpow, zpow_sub₀ (by norm_num : (2 : ℚ) ≠ 0)]
      norm_num
    have herr := roundHalfEven_err (|x| / pow2 (floorLog2 |x| - 52))
    generalize pow2 (floorLog2 |x| - 52) = u at *
    generalize roundHalfEven (|x| / u) = m at *
    have hm : abs ((m : ℚ) * u - abs x) ≤ u / 2 := by
      have : (m : ℚ) * u - abs x = ((m : ℚ) - abs x / u) * u := by field_simp
      rw [this, abs_mul, abs_of_pos hu]
      calc abs ((m : ℚ) - abs x / u) * u ≤ 1 / 2 * u := by
            apply mul_le_mul_of_nonneg_right herr (le_of_lt hu)
        _ = u / 2 := by ring
    have hub : u / 2 ≤ |x| / 2 ^ 53 := by
      rw [hue]
      have : pow2 (floorLog2 |x|) / 2 ^ 52 / 2 = pow2 (floorLog2 |x|) / 2 ^ 53 := by
        rw [div_div]
        norm_num
      rw [this]
      apply div_le_div_of_nonneg_right hle (by positivity)
    refine le_trans ?_ hub
    refine le_trans (le_of_eq ?_) hm
    by_cases hneg : x < 0
    · rw [if_pos hneg, abs_of_neg hneg]
      have : -1 * (m : ℚ) * u - x = -((m : ℚ) * u - -x) := by ring
      rw [this, abs_neg]
    · rw [if_neg hneg, abs_of_nonneg (not_lt.mp hneg)]
      congr 1
      ring

theorem roundFloat64_bounds (x : ℚ) (hx : 0 < x) :
    x * (1 - 1 / 2 ^ 53) ≤ roundFloat64 x ∧ roundFloat64 x ≤ x * (1 + 1 / 2 ^ 53) := by
  have h := roundFloat64_err x
  rw [abs_of_pos hx, abs_le] at h
  constructor <;> [nlinarith [h.1]; nlinarith [h.2]]

theorem roundFloat64_divisor :
    roundFloat64 (wpmGuess * 60 / 1000) = 5404319552844595 / 4503599627370496 := by decide!

/-- For sample rates up to `2^32` the rounded threshold of the single-cluster path lies within a
quarter of a sample of `1.25 * sampleRate`. -/
theorem dotThreshold_near (sampleRate : Int) (h0 : 0 < sampleRate) (h1 : sampleRate ≤ 2 ^ 32) :
    5 / 4 * (sampleRate : ℚ) - 1 / 4
        < roundFloat64 (dotDuration sampleRate * dotDurationMultiplier) ∧
      roundFloat64 (dotDuration sampleRate * dotDurationMultiplier)
        < 5 / 4 * (sampleRate : ℚ) + 1 / 4 := by
  have hs0 : (0 : ℚ) < (sampleRate : ℚ) := by exact_mod_cast h0
  have hs1 : (sampleRate : ℚ) ≤ 2 ^ 32 := by exact_mod_cast h1
  unfold dotDuration dotDurationMultiplier
  rw [roundFloat64_divisor]
  generalize (sampleRate : ℚ) = s at *
  obtain ⟨a1, a2⟩ := roundFloat64_bounds s hs0
  have hp1 : 0 < roundFloat64 s := by nlinarith
  generalize roundFloat64 s = s1 at *
  have hq : 0 < s1 / (5404319552844595 / 4503599627370496) := by positivity
  obtain ⟨b1, b2⟩ := roundFloat64_bounds _ hq
  have hp2 : 0 < roundFloat64 (s1 / (5404319552844595 / 4503599627370496)) := by nlinarith
  have hqe : s1 / (5404319552844595 / 4503599627370496)
      = s1 * (4503599627370496 / 5404319552844595) := by field_simp
  rw [hqe] at b1 b2 hp2 ⊢
  generalize roundFloat64 (s1 * (4503599627370496 / 5404319552844595)) = y at *
  have hy : 0 < y * (3 / 2) := by positivity
  obtain ⟨c1, c2⟩ := roundFloat64_bounds _ hy
  generalize roundFloat64 (y * (3 / 2)) = t at *
  norm_num at a1 a2 b1 b2 c1 c2 ⊢
  constructor <;> linarith

/-- A single tone of `d` samples is classified by the comparison of `d` with the rounded
threshold of the single-cluster path. -/
theorem detectDashesDots_single (d : Nat) (sampleRate : Int) :
    detectDashesDots [(d : Int)] sampleRate
      = .ok [if (d : ℚ) < roundFloat64 (dotDuration sampleRate * dotDurationMultiplier)
          then "." else "-"] := by
  have hk : kMeans (List.map (fun (s : Int) => (s : ℚ)) [(d : Int)])
      (min 2 [(d : Int)].length) = .ok ([(d : ℚ)], [0]) := by
    simpa using kMeans_singleton (d : ℚ)
  rw [detectDashesDots_of_kMeans _ sampleRate _ _ (by simp) hk (by simp)]
  have hs : sortFloat64s [(d : ℚ)] = [(d : ℚ)] := by simp [sortFloat64s]
  by_cases hlt : (d : ℚ) < roundFloat64 (dotDuration sampleRate * dotDurationMultiplier)
  · have hl : dotDashLabels [(d : ℚ)] (min 2 [(d : Int)].length) sampleRate = (0, -1) := by
      simp [dotDashLabels, hs, hlt]
    rw [hl, if_pos hlt]
    decide
  · have hl : dotDashLabels [(d : ℚ)] (min 2 [(d : Int)].length) sampleRate = (-1, 0) := by
      simp [dotDashLabels, hs, hlt]
    rw [hl, if_neg hlt]
    decide

/-- C4 (as stated, refuted): at 400 Hz the signal of one zero, 500 ones and one zero has the
single ON-duration 500, which is not below `1.5 * 400 / (20 * 60 / 1000) = 500`, yet
`detectDashesDots` returns ".": the code compares with the `float64` threshold
`400 / 1.2 * 1.5 = 500.00000000000006`, both operations having rounded upward.  (At 8000 Hz
the rounded threshold is 10000 and a tone of 10000 samples is "-".) -/
theorem single_tone_at_exact_threshold :
    findEdges (List.replicate 1 0 ++ List.replicate 500 1 ++ List.replicate 1 0)
      = ([1], [501]) ∧
    calculateDurations [1] [501] 502 = ([500], []) ∧
    ¬ ((500 : ℚ) < 3 / 2 * ((400 : ℚ) / (20 * 60 / 1000))) ∧
    roundFloat64 (dotDuration 400 * dotDurationMultiplier)
      = 8796093022208001 / 17592186044416 ∧
    detectDashesDots [500] 400 = .ok ["."] ∧
    detectDashesDots [10000] 8000 = .ok ["-"] := by
  have hthr : roundFloat64 (dotDuration 400 * dotDurationMultiplier)
      = 8796093022208001 / 17592186044416 := by decide!
  have hthr2 : roundFloat64 (dotDuration 8000 * dotDurationMultiplier) = 10000 := by decide!
  refine ⟨?_, by decide, by norm_num, hthr, ?_, ?_⟩
  · have h := findEdges_single_tone 1 500 1 (by decide) (by decide) (by decide)
    simp only [Nat.cast_one, Nat.cast_ofNat, Int.reduceAdd] at h
    exact h
  · have h := detectDashesDots_single 500 400
    rw [hthr, if_pos (by norm_num)] at h
    exact h
  · have h := detectDashesDots_single 10000 8000
    rw [hthr2, if_neg (by norm_num)] at h
    exact h

/-- C4 (amended): for every binary signal made of `a ≥ 1` zeros, `d ≥ 1` ones and `b ≥ 1`
zeros, `findEdges` returns the one rising edge `a` and the one falling edge `a + d`,
`calculateDurations` returns ON = [d] and OFF = [], and at every sample rate
`detectDashesDots [d]` returns without error the single symbol "." when `d` is below the
`float64` threshold `float64(sampleRate) / 1.2 * 1.5`, each operation rounded, and the single
symbol "-" otherwise.  For a sample rate between 1 and `2^32` this is "." whenever
`d < 1.5 * sampleRate / (20 * 60 / 1000)` and "-" whenever `d` exceeds that value; only a
duration equal to it follows the rounding. -/
theorem single_tone_decoding (a d b : Nat) (ha : 1 ≤ a) (hd : 1 ≤ d) (hb : 1 ≤ b)
    (sampleRate : Int) :
    findEdges (List.replicate a 0 ++ List.replicate d 1 ++ List.replicate b 0)
      = ([(a : Int)], [(a : Int) + d]) ∧
    calculateDurations [(a : Int)] [(a : Int) + d]
      ((List.replicate a (0 : Int) ++ List.replicate d 1 ++ List.replicate b 0).length)
      = ([(d : Int)], []) ∧
    detectDashesDots [(d : Int)] sampleRate
      = .ok [if (d : ℚ) < roundFloat64 (roundFloat64
              (roundFloat64 (sampleRate : ℚ) / roundFloat64 (20 * 60 / 1000)) * (3 / 2))
          then "." else "-"] ∧
    (0 < sampleRate → sampleRate ≤ 2 ^ 32 →
      ((d : ℚ) < 3 / 2 * ((sampleRate : ℚ) / (20 * 60 / 1000)) →
        detectDashesDots [(d : Int)] sampleRate = .ok ["."]) ∧
      (3 / 2 * ((sampleRate : ℚ) / (20 * 60 / 1000)) < (d : ℚ) →
        detectDashesDots [(d : Int)] sampleRate = .ok ["-"])) := by
  refine ⟨findEdges_single_tone a d b ha hd hb, ?_, ?_, ?_⟩
  · have h1 : ¬ ((a : Int) + d < a) := by omega
    have h2 : ¬ ((a : Int) > a + d) := by omega
    simp [calculateDurations, correctEdges, h1, h2]
  · exact detectDashesDots_single d sampleRate
  · intro h0 h1
    obtain ⟨hlo, hhi⟩ := dotThreshold_near sampleRate h0 h1
    have hexact : (3 : ℚ) / 2 * ((sampleRate : ℚ) / (20 * 60 / 1000))
        = 5 / 4 * (sampleRate : ℚ) := by ring
    rw [hexact]
    constructor
    · intro hlt
      have hi : 4 * (d : Int) < 5 * sampleRate := by
        have : ((4 * (d : Int) : Int) : ℚ) < ((5 * sampleRate : Int) : ℚ) := by
          push_cast
          linarith
        exact_mod_cast this
      have hi2 : 4 * (d : Int) + 1 ≤ 5 * sampleRate := by omega
      have hq : 4 * (d : ℚ) + 1 ≤ 5 * (sampleRate : ℚ) := by exact_mod_cast hi2
      have hdt : (d : ℚ) < roundFloat64 (dotDuration sampleRate * dotDurationMultiplier) := by
        linarith
      rw [detectDashesDots_single, if_pos hdt]
    · intro hgt
      have hi : 5 * sampleRate < 4 * (d : Int) := by
        have : ((5 * sampleRate : Int) : ℚ) < ((4 * (d : Int) : Int) : ℚ) := by
          push_cast
          linarith
        exact_mod_cast this
      have hi2 : 5 * sampleRate + 1 ≤ 4 * (d : Int) := by omega
      have hq : 5 * (sampleRate : ℚ) + 1 ≤ 4 * (d : ℚ) := by exact_mod_cast hi2
      have hdt : ¬ (d : ℚ) < roundFloat64 (dotDuration sampleRate * dotDurationMultiplier) := by
        rw [not_lt]
        linarith
      rw [detectDashesDots_single, if_neg hdt]

/-- C4 (amended), at two samples of silence, three of tone and two of silence, at 8000 Hz. -/
theorem single_tone_decoding_witness :
    findEdges [0, 0, 1, 1, 1, 0, 0] = ([2], [5]) ∧
    calculateDurations [2] [5] 7 = ([3], []) ∧
    detectDashesDots [3] 8000 = .ok ["."] := by
  have h := single_tone_decoding 2 3 2 (by decide) (by decide) (by decide) 8000
  exact ⟨h.1, h.2.1, (h.2.2.2 (by decide) (by decide)).1 (by norm_num)⟩

end Morse

namespace Morse

/-! ## Binarization -/

theorem slicesMaxLoop_ge (s : List ℚ) (maxVal : ℚ) :
    maxVal ≤ slicesMaxLoop maxVal s ∧ ∀ v ∈ s, v ≤ slicesMaxLoop maxVal s := by
  induction s generalizing maxVal with
  | nil => simp [slicesMaxLoop]
  | cons x rest ih =>
    simp only [slicesMaxLoop]
    split
    · rename_i hgt
      obtain ⟨h1, h2⟩ := ih x
      refine ⟨le_trans (le_of_lt hgt) h1, ?_⟩
      intro v hv
      rcases List.mem_cons.mp hv with rfl | hv
      · exact h1
      · exact h2 v hv
    · rename_i hgt
      obtain ⟨h1, h2⟩ := ih maxVal
      refine ⟨h1, ?_⟩
      intro v hv
      rcases List.mem_cons.mp hv with rfl | hv
      · exact le_trans (not_lt.mp hgt) h1
      · exact h2 v hv

theorem slicesMaxLoop_mem (s : List ℚ) (maxVal : ℚ) :
    slicesMaxLoop maxVal s = maxVal ∨ slicesMaxLoop maxVal s ∈ s := by
  induction s generalizing maxVal with
  | nil => simp [slicesMaxLoop]
  | cons x rest ih =>
    simp only [slicesMaxLoop]
    split
    · rcases ih x with h | h
      · right; rw [h]; exact List.mem_cons_self _ _
      · right; exact List.mem_cons_of_mem _ h
    · rcases ih maxVal with h | h
      · left; exact h
      · right; exact List.mem_cons_of_mem _ h

theorem slicesMax_mem (s : List ℚ) (hne : s ≠ []) : slicesMax s ∈ s := by
  cases s with
  | nil => exact absurd rfl hne
  | cons x rest =>
    simp only [slicesMax]
    rcases slicesMaxLoop_mem rest x with h | h
    · rw [h]; exact List.mem_cons_self _ _
    · exact List.mem_cons_of_mem _ h

theorem slicesMax_ge (s : List ℚ) : ∀ v ∈ s, v ≤ slicesMax s := by
  cases s with
  | nil => simp
  | cons x rest =>
    intro v hv
    simp only [slicesMax]
    rcases List.mem_cons.mp hv with rfl | hv
    · exact (slicesMaxLoop_ge rest v).1
    · exact (slicesMaxLoop_ge rest x).2 v hv

/-- C8: for every envelope, `squaredSignal` returns a list of the same length whose value at
each index is 1 when the envelope sample there is strictly greater than 0.5 times the envelope
maximum and 0 otherwise, so every value is 0 or 1; `slicesMax` is the maximum of a non-empty
envelope; and for a non-empty envelope whose maximum is strictly positive some output value
is 1. -/
theorem squaredSignal_binary (envelope : List ℚ) :
    (squaredSignal envelope).length = envelope.length ∧
    (∀ i (h : i < envelope.length) (h1 : i < (squaredSignal envelope).length),
      ((squaredSignal envelope).get ⟨i, h1⟩ = 1 ↔
          envelope.get ⟨i, h⟩ > 1 / 2 * slicesMax envelope) ∧
      ((squaredSignal envelope).get ⟨i, h1⟩ = 0 ↔
          ¬ envelope.get ⟨i, h⟩ > 1 / 2 * slicesMax envelope)) ∧
    (∀ b ∈ squaredSignal envelope, b = 0 ∨ b = 1) ∧
    (envelope ≠ [] → slicesMax envelope ∈ envelope ∧ ∀ v ∈ envelope, v ≤ slicesMax envelope) ∧
    (envelope ≠ [] → 0 < slicesMax envelope → 1 ∈ squaredSignal envelope) := by
  refine ⟨by simp [squaredSignal], ?_, ?_, ?_, ?_⟩
  · intro i h h1
    simp only [squaredSignal, thresholdRatio, List.get_eq_getElem, List.getElem_map]
    by_cases hgt : envelope[i] > 1 / 2 * slicesMax envelope
    · simp [hgt]
    · simp [hgt]
  · intro b hb
    simp only [squaredSignal, List.mem_map] at hb
    obtain ⟨v, _, rfl⟩ := hb
    split
    · right; rfl
    · left; rfl
  · intro hne
    exact ⟨slicesMax_mem envelope hne, slicesMax_ge envelope⟩
  · intro hne hpos
    simp only [squaredSignal, List.mem_map]
    refine ⟨slicesMax envelope, slicesMax_mem envelope hne, ?_⟩
    have : slicesMax envelope > thresholdRatio * slicesMax envelope := by
      simp only [thresholdRatio]
      linarith
    rw [if_pos this]

/-- C8, at the envelope [0, 4, 1]. -/
theorem squaredSignal_binary_witness :
    squaredSignal [0, 4, 1] = [0, 1, 0] ∧ 1 ∈ squaredSignal [0, 4, 1] :=
  ⟨by decide!, (squaredSignal_binary [0, 4, 1]).2.2.2.2 (by decide) (by decide!)⟩

end Morse

namespace Morse

/-! ## Table lookup -/

/-- The character `translateMorseWord` writes for one Morse string. -/
theorem translate_step (table : String → Option String)
    (hsingle : ∀ k v, table k = some v → v.length = 1) (morse : String) :
    (if mapIndex table morse = "" then "?" else mapIndex table morse)
      = (match table morse with
          | some v => v
          | none => "?") := by
  unfold mapIndex
  cases hm : table morse with
  | none => simp
  | some v =>
    have hv : v ≠ "" := by
      intro h
      have := hsingle morse v hm
      rw [h] at this
      exact absurd this (by decide)
    simp [hv]

theorem foldl_translate (table : String → Option String)
    (hsingle : ∀ k v, table k = some v → v.length = 1) (morseChars : List String) (acc : String) :
    morseChars.foldl
        (fun word morse =>
          word ++ (if mapIndex table morse = "" then "?" else mapIndex table morse)) acc
      = (morseChars.map (fun morse =>
          match table morse with
          | some v => v
          | none => "?")).foldl (fun r s => r ++ s) acc := by
  induction morseChars generalizing acc with
  | nil => rfl
  | cons m rest ih =>
    simp only [List.foldl_cons, List.map_cons]
    rw [translate_step table hsingle m]
    exact ih _

theorem foldl_translate_length (table : String → Option String)
    (hsingle : ∀ k v, table k = some v → v.length = 1) (morseChars : List String) (acc : String) :
    (morseChars.foldl
        (fun word morse =>
          word ++ (if mapIndex table morse = "" then "?" else mapIndex table morse)) acc).length
      = acc.length + morseChars.length := by
  induction morseChars generalizing acc with
  | nil => rfl
  | cons m rest ih =>
    simp only [List.foldl_cons, List.length_cons]
    rw [ih, String.length_append, translate_step table hsingle m]
    have h1 : (match table m with
        | some v => v
        | none => "?").length = 1 := by
      cases hm : table m with
      | none => rfl
      | some v => exact hsingle m v hm
    rw [h1]
    ring

/-- C9: for every list of Morse strings and every lookup table whose values are single
characters, `translateMorseWord` (a total function) returns the concatenation, in order, of one
character per Morse string, the table entry when the string is a key of the table and "?" when
it is not; its result has exactly as many characters as there are Morse strings. -/
theorem translateMorseWord_one_char_each (morseChars : List String)
    (table : String → Option String)
    (hsingle : ∀ k v, table k = some v → v.length = 1) :
    translateMorseWord morseChars table
      = String.join (morseChars.map (fun morse =>
          match table morse with
          | some v => v
          | none => "?")) ∧
    (translateMorseWord morseChars table).length = morseChars.length := by
  constructor
  · unfold translateMorseWord String.join
    exact foldl_translate table hsingle morseChars ""
  · unfold translateMorseWord
    rw [foldl_translate_length table hsingle morseChars ""]
    simp

theorem lookup_value_mem (table : List (String × String)) (k v : String)
    (h : table.lookup k = some v) : ∃ p ∈ table, p.2 = v := by
  induction table with
  | nil => simp at h
  | cons p rest ih =>
    obtain ⟨a, b⟩ := p
    simp only [List.lookup] at h
    split at h
    · exact ⟨(a, b), List.mem_cons_self _ _, by simpa using h⟩
    · obtain ⟨q, hq, hv⟩ := ih h
      exact ⟨q, List.mem_cons_of_mem _ hq, hv⟩

theorem morseMap_single (k v : String) (h : morseMap k = some v) : v.length = 1 := by
  unfold morseMap at h
  obtain ⟨p, hp, hv⟩ := lookup_value_mem _ k v h
  clear h
  subst hv
  revert p
  decide

/-- C9, at the table `morseMap` and the Morse strings "...", "---", "......" (no key). -/
theorem translateMorseWord_one_char_each_witness :
    (∀ k v, morseMap k = some v → v.length = 1) ∧
    translateMorseWord ["...", "---", "......"] morseMap = "SO?" ∧
    (translateMorseWord ["...", "---", "......"] morseMap).length = 3 :=
  ⟨morseMap_single,
    (translateMorseWord_one_char_each ["...", "---", "......"] morseMap morseMap_single).1.trans
      (by decide),
    (translateMorseWord_one_char_each ["...", "---", "......"] morseMap morseMap_single).2⟩

end Morse

namespace Morse

/-! ## The WAV time window -/

theorem roundFloat64_nonneg (x : ℚ) (hx : 0 ≤ x) : 0 ≤ roundFloat64 x := by
  rcases eq_or_lt_of_le hx with h | h
  · rw [← h]
    simp [roundFloat64]
  · have := (roundFloat64_bounds x h).1
    have h2 : (0 : ℚ) ≤ 1 - 1 / 2 ^ 53 := by norm_num
    exact le_trans (mul_nonneg hx h2) this

/-- On a mono recording `wavDecoder.PCMBuffer` returns the first
`int(float64(sampleRate)*end)` samples, and the whole recording when it is shorter. -/
theorem wavDecoder_PCMBuffer_mono (data : List Int) (sampleRate : Nat) (start endSec : ℚ)
    (hend : 0 ≤ endSec) :
    wavDecoder.PCMBuffer ⟨.ok data, sampleRate, 1⟩ start endSec
      = .ok (data.take (truncToInt (roundFloat64 ((sampleRate : ℚ) * endSec))).toNat) := by
  have hx : 0 ≤ (sampleRate : ℚ) * endSec := mul_nonneg (Nat.cast_nonneg _) hend
  have hr : 0 ≤ roundFloat64 ((sampleRate : ℚ) * endSec) := roundFloat64_nonneg _ hx
  have hn : 0 ≤ truncToInt (roundFloat64 ((sampleRate : ℚ) * endSec)) := by
    simp only [truncToInt, if_pos hr]
    exact Int.floor_nonneg.mpr hr
  simp only [wavDecoder.PCMBuffer, Nat.cast_one, mul_one]
  generalize truncToInt (roundFloat64 ((sampleRate : ℚ) * endSec)) = n at *
  by_cases hlt : n < (data.length : Int)
  · rw [if_pos hlt]
    simp [goSlice, hn, le_of_lt hlt]
  · rw [if_neg hlt]
    have hge : data.length ≤ n.toNat := by omega
    rw [List.take_of_length_le hge]

/-- C10 (as stated, refuted): on a mono recording of ten samples at 2 Hz, the window from
second 1 to second 2 is returned by `wavDecoder.PCMBuffer` and `ParsePart` as the first four
samples, not as the two samples from index 2 up to index 4.  And the upper index is not the
floor of the exact product: at 44100 Hz and `end` the `float64` 0.3, the exact product is below
13230 but rounds to 13230.0, so a recording of 20000 samples is cut to 13230, not 13229. -/
theorem wav_window_ignores_start :
    wavDecoder.PCMBuffer ⟨.ok [10, 11, 12, 13, 14, 15, 16, 17, 18, 19], 2, 1⟩ 1 2
      = .ok [10, 11, 12, 13] ∧
    ParsePart (wavDecoder.toAudioDecoder ⟨.ok [10, 11, 12, 13, 14, 15, 16, 17, 18, 19], 2, 1⟩) 1 2
      = .ok ⟨[10, 11, 12, 13], 2⟩ ∧
    wavDecoder.PCMBuffer ⟨.ok [10, 11, 12, 13, 14, 15, 16, 17, 18, 19], 2, 1⟩ 1 2
      ≠ .ok (([10, 11, 12, 13, 14, 15, 16, 17, 18, 19].drop (⌊(2 : ℚ) * 1⌋).toNat).take
          ((⌊(2 : ℚ) * 2⌋).toNat - (⌊(2 : ℚ) * 1⌋).toNat)) ∧
    ([10, 11, 12, 13] : List Int).length ≠ (⌊(2 : ℚ) * 2⌋).toNat - (⌊(2 : ℚ) * 1⌋).toNat ∧
    ⌊(44100 : ℚ) * roundFloat64 (3 / 10)⌋ = 13229 ∧
    wavDecoder.PCMBuffer ⟨.ok (List.replicate 20000 0), 44100, 1⟩ 0 (roundFloat64 (3 / 10))
      = .ok (List.replicate 13230 0) := by
  refine ⟨by decide!, by decide!, by decide!, by decide!, by decide!, ?_⟩
  have hend : (0 : ℚ) ≤ roundFloat64 (3 / 10) := roundFloat64_nonneg _ (by norm_num)
  rw [wavDecoder_PCMBuffer_mono _ _ _ _ hend]
  have hn : truncToInt (roundFloat64 (((44100 : Nat) : ℚ) * roundFloat64 (3 / 10))) = 13230 := by
    decide!
  rw [hn, List.take_replicate]
  rfl

/-- C10 (amended): for the WAV source with a mono recording and `0 ≤ start ≤ end`,
`wavDecoder.PCMBuffer(start, end)` returns without error the samples of the decoded data from
index 0 up to index `n = int(float64(sampleRate) * end)`, whatever `start` is, where the
product is rounded to `float64` before it is truncated; with at least `n` samples the result
has `n` samples; `ParsePart` returns these samples with the sample rate.  The index `n` is at
most `sampleRate * end * (1 + 2^-53)` and more than `sampleRate * end * (1 - 2^-53) - 1`. -/
theorem wav_window_from_zero (data : List Int) (sampleRate : Nat) (start endSec : ℚ)
    (hstart : 0 ≤ start) (hle : start ≤ endSec) :
    wavDecoder.PCMBuffer ⟨.ok data, sampleRate, 1⟩ start endSec
      = .ok (data.take (truncToInt (roundFloat64 ((sampleRate : ℚ) * endSec))).toNat) ∧
    (truncToInt (roundFloat64 ((sampleRate : ℚ) * endSec)) ≤ (data.length : Int) →
      ((data.take (truncToInt (roundFloat64 ((sampleRate : ℚ) * endSec))).toNat).length : Int)
        = truncToInt (roundFloat64 ((sampleRate : ℚ) * endSec))) ∧
    ParsePart (wavDecoder.toAudioDecoder ⟨.ok data, sampleRate, 1⟩) start endSec
      = .ok ⟨data.take (truncToInt (roundFloat64 ((sampleRate : ℚ) * endSec))).toNat,
          (sampleRate : Int)⟩ ∧
    ((truncToInt (roundFloat64 ((sampleRate : ℚ) * endSec)) : Int) : ℚ)
      ≤ (sampleRate : ℚ) * endSec * (1 + 1 / 2 ^ 53) ∧
    (sampleRate : ℚ) * endSec * (1 - 1 / 2 ^ 53) - 1
      < ((truncToInt (roundFloat64 ((sampleRate : ℚ) * endSec)) : Int) : ℚ) := by
  have hend : 0 ≤ endSec := le_trans hstart hle
  have hx : 0 ≤ (sampleRate : ℚ) * endSec := mul_nonneg (Nat.cast_nonneg _) hend
  have hr : 0 ≤ roundFloat64 ((sampleRate : ℚ) * endSec) := roundFloat64_nonneg _ hx
  have hpcm := wavDecoder_PCMBuffer_mono data sampleRate start endSec hend
  have herr := roundFloat64_err ((sampleRate : ℚ) * endSec)
  rw [abs_of_nonneg hx, abs_le] at herr
  have ht : truncToInt (roundFloat64 ((sampleRate : ℚ) * endSec))
      = ⌊roundFloat64 ((sampleRate : ℚ) * endSec)⌋ := by
    simp only [truncToInt, if_pos hr]
  have hf1 := Int.floor_le (roundFloat64 ((sampleRate : ℚ) * endSec))
  have hf2 := Int.lt_floor_add_one (roundFloat64 ((sampleRate : ℚ) * endSec))
  have hn : 0 ≤ truncToInt (roundFloat64 ((sampleRate : ℚ) * endSec)) := by
    rw [ht]
    exact Int.floor_nonneg.mpr hr
  refine ⟨hpcm, ?_, ?_, ?_, ?_⟩
  · intro hlen
    rw [List.length_take]
    omega
  · simp only [ParsePart, wavDecoder.toAudioDecoder, hpcm, wavDecoder.SampleRate]
  · rw [ht]
    linarith [herr.2]
  · rw [ht]
    linarith [herr.1]

/-- C10 (amended), at ten samples at 2 Hz and the window from second 1 to second 2. -/
theorem wav_window_from_zero_witness :
    (0 : ℚ) ≤ 1 ∧ (1 : ℚ) ≤ 2 ∧
    wavDecoder.PCMBuffer ⟨.ok [10, 11, 12, 13, 14, 15, 16, 17, 18, 19], 2, 1⟩ 1 2
      = .ok [10, 11, 12, 13] :=
  ⟨by norm_num, by norm_num,
    (wav_window_from_zero [10, 11, 12, 13, 14, 15, 16, 17, 18, 19] 2 1 2 (by norm_num)
      (by norm_num)).1.trans (by decide!)⟩

end Morse

namespace Morse

/-! ## Two-valued data under `kMeans` -/

theorem sortFloat64s_two_valued (a b : ℚ) (hab : a < b) (data : List ℚ)
    (hval : ∀ x ∈ data, x = a ∨ x = b) :
    sortFloat64s data = List.replicate (data.count a) a ++ List.replicate (data.count b) b := by
  unfold sortFloat64s
  apply List.eq_of_perm_of_sorted (r := fun x y : ℚ => x ≤ y)
  · refine (List.perm_insertionSort _ data).trans ?_
    rw [List.perm_iff_count]
    intro x
    rw [List.count_append, List.count_replicate, List.count_replicate]
    by_cases hxa : x = a
    · subst hxa
      have : ¬ b = x := fun h => absurd h (ne_of_gt hab)
      simp [this]
    · by_cases hxb : x = b
      · subst hxb
        have : ¬ a = x := fun h => absurd h (ne_of_lt hab)
        simp [this]
      · have hx : x ∉ data := fun hmem => by
          rcases hval x hmem with h | h
          · exact hxa h
          · exact hxb h
        have h1 : ¬ a = x := fun h => hxa h.symm
        have h2 : ¬ b = x := fun h => hxb h.symm
        simp [List.count_eq_zero_of_not_mem hx, h1, h2]
  · exact List.sorted_insertionSort _ data
  · rw [List.Sorted, List.pairwise_append]
    refine ⟨?_, ?_, ?_⟩
    · rw [List.pairwise_replicate]
      right; exact le_refl a
    · rw [List.pairwise_replicate]
      right; exact le_refl b
    · intro x hx y hy
      rw [List.eq_of_mem_replicate hx, List.eq_of_mem_replicate hy]
      exact le_of_lt hab

theorem length_two_valued (a b : ℚ) (hab : a < b) (data : List ℚ)
    (hval : ∀ x ∈ data, x = a ∨ x = b) :
    data.length = data.count a + data.count b := by
  induction data with
  | nil => rfl
  | cons x rest ih =>
    have hr := ih (fun y hy => hval y (List.mem_cons_of_mem _ hy))
    rcases hval x (List.mem_cons_self _ _) with h | h
    · subst h
      have : ¬ x = b := ne_of_lt hab
      simp [List.count_cons, hr, this]
      omega
    · subst h
      have : ¬ x = a := ne_of_gt hab
      simp [List.count_cons, hr, this]
      omega

theorem getD_two_runs (a b : ℚ) (p q i : Nat) (hi : i < p + q) :
    (List.replicate p a ++ List.replicate q b).getD i 0 = if i < p then a else b := by
  rw [List.getD_eq_getElem?_getD, List.getElem?_append]
  simp only [List.length_replicate]
  by_cases hip : i < p
  · simp [hip, List.getElem?_replicate]
  · have : i - p < q := by omega
    simp [hip, List.getElem?_replicate, this]

theorem initCenters_two_valued (a b : ℚ) (hab : a < b) (data : List ℚ)
    (hval : ∀ x ∈ data, x = a ∨ x = b) (ha : a ∈ data) (hb : b ∈ data) :
    initCenters (sortFloat64s data) (data.length / 2) 2
      = [a, if data.count a ≤ data.length / 2 then b else a] := by
  have hlen := length_two_valued a b hab data hval
  have hpa : 0 < data.count a := List.count_pos_iff.mpr ha
  have hpb : 0 < data.count b := List.count_pos_iff.mpr hb
  rw [sortFloat64s_two_valued a b hab data hval]
  simp only [initCenters, List.range_succ, List.range_zero, List.nil_append, List.map_cons,
    List.map_nil, List.cons_append, List.length_append, List.length_replicate]
  rw [getD_two_runs, getD_two_runs]
  · have h0 : min (0 * (data.length / 2)) (data.count a + data.count b - 1) < data.count a := by
      simp; exact ha
    have h1 : min (1 * (data.length / 2)) (data.count a + data.count b - 1) = data.length / 2 := by
      rw [one_mul]
      apply min_eq_left
      omega
    rw [if_pos h0, h1]
    by_cases hc : data.count a ≤ data.length / 2
    · rw [if_pos hc, if_neg (by omega)]
    · rw [if_neg hc, if_pos (by omega)]
  · exact lt_of_le_of_lt (min_le_right _ _) (by omega)
  · exact lt_of_le_of_lt (min_le_right _ _) (by omega)

end Morse

namespace Morse

theorem nearest_two (c0 c1 d : ℚ) :
    nearest [c0, c1] d
      = if |d - c0| < maxFloat64 then (if |d - c1| < |d - c0| then 1 else 0)
        else (if |d - c1| < maxFloat64 then 1 else 0) := by
  simp only [nearest, nearestLoop]

/-- A point at the first centre keeps label 0. -/
theorem nearest_at_first (c0 c1 : ℚ) : nearest [c0, c1] c0 = 0 := by
  rw [nearest_two]
  have h0 : |c0 - c0| = 0 := by simp
  rw [h0, if_pos maxFloat64_pos, if_neg (not_lt.mpr (abs_nonneg _))]

/-- A point at the second centre, away from the first, gets label 1. -/
theorem nearest_at_second (c0 c1 : ℚ) (hne : c0 ≠ c1) : nearest [c0, c1] c1 = 1 := by
  rw [nearest_two]
  have h0 : |c1 - c1| = 0 := by simp
  have hpos : 0 < |c1 - c0| := abs_pos.mpr (sub_ne_zero.mpr hne.symm)
  rw [h0]
  by_cases h : |c1 - c0| < maxFloat64
  · rw [if_pos h, if_pos hpos]
  · rw [if_neg h, if_pos maxFloat64_pos]

/-- A point that is not strictly nearer to the second centre keeps label 0. -/
theorem nearest_first_of_le (c0 c1 d : ℚ) (h : |d - c0| ≤ |d - c1|) :
    nearest [c0, c1] d = 0 := by
  rw [nearest_two]
  by_cases h0 : |d - c0| < maxFloat64
  · rw [if_pos h0, if_neg (not_lt.mpr h)]
  · rw [if_neg h0, if_neg (fun h1 => h0 (lt_of_le_of_lt h h1))]

theorem assign_two_valued (a b : ℚ) (data : List ℚ) (hval : ∀ x ∈ data, x = a ∨ x = b)
    (centers : List ℚ) :
    assign data centers
      = data.map (fun x => if x = a then nearest centers a else nearest centers b) := by
  unfold assign
  apply List.map_congr_left
  intro x hx
  rcases hval x hx with h | h
  · rw [h, if_pos rfl]
  · by_cases hxa : x = a
    · rw [if_pos hxa, hxa]
    · rw [if_neg hxa, h]

theorem clusterCount_map (f : ℚ → Nat) (data : List ℚ) (c : Nat) :
    clusterCount (data.map f) c = data.countP (fun x => decide (f x = c)) := by
  unfold clusterCount
  induction data with
  | nil => rfl
  | cons x rest ih =>
    simp only [List.map_cons, List.count_cons, List.countP_cons, ih]
    by_cases h : f x = c <;> simp [h]

theorem clusterSum_map (f : ℚ → Nat) (data : List ℚ) (c : Nat) :
    clusterSum data (data.map f) c = (data.map (fun x => if f x = c then x else 0)).sum := by
  unfold clusterSum
  induction data with
  | nil => rfl
  | cons x rest ih =>
    simp only [List.map_cons, List.zip_cons_cons, List.sum_cons, ih]

/-- The mean of a non-empty cluster all of whose points have the value `v` is `v`. -/
theorem cluster_mean_const (f : ℚ → Nat) (data : List ℚ) (c : Nat) (v : ℚ)
    (hall : ∀ x ∈ data, f x = c → x = v) (hex : ∃ x ∈ data, f x = c) :
    clusterCount (data.map f) c > 0 ∧
    clusterSum data (data.map f) c / (clusterCount (data.map f) c : ℚ) = v := by
  have hsum : clusterSum data (data.map f) c = v * (clusterCount (data.map f) c : ℚ) := by
    rw [clusterSum_map, clusterCount_map]
    clear hex
    induction data with
    | nil => simp
    | cons x rest ih =>
      have hr := ih (fun y hy => hall y (List.mem_cons_of_mem _ hy))
      simp only [List.map_cons, List.sum_cons, List.countP_cons, hr]
      by_cases h : f x = c
      · have hx := hall x (List.mem_cons_self _ _) h
        subst hx
        simp only [h, if_true, decide_True, Nat.cast_add, Nat.cast_one]
        ring
      · simp [h]
  have hpos : clusterCount (data.map f) c > 0 := by
    rw [clusterCount_map]
    obtain ⟨x, hx, hfx⟩ := hex
    exact List.countP_pos_iff.mpr ⟨x, hx, by simpa using hfx⟩
  refine ⟨hpos, ?_⟩
  rw [hsum]
  have : (clusterCount (data.map f) c : ℚ) ≠ 0 := by
    exact_mod_cast (Nat.pos_iff_ne_zero.mp hpos)
  field_simp

theorem cluster_all (f : ℚ → Nat) (data : List ℚ) (c : Nat) (hall : ∀ x ∈ data, f x = c) :
    clusterCount (data.map f) c = data.length ∧ clusterSum data (data.map f) c = data.sum := by
  rw [clusterSum_map, clusterCount_map]
  induction data with
  | nil => simp
  | cons x rest ih =>
    have hr := ih (fun y hy => hall y (List.mem_cons_of_mem _ hy))
    have hx := hall x (List.mem_cons_self _ _)
    simp [List.countP_cons, hx, hr.1, hr.2]

theorem cluster_none (f : ℚ → Nat) (data : List ℚ) (c : Nat) (hall : ∀ x ∈ data, f x ≠ c) :
    clusterCount (data.map f) c = 0 := by
  rw [clusterCount_map]
  induction data with
  | nil => simp
  | cons x rest ih =>
    have hr := ih (fun y hy => hall y (List.mem_cons_of_mem _ hy))
    have hx := hall x (List.mem_cons_self _ _)
    simp [List.countP_cons, hx, hr]

end Morse

namespace Morse

theorem updateCenters_split (a b : ℚ) (hab : a < b) (data : List ℚ)
    (hval : ∀ x ∈ data, x = a ∨ x = b) (ha : a ∈ data) (hb : b ∈ data) (centers : List ℚ) :
    updateCenters data (data.map (fun x => if x = a then 0 else 1)) centers 2 = [a, b] := by
  have hba : ¬ b = a := ne_of_gt hab
  have h0 := cluster_mean_const (fun x => if x = a then 0 else 1) data 0 a
    (fun x _ hx => by
      by_cases hxa : x = a
      · exact hxa
      · simp [hxa] at hx)
    ⟨a, ha, by simp⟩
  have h1 := cluster_mean_const (fun x => if x = a then 0 else 1) data 1 b
    (fun x hx hfx => by
      rcases hval x hx with h | h
      · simp [h] at hfx
      · exact h)
    ⟨b, hb, by simp [hba]⟩
  simp only [updateCenters, List.range_succ, List.range_zero, List.nil_append, List.map_cons,
    List.map_nil, List.cons_append, if_pos h0.1, if_pos h1.1, h0.2, h1.2]

theorem updateCenters_swapped (a b : ℚ) (hab : a < b) (data : List ℚ)
    (hval : ∀ x ∈ data, x = a ∨ x = b) (ha : a ∈ data) (hb : b ∈ data) (centers : List ℚ) :
    updateCenters data (data.map (fun x => if x = a then 1 else 0)) centers 2 = [b, a] := by
  have hba : ¬ b = a := ne_of_gt hab
  have h0 := cluster_mean_const (fun x => if x = a then 1 else 0) data 0 b
    (fun x hx hfx => by
      rcases hval x hx with h | h
      · simp [h] at hfx
      · exact h)
    ⟨b, hb, by simp [hba]⟩
  have h1 := cluster_mean_const (fun x => if x = a then 1 else 0) data 1 a
    (fun x _ hx => by
      by_cases hxa : x = a
      · exact hxa
      · simp [hxa] at hx)
    ⟨a, ha, by simp⟩
  simp only [updateCenters, List.range_succ, List.range_zero, List.nil_append, List.map_cons,
    List.map_nil, List.cons_append, if_pos h0.1, if_pos h1.1, h0.2, h1.2]

theorem updateCenters_merged (a : ℚ) (data : List ℚ) (ha : a ∈ data) (c0 c1 : ℚ) :
    updateCenters data (data.map (fun x => if x = a then 0 else 0)) [c0, c1] 2
      = [data.sum / (data.length : ℚ), c1] := by
  have h0 := cluster_all (fun x => if x = a then 0 else 0) data 0 (fun x _ => by simp)
  have h1 := cluster_none (fun x => if x = a then 0 else 0) data 1 (fun x _ => by simp)
  have hpos : data.length > 0 := List.length_pos_of_mem ha
  simp only [updateCenters, List.range_succ, List.range_zero, List.nil_append, List.map_cons,
    List.map_nil, List.cons_append, h0.1, h0.2, h1, if_pos hpos, gt_iff_lt, lt_self_iff_false,
    if_false]
  simp

theorem sum_gt_of_two_valued (a b : ℚ) (hab : a < b) (data : List ℚ)
    (hval : ∀ x ∈ data, x = a ∨ x = b) (hb : b ∈ data) :
    (data.length : ℚ) * a < data.sum := by
  induction data with
  | nil => simp at hb
  | cons x rest ih =>
    have hrest : (rest.length : ℚ) * a ≤ rest.sum := by
      clear ih hb
      induction rest with
      | nil => simp
      | cons y r ihr =>
        have := ihr (fun z hz => by
          rcases List.mem_cons.mp hz with h | h
          · exact hval z (by rw [h]; exact List.mem_cons_self _ _)
          · exact hval z (List.mem_cons_of_mem _ (List.mem_cons_of_mem _ h)))
        have hy : a ≤ y := by
          rcases hval y (List.mem_cons_of_mem _ (List.mem_cons_self _ _)) with h | h
          · exact le_of_eq h.symm
          · rw [h]; exact le_of_lt hab
        simp only [List.length_cons, List.sum_cons, Nat.cast_add, Nat.cast_one]
        linarith
    simp only [List.length_cons, List.sum_cons, Nat.cast_add, Nat.cast_one]
    rcases hval x (List.mem_cons_self _ _) with hx | hx
    · have hb2 : b ∈ rest := by
        rcases List.mem_cons.mp hb with h | h
        · exact absurd (h.trans hx : b = a) (ne_of_gt hab)
        · exact h
      have := ih (fun y hy => hval y (List.mem_cons_of_mem _ hy)) hb2
      rw [hx]
      linarith
    · rw [hx]
      linarith

theorem sum_lt_of_two_valued (a b : ℚ) (hab : a < b) (data : List ℚ)
    (hval : ∀ x ∈ data, x = a ∨ x = b) (ha : a ∈ data) :
    data.sum < (data.length : ℚ) * b := by
  induction data with
  | nil => simp at ha
  | cons x rest ih =>
    have hrest : rest.sum ≤ (rest.length : ℚ) * b := by
      clear ih ha
      induction rest with
      | nil => simp
      | cons y r ihr =>
        have := ihr (fun z hz => by
          rcases List.mem_cons.mp hz with h | h
          · exact hval z (by rw [h]; exact List.mem_cons_self _ _)
          · exact hval z (List.mem_cons_of_mem _ (List.mem_cons_of_mem _ h)))
        have hy : y ≤ b := by
          rcases hval y (List.mem_cons_of_mem _ (List.mem_cons_self _ _)) with h | h
          · rw [h]; exact le_of_lt hab
          · exact le_of_eq h
        simp only [List.length_cons, List.sum_cons, Nat.cast_add, Nat.cast_one]
        linarith
    simp only [List.length_cons, List.sum_cons, Nat.cast_add, Nat.cast_one]
    rcases hval x (List.mem_cons_self _ _) with hx | hx
    · rw [hx]
      linarith
    · have ha2 : a ∈ rest := by
        rcases List.mem_cons.mp ha with h | h
        · exact absurd (h.trans hx : a = b) (ne_of_lt hab)
        · exact h
      have := ih (fun y hy => hval y (List.mem_cons_of_mem _ hy)) ha2
      rw [hx]
      linarith

end Morse

namespace Morse

theorem kMeansIter_split (a b : ℚ) (hab : a < b) (data : List ℚ)
    (hval : ∀ x ∈ data, x = a ∨ x = b) (ha : a ∈ data) (hb : b ∈ data) (fuel : Nat)
    (labels : List Nat) :
    kMeansIter data 2 (fuel + 1) [a, b] labels
      = ([a, b], data.map (fun x => if x = a then 0 else 1)) := by
  have hasg : assign data [a, b] = data.map (fun x => if x = a then 0 else 1) := by
    rw [assign_two_valued a b data hval, nearest_at_first, nearest_at_second a b (ne_of_lt hab)]
  have hch : centersChanged [a, b] [a, b] = false := by
    simp [centersChanged, tolerance]
  rw [kMeansIter_succ, hasg, updateCenters_split a b hab data hval ha hb, hch]
  simp

theorem kMeansIter_swapped (a b : ℚ) (hab : a < b) (data : List ℚ)
    (hval : ∀ x ∈ data, x = a ∨ x = b) (ha : a ∈ data) (hb : b ∈ data) (fuel : Nat)
    (labels : List Nat) :
    kMeansIter data 2 (fuel + 1) [b, a] labels
      = ([b, a], data.map (fun x => if x = a then 1 else 0)) := by
  have hasg : assign data [b, a] = data.map (fun x => if x = a then 1 else 0) := by
    rw [assign_two_valued a b data hval, nearest_at_first, nearest_at_second b a (ne_of_gt hab)]
  have hch : centersChanged [b, a] [b, a] = false := by
    simp [centersChanged, tolerance]
  rw [kMeansIter_succ, hasg, updateCenters_swapped a b hab data hval ha hb, hch]
  simp

theorem kMeansIter_merged (a b : ℚ) (hab : a < b) (data : List ℚ)
    (hval : ∀ x ∈ data, x = a ∨ x = b) (ha : a ∈ data) (hb : b ∈ data) (fuel : Nat)
    (labels : List Nat) (hmove : tolerance < data.sum / (data.length : ℚ) - a) :
    kMeansIter data 2 (fuel + 3) [a, a] labels
      = ([b, a], data.map (fun x => if x = a then 1 else 0)) := by
  have hn : (0 : ℚ) < (data.length : ℚ) := by
    exact_mod_cast List.length_pos_of_mem ha
  have hma : a < data.sum / (data.length : ℚ) := by
    rw [lt_div_iff₀ hn, mul_comm]
    exact sum_gt_of_two_valued a b hab data hval hb
  have hmb : data.sum / (data.length : ℚ) < b := by
    rw [div_lt_iff₀ hn, mul_comm]
    exact sum_lt_of_two_valued a b hab data hval ha
  -- first round: every point joins cluster 0, whose centre moves to the mean
  have hasg1 : assign data [a, a] = data.map (fun x => if x = a then 0 else 0) := by
    rw [assign_two_valued a b data hval, nearest_at_first,
      nearest_first_of_le a a b (le_refl _)]
  have hch1 : centersChanged [a, a] [data.sum / (data.length : ℚ), a] = true := by
    have h1 : |a - data.sum / (data.length : ℚ)| = data.sum / (data.length : ℚ) - a := by
      rw [abs_sub_comm, abs_of_pos (sub_pos.mpr hma)]
    simp [centersChanged, h1, hmove]
  -- second round: the points split, the centres become b and a
  have hasg2 : assign data [data.sum / (data.length : ℚ), a]
      = data.map (fun x => if x = a then 1 else 0) := by
    rw [assign_two_valued a b data hval, nearest_at_second _ a (ne_of_gt hma),
      nearest_first_of_le _ a b (by
        rw [abs_of_pos (sub_pos.mpr hmb), abs_of_pos (sub_pos.mpr hab)]
        linarith)]
  rw [show fuel + 3 = (fuel + 2) + 1 from rfl, kMeansIter_succ, hasg1,
    updateCenters_merged a data ha a a, hch1, if_pos rfl,
    show fuel + 2 = (fuel + 1) + 1 from rfl, kMeansIter_succ, hasg2,
    updateCenters_swapped a b hab data hval ha hb]
  split
  · exact kMeansIter_swapped a b hab data hval ha hb fuel _
  · rfl

theorem remap_split (a b : ℚ) (hab : a < b) (data : List ℚ) :
    (data.map (fun x => if x = a then 0 else 1)).map (remapLabel [a, b] (sortFloat64s [a, b]))
      = data.map (fun x => if x = a then 0 else 1) := by
  have hs : sortFloat64s [a, b] = [a, b] := by
    simp [sortFloat64s, List.insertionSort, List.orderedInsert, le_of_lt hab]
  have hba : ¬ b = a := ne_of_gt hab
  rw [hs, List.map_map]
  apply List.map_congr_left
  intro x _
  by_cases hxa : x = a
  · simp [hxa, remapLabel, List.findIdx?_cons]
  · simp [hxa, remapLabel, List.findIdx?_cons, hba]

theorem remap_swapped (a b : ℚ) (hab : a < b) (data : List ℚ) :
    (data.map (fun x => if x = a then 1 else 0)).map (remapLabel [b, a] (sortFloat64s [b, a]))
      = data.map (fun x => if x = a then 0 else 1) := by
  have hs : sortFloat64s [b, a] = [a, b] := by
    simp [sortFloat64s, List.insertionSort, List.orderedInsert, not_le.mpr hab]
  have hba : ¬ b = a := ne_of_gt hab
  rw [hs, List.map_map]
  apply List.map_congr_left
  intro x _
  by_cases hxa : x = a
  · simp [hxa, remapLabel, List.findIdx?_cons]
  · simp [hxa, remapLabel, List.findIdx?_cons, hba]

theorem kMeansIter_stalled (a b : ℚ) (hab : a < b) (data : List ℚ)
    (hval : ∀ x ∈ data, x = a ∨ x = b) (ha : a ∈ data) (hb : b ∈ data) (fuel : Nat)
    (labels : List Nat) (hstall : ¬ tolerance < data.sum / (data.length : ℚ) - a) :
    kMeansIter data 2 (fuel + 1) [a, a] labels
      = ([data.sum / (data.length : ℚ), a], data.map (fun x => if x = a then 0 else 0)) := by
  have hn : (0 : ℚ) < (data.length : ℚ) := by
    exact_mod_cast List.length_pos_of_mem ha
  have hma : a < data.sum / (data.length : ℚ) := by
    rw [lt_div_iff₀ hn, mul_comm]
    exact sum_gt_of_two_valued a b hab data hval hb
  have hasg1 : assign data [a, a] = data.map (fun x => if x = a then 0 else 0) := by
    rw [assign_two_valued a b data hval, nearest_at_first,
      nearest_first_of_le a a b (le_refl _)]
  have hch1 : centersChanged [a, a] [data.sum / (data.length : ℚ), a] = false := by
    have h1 : |a - data.sum / (data.length : ℚ)| = data.sum / (data.length : ℚ) - a := by
      rw [abs_sub_comm, abs_of_pos (sub_pos.mpr hma)]
    have h2 : ¬ (tolerance < 0) := by
      unfold tolerance
      norm_num
    simp [centersChanged, h1, hstall, h2]
  rw [kMeansIter_succ, hasg1, updateCenters_merged a data ha a a, hch1]
  simp

/-- The general two-valued case: the centres in the order in which `kMeans` returns them. -/
theorem kMeans_two_valued (a b : ℚ) (hab : a < b) (data : List ℚ)
    (hval : ∀ x ∈ data, x = a ∨ x = b) (ha : a ∈ data) (hb : b ∈ data)
    (hmove : data.length / 2 < data.count a →
      1 / 1000000 < data.sum / (data.length : ℚ) - a) :
    kMeans data 2
      = .ok (if data.count a ≤ data.length / 2 then [a, b] else [b, a],
          data.map (fun x => if x = a then 0 else 1)) := by
  have hlen : ¬ data.length = 0 := Nat.pos_iff_ne_zero.mp (List.length_pos_of_mem ha)
  unfold kMeans
  rw [if_neg hlen, if_neg (by decide)]
  simp only []
  rw [initCenters_two_valued a b hab data hval ha hb]
  by_cases hc : data.count a ≤ data.length / 2
  · rw [if_pos hc, if_pos hc, show (100 : Nat) = 99 + 1 from rfl,
      kMeansIter_split a b hab data hval ha hb]
    simp only []
    rw [remap_split a b hab]
  · rw [if_neg hc, if_neg hc, show (100 : Nat) = 97 + 3 from rfl,
      kMeansIter_merged a b hab data hval ha hb 97 [] (hmove (not_le.mp hc))]
    simp only []
    rw [remap_swapped a b hab]

/-- The tolerance case: more than half of the points have the value `a` and the mean is within
the tolerance of `a`.  The loop stops after one round; the centres are the mean and `a`, and
every point gets the label 1, the rank of the mean. -/
theorem kMeans_two_valued_one_round (a b : ℚ) (hab : a < b) (data : List ℚ)
    (hval : ∀ x ∈ data, x = a ∨ x = b) (ha : a ∈ data) (hb : b ∈ data)
    (hmaj : data.length / 2 < data.count a)
    (hstall : ¬ tolerance < data.sum / (data.length : ℚ) - a) :
    kMeans data 2 = .ok ([data.sum / (data.length : ℚ), a], data.map (fun _ => 1)) := by
  have hlen : ¬ data.length = 0 := Nat.pos_iff_ne_zero.mp (List.length_pos_of_mem ha)
  have hn : (0 : ℚ) < (data.length : ℚ) := by
    exact_mod_cast List.length_pos_of_mem ha
  have hma : a < data.sum / (data.length : ℚ) := by
    rw [lt_div_iff₀ hn, mul_comm]
    exact sum_gt_of_two_valued a b hab data hval hb
  have hs : sortFloat64s [data.sum / (data.length : ℚ), a] = [a, data.sum / (data.length : ℚ)] := by
    simp [sortFloat64s, List.insertionSort, List.orderedInsert, not_le.mpr hma]
  unfold kMeans
  rw [if_neg hlen, if_neg (by decide)]
  simp only []
  rw [initCenters_two_valued a b hab data hval ha hb, if_neg (not_le.mpr hmaj),
    show (100 : Nat) = 99 + 1 from rfl, kMeansIter_stalled a b hab data hval ha hb 99 [] hstall]
  simp only []
  rw [hs, List.map_map]
  congr 2
  apply List.map_congr_left
  intro x _
  simp [remapLabel, List.findIdx?_cons, ne_of_gt hma]

theorem kMeans_long_run (n : Nat) (hn : 1000000 ≤ n) :
    kMeans ((List.replicate n (1 : Int) ++ [2]).map (fun (s : Int) => (s : ℚ))) 2
      = .ok ([((n : ℚ) + 2) / ((n : ℚ) + 1), 1],
          (List.replicate n (1 : Int) ++ [2]).map (fun _ => 1)) := by
  have hmap : (List.replicate n (1 : Int) ++ [2]).map (fun (s : Int) => (s : ℚ))
      = List.replicate n (1 : ℚ) ++ [2] := by
    simp
  have hlen : (List.replicate n (1 : ℚ) ++ [2]).length = n + 1 := by simp
  have hcount : (List.replicate n (1 : ℚ) ++ [2]).count 1 = n := by
    rw [List.count_append, List.count_replicate]
    simp
  have hsum : (List.replicate n (1 : ℚ) ++ [2]).sum = (n : ℚ) + 2 := by
    rw [List.sum_append, List.sum_replicate]
    simp
  have hk := kMeans_two_valued_one_round 1 2 (by norm_num) (List.replicate n (1 : ℚ) ++ [2])
    (fun x hx => by
      rcases List.mem_append.mp hx with h | h
      · left; exact List.eq_of_mem_replicate h
      · right; simpa using h)
    (List.mem_append_left _ (List.mem_replicate.mpr ⟨by omega, rfl⟩))
    (List.mem_append_right _ (by simp))
    (by rw [hlen, hcount]; omega)
    (by
      rw [hlen, hsum]
      unfold tolerance
      have hq : (1000000 : ℚ) ≤ (n : ℚ) := by exact_mod_cast hn
      have hpos : (0 : ℚ) < ((n + 1 : Nat) : ℚ) := by positivity
      rw [not_lt, sub_le_iff_le_add, div_le_iff₀ hpos]
      push_cast
      nlinarith)
  rw [hmap, hk, hlen, hsum]
  congr 2
  · push_cast
    rfl
  · rw [← hmap, List.map_map]
    rfl

/-- C5 (as stated, refuted): the list of 2000000 durations of 1 sample followed by one
duration of 2 samples takes the two values 1 < 2, both present; yet `kMeans` with k = 2 labels
every point 1, also the 1-valued ones, and none of its two centres is 2: both initial centres
are 1, the first round moves one of them to the mean of the data, which is within 1e-6 of 1,
and the loop stops.  And on values that are not integers the centres are not the two values
either: the mean of three copies of the `float64` 0.1, accumulated and divided as `kMeans`
does with rounding, is 0.10000000000000002 (the exact means of this embedding do not show
it). -/
theorem kMeans_long_run_one_cluster :
    (∀ d ∈ List.replicate 2000000 (1 : Int) ++ [2], d = 1 ∨ d = 2) ∧
    (1 : Int) ∈ List.replicate 2000000 (1 : Int) ++ [2] ∧
    (2 : Int) ∈ List.replicate 2000000 (1 : Int) ++ [2] ∧
    (∃ centers,
      kMeans ((List.replicate 2000000 (1 : Int) ++ [2]).map (fun (s : Int) => (s : ℚ))) 2
        = .ok (centers, (List.replicate 2000000 (1 : Int) ++ [2]).map (fun _ => 1)) ∧
      (2 : ℚ) ∉ centers) ∧
    roundFloat64 (roundFloat64 (roundFloat64 (roundFloat64 (0 + roundFloat64 (1 / 10))
        + roundFloat64 (1 / 10)) + roundFloat64 (1 / 10)) / 3)
      = roundFloat64 (1 / 10) + 1 / 2 ^ 56 := by
  refine ⟨?_, ?_, ?_, ⟨_, kMeans_long_run 2000000 (by norm_num), ?_⟩, by decide!⟩
  · intro d hd
    rcases List.mem_append.mp hd with h | h
    · left; exact List.eq_of_mem_replicate h
    · right; exact List.mem_singleton.mp h
  · exact List.mem_append_left _ (List.mem_replicate.mpr ⟨by norm_num, rfl⟩)
  · exact List.mem_append_right _ (List.mem_singleton.mpr rfl)
  · norm_num

/-- C5 (amended): for every list of integer durations whose values are all `a` or `b` with
`a < b`, both present, in any order, in which at most half of the points (`len / 2`, rounded
down) have the value `a` or else the mean of the data exceeds `a` by more than the tolerance
1e-6, `kMeans(data, 2)` converges to the two centres `a` and `b` and labels every `a`-valued
point 0 and every `b`-valued point 1. -/
theorem kMeans_two_durations (a b : Int) (hab : a < b) (samples : List Int)
    (hval : ∀ d ∈ samples, d = a ∨ d = b) (ha : a ∈ samples) (hb : b ∈ samples)
    (hmove : samples.length / 2 < samples.count a →
      1 / 1000000
        < (samples.map (fun (s : Int) => (s : ℚ))).sum / (samples.length : ℚ) - (a : ℚ)) :
    ∃ centers,
      kMeans (samples.map (fun (s : Int) => (s : ℚ))) 2
        = .ok (centers, samples.map (fun d => if d = a then 0 else 1)) ∧
      (centers = [(a : ℚ), (b : ℚ)] ∨ centers = [(b : ℚ), (a : ℚ)]) := by
  have hinj : Function.Injective (fun (s : Int) => (s : ℚ)) := fun x y h => Int.cast_injective h
  have hcount : (samples.map (fun (s : Int) => (s : ℚ))).count (a : ℚ) = samples.count a :=
    List.count_map_of_injective samples _ hinj a
  have hk := kMeans_two_valued (a : ℚ) (b : ℚ) (by exact_mod_cast hab)
    (samples.map (fun (s : Int) => (s : ℚ)))
    (fun x hx => by
      obtain ⟨d, hd, rfl⟩ := List.mem_map.mp hx
      rcases hval d hd with h | h
      · left; rw [h]
      · right; rw [h])
    (List.mem_map.mpr ⟨a, ha, rfl⟩) (List.mem_map.mpr ⟨b, hb, rfl⟩)
    (by
      rw [hcount, List.length_map]
      exact hmove)
  refine ⟨if (samples.map (fun (s : Int) => (s : ℚ))).count (a : ℚ)
      ≤ (samples.map (fun (s : Int) => (s : ℚ))).length / 2 then [(a : ℚ), (b : ℚ)]
    else [(b : ℚ), (a : ℚ)], ?_, ?_⟩
  · rw [hk, List.map_map]
    congr 2
    apply List.map_congr_left
    intro d _
    simp only [Function.comp, Int.cast_inj]
  · by_cases hc : (samples.map (fun (s : Int) => (s : ℚ))).count (a : ℚ)
        ≤ (samples.map (fun (s : Int) => (s : ℚ))).length / 2
    · left; rw [if_pos hc]
    · right; rw [if_neg hc]

/-- C5 (amended), at the durations [10,10,10,30,30,30] and at [1,1,1,5]. -/
theorem kMeans_two_durations_witness :
    (∃ centers, kMeans [10, 10, 10, 30, 30, 30] 2 = .ok (centers, [0, 0, 0, 1, 1, 1]) ∧
      (centers = [10, 30] ∨ centers = [30, 10])) ∧
    (∃ centers, kMeans [1, 1, 1, 5] 2 = .ok (centers, [0, 0, 0, 1]) ∧
      (centers = [1, 5] ∨ centers = [5, 1])) := by
  constructor
  · obtain ⟨centers, hk, hc⟩ := kMeans_two_durations 10 30 (by decide) [10, 10, 10, 30, 30, 30]
      (by decide) (by decide) (by decide) (fun h => absurd h (by decide))
    refine ⟨centers, ?_, ?_⟩
    · simpa using hk
    · simpa using hc
  · obtain ⟨centers, hk, hc⟩ := kMeans_two_durations 1 5 (by decide) [1, 1, 1, 5]
      (by decide) (by decide) (by decide) (fun _ => by norm_num)
    refine ⟨centers, ?_, ?_⟩
    · simpa using hk
    · simpa using hc

end Morse

namespace Morse

/-! ## Boundary correction -/

/-- C11: for every pair of rising and falling edge lists and every total length, the edge lists
that `calculateDurations` works on are the given ones with at most one virtual rising edge,
`-1`, prepended and at most one virtual falling edge, `totalLength - 1`, appended, and the number
of ON durations returned is the minimum of the two corrected lengths, so it never exceeds
`min(len(rising), len(falling))` counted after the correction. -/
theorem calculateDurations_correction_bounded (rising falling : List Int) (totalLength : Int) :
    ((correctEdges rising falling totalLength).1 = rising ∨
      (correctEdges rising falling totalLength).1 = (-1) :: rising) ∧
    ((correctEdges rising falling totalLength).2 = falling ∨
      (correctEdges rising falling totalLength).2 = falling ++ [totalLength - 1]) ∧
    (calculateDurations rising falling totalLength).1.length
      = min (correctEdges rising falling totalLength).1.length
          (correctEdges rising falling totalLength).2.length ∧
    (calculateDurations rising falling totalLength).1.length
      ≤ min (rising.length + 1) (falling.length + 1) := by
  have h1 : (correctEdges rising falling totalLength).1 = rising ∨
      (correctEdges rising falling totalLength).1 = (-1) :: rising := by
    unfold correctEdges
    split
    · simp only []
      split
      · right; rfl
      · left; rfl
    · left; rfl
  have h2 : (correctEdges rising falling totalLength).2 = falling ∨
      (correctEdges rising falling totalLength).2 = falling ++ [totalLength - 1] := by
    unfold correctEdges
    split
    · simp only []
      split_ifs
      · right; rfl
      · left; rfl
      · right; rfl
      · left; rfl
    · left; rfl
  have h3 : (calculateDurations rising falling totalLength).1.length
      = min (correctEdges rising falling totalLength).1.length
          (correctEdges rising falling totalLength).2.length := by
    simp only [calculateDurations, List.length_zipWith]
    exact min_comm _ _
  refine ⟨h1, h2, h3, ?_⟩
  rw [h3]
  have hl1 : (correctEdges rising falling totalLength).1.length ≤ rising.length + 1 := by
    rcases h1 with h | h <;> rw [h] <;> simp
  have hl2 : (correctEdges rising falling totalLength).2.length ≤ falling.length + 1 := by
    rcases h2 with h | h <;> rw [h] <;> simp
  exact min_le_min hl1 hl2

/-! ## Word splitting on a concrete input -/

/-- C18: for the symbols [.,.,.,.] with the character breaks [1,2,3] and the word break [1]
(strictly increasing, at least 1 and smaller than the four characters built), `mergeToText`
builds the characters ".", ".", ".", "." but returns "E EE": the first word ends before
character 1 and the next word starts at character 2, so character 1 is in no word and the text
without its space has three characters, not four. -/
theorem mergeToText_drops_character_at_word_break :
    morseCharactersOf [".", ".", ".", "."] [1, 2, 3] = .ok [".", ".", ".", "."] ∧
    textSegmentsOf morseMap [".", ".", ".", "."] [1] = .ok ["E", "EE"] ∧
    mergeToText morseMap [".", ".", ".", "."] [1, 2, 3] [1] = .ok "E EE" := by
  refine ⟨by decide, by decide, by decide⟩

end Morse

namespace Morse

/-! ## Character splitting -/

theorem foldl_append_string (l : List String) (acc : String) :
    l.foldl (fun r s => r ++ s) acc = acc ++ String.join l := by
  induction l generalizing acc with
  | nil => simp [String.join]
  | cons x rest ih =>
    simp only [List.foldl_cons, String.join]
    rw [ih, ih ("" ++ x)]
    simp [String.append_assoc]

theorem string_join_append (l1 l2 : List String) :
    String.join (l1 ++ l2) = String.join l1 ++ String.join l2 := by
  simp only [String.join, List.foldl_append]
  rw [foldl_append_string l2]
  rfl

theorem string_join_flatten (pieces : List (List String)) :
    String.join (pieces.map String.join) = String.join pieces.flatten := by
  induction pieces with
  | nil => rfl
  | cons p rest ih =>
    simp only [List.map_cons, List.flatten_cons]
    rw [string_join_append, ← ih]
    show String.join ([String.join p] ++ List.map String.join rest) = _
    rw [string_join_append]
    congr 1

theorem goSlice_ok {α : Type} (xs : List α) (lo hi : Nat) (h1 : lo ≤ hi) (h2 : hi ≤ xs.length) :
    goSlice xs (lo : Int) (hi : Int) = .ok ((xs.drop lo).take (hi - lo)) := by
  unfold goSlice
  have hc : 0 ≤ (lo : Int) ∧ (lo : Int) ≤ (hi : Int) ∧ (hi : Int) ≤ (xs.length : Int) := by
    omega
  rw [if_pos hc]
  congr 3
  omega

theorem clamp_cast (b : Int) (len start : Nat) (hb : (start : Int) ≤ b) :
    (((min b (len : Int)).toNat : Nat) : Int) = min b (len : Int) := by
  have : 0 ≤ min b (len : Int) := by
    apply le_min <;> omega
  omega

theorem splitChars_eq (syms : List String) (breaks : List Int) (start : Nat)
    (acc : List String) (hstart : start ≤ syms.length) (hge : ∀ b ∈ breaks, (start : Int) ≤ b)
    (hsorted : breaks.Pairwise (fun x y => x ≤ y)) :
    splitChars syms breaks (start : Int) acc
      = .ok ((cutEnd syms.length start breaks : Int),
          acc ++ (cutLoop syms start breaks).map String.join) := by
  induction breaks generalizing start acc with
  | nil => simp [splitChars, cutEnd, cutLoop]
  | cons b rest ih =>
    have hb : (start : Int) ≤ b := hge b (List.mem_cons_self _ _)
    have hcast := clamp_cast b syms.length start hb
    have hle1 : start ≤ (min b (syms.length : Int)).toNat := by
      have : (start : Int) ≤ min b (syms.length : Int) := le_min hb (by omega)
      omega
    have hle2 : (min b (syms.length : Int)).toNat ≤ syms.length := by
      have : min b (syms.length : Int) ≤ (syms.length : Int) := min_le_right _ _
      omega
    rw [List.pairwise_cons] at hsorted
    have hge2 : ∀ c ∈ rest, (((min b (syms.length : Int)).toNat : Nat) : Int) ≤ c :=
      fun c hc => by rw [hcast]; exact le_trans (min_le_left _ _) (hsorted.1 c hc)
    simp only [splitChars, cutEnd, cutLoop]
    generalize hE : (min b (syms.length : Int)).toNat = e at *
    rw [← hcast, goSlice_ok syms start e hle1 hle2]
    simp only []
    rw [ih e _ hle2 hge2 hsorted.2]
    simp

theorem cutEnd_bounds (len : Nat) (breaks : List Int) (start : Nat) (hstart : start ≤ len)
    (hge : ∀ b ∈ breaks, (start : Int) ≤ b) (hsorted : breaks.Pairwise (fun x y => x ≤ y)) :
    start ≤ cutEnd len start breaks ∧ cutEnd len start breaks ≤ len := by
  induction breaks generalizing start with
  | nil => exact ⟨le_refl _, hstart⟩
  | cons b rest ih =>
    have hb : (start : Int) ≤ b := hge b (List.mem_cons_self _ _)
    have hcast := clamp_cast b len start hb
    have hle1 : start ≤ (min b (len : Int)).toNat := by
      have : (start : Int) ≤ min b (len : Int) := le_min hb (by omega)
      omega
    have hle2 : (min b (len : Int)).toNat ≤ len := by
      have : min b (len : Int) ≤ (len : Int) := min_le_right _ _
      omega
    rw [List.pairwise_cons] at hsorted
    have := ih _ hle2
      (fun c hc => by rw [hcast]; exact le_trans (min_le_left _ _) (hsorted.1 c hc)) hsorted.2
    simp only [cutEnd]
    exact ⟨le_trans hle1 this.1, this.2⟩

theorem cutLoop_flatten (syms : List String) (breaks : List Int) (start : Nat)
    (hstart : start ≤ syms.length) (hge : ∀ b ∈ breaks, (start : Int) ≤ b)
    (hsorted : breaks.Pairwise (fun x y => x ≤ y)) :
    (cutLoop syms start breaks).flatten
      = (syms.drop start).take (cutEnd syms.length start breaks - start) := by
  induction breaks generalizing start with
  | nil => simp [cutLoop, cutEnd]
  | cons b rest ih =>
    have hb : (start : Int) ≤ b := hge b (List.mem_cons_self _ _)
    have hcast := clamp_cast b syms.length start hb
    have hle1 : start ≤ (min b (syms.length : Int)).toNat := by
      have : (start : Int) ≤ min b (syms.length : Int) := le_min hb (by omega)
      omega
    have hle2 : (min b (syms.length : Int)).toNat ≤ syms.length := by
      have : min b (syms.length : Int) ≤ (syms.length : Int) := min_le_right _ _
      omega
    rw [List.pairwise_cons] at hsorted
    have hge2 : ∀ c ∈ rest, (((min b (syms.length : Int)).toNat : Nat) : Int) ≤ c :=
      fun c hc => by rw [hcast]; exact le_trans (min_le_left _ _) (hsorted.1 c hc)
    have hb2 := cutEnd_bounds syms.length rest _ hle2 hge2 hsorted.2
    simp only [cutLoop, cutEnd, List.flatten_cons]
    rw [ih _ hle2 hge2 hsorted.2]
    generalize (min b (syms.length : Int)).toNat = e at *
    generalize cutEnd syms.length e rest = f at *
    have h1 : List.drop e syms = List.drop (e - start) (List.drop start syms) := by
      rw [List.drop_drop]; congr 1; omega
    rw [h1, ← List.take_add]
    congr 1
    omega

end Morse

namespace Morse

theorem cutLoop_positions (syms : List String) (breaks : List Int) (start : Nat)
    (hstart : start ≤ syms.length) (hge : ∀ b ∈ breaks, (start : Int) ≤ b)
    (hsorted : breaks.Pairwise (fun x y => x ≤ y)) (i : Nat) (h : i < breaks.length) :
    ((cutLoop syms start breaks).take (i + 1)).flatten.length + start
      = (min (breaks.get ⟨i, h⟩) (syms.length : Int)).toNat := by
  induction breaks generalizing start i with
  | nil => simp at h
  | cons b rest ih =>
    have hb : (start : Int) ≤ b := hge b (List.mem_cons_self _ _)
    have hcast := clamp_cast b syms.length start hb
    have hle1 : start ≤ (min b (syms.length : Int)).toNat := by
      have : (start : Int) ≤ min b (syms.length : Int) := le_min hb (by omega)
      omega
    have hle2 : (min b (syms.length : Int)).toNat ≤ syms.length := by
      have : min b (syms.length : Int) ≤ (syms.length : Int) := min_le_right _ _
      omega
    rw [List.pairwise_cons] at hsorted
    have hge2 : ∀ c ∈ rest, (((min b (syms.length : Int)).toNat : Nat) : Int) ≤ c :=
      fun c hc => by rw [hcast]; exact le_trans (min_le_left _ _) (hsorted.1 c hc)
    cases i with
    | zero =>
      simp only [cutLoop, List.take_succ_cons, List.take_zero, List.flatten_cons,
        List.flatten_nil, List.append_nil, List.length_take, List.length_drop,
        List.get_eq_getElem, List.getElem_cons_zero]
      omega
    | succ j =>
      have hj : j < rest.length := by simpa using h
      have := ih _ hle2 hge2 hsorted.2 j hj
      simp only [cutLoop, List.take_succ_cons, List.flatten_cons, List.length_append,
        List.length_take, List.length_drop, List.get_eq_getElem, List.getElem_cons_succ]
      simp only [List.get_eq_getElem] at this
      omega

/-- C19: for every symbol sequence and every non-decreasing list of non-negative
character-break indices, `mergeToText` builds its per-character Morse strings without a slice
failure, and they are the joined groups of the partition `cutPieces`: the group of the i-th
break ends at position `min(b_i, len)` (the groups up to it hold that many symbols), the symbols
after the last break form a final group, the groups concatenated are the symbol sequence
itself, and so the concatenation of all per-character Morse strings equals the concatenation of
the symbols. -/
theorem morseCharacters_partition (syms : List String) (breaks : List Int)
    (hnonneg : ∀ b ∈ breaks, 0 ≤ b) (hsorted : breaks.Pairwise (fun x y => x ≤ y)) :
    morseCharactersOf syms breaks = .ok ((cutPieces syms breaks).map String.join) ∧
    (cutPieces syms breaks).flatten = syms ∧
    (∀ i (h : i < breaks.length),
      ((cutPieces syms breaks).take (i + 1)).flatten.length
        = (min (breaks.get ⟨i, h⟩) (syms.length : Int)).toNat) ∧
    (cutPieces syms breaks).length
      = breaks.length + (if cutEnd syms.length 0 breaks < syms.length then 1 else 0) ∧
    String.join ((cutPieces syms breaks).map String.join) = String.join syms := by
  have hge : ∀ b ∈ breaks, ((0 : Nat) : Int) ≤ b := fun b hb => by simpa using hnonneg b hb
  have hsplit := splitChars_eq syms breaks 0 [] (Nat.zero_le _) hge hsorted
  have hbound := cutEnd_bounds syms.length breaks 0 (Nat.zero_le _) hge hsorted
  have hflat := cutLoop_flatten syms breaks 0 (Nat.zero_le _) hge hsorted
  have hlen : ∀ (bs : List Int) (start : Nat), (cutLoop syms start bs).length = bs.length := by
    intro bs
    induction bs with
    | nil => intro start; rfl
    | cons b rest ih => intro start; simp [cutLoop, ih]
  have hpart : (cutPieces syms breaks).flatten = syms := by
    unfold cutPieces
    rw [List.flatten_append, hflat]
    split
    · simp
    · rename_i hlt
      have : cutEnd syms.length 0 breaks = syms.length := by omega
      simp [this]
  refine ⟨?_, hpart, ?_, ?_, ?_⟩
  · unfold morseCharactersOf
    rw [show (0 : Int) = ((0 : Nat) : Int) from rfl, hsplit]
    simp only [List.nil_append, Nat.cast_lt]
    unfold cutPieces
    split
    · rename_i hlt
      rw [goSlice_ok syms _ _ (le_of_lt hlt) (le_refl _)]
      simp [List.take_of_length_le]
    · simp
  · intro i h
    have hpos := cutLoop_positions syms breaks 0 (Nat.zero_le _) hge hsorted i h
    unfold cutPieces
    rw [List.take_append_of_le_length (by rw [hlen]; omega)]
    simpa using hpos
  · unfold cutPieces
    rw [List.length_append, hlen]
    split <;> simp
  · rw [string_join_flatten, hpart]

/-- C19, at four dots and the breaks [1, 2, 9]. -/
theorem morseCharacters_partition_witness :
    morseCharactersOf [".", ".", ".", "."] [1, 2, 9] = .ok [".", ".", ".."] ∧
    cutPieces [".", ".", ".", "."] [1, 2, 9] = [["."], ["."], [".", "."]] :=
  ⟨(morseCharacters_partition [".", ".", ".", "."] [1, 2, 9] (by decide) (by decide)).1.trans
      (by decide),
    by decide⟩

end Morse

namespace Morse

/-! ## Absence of run-time failures in `MorseText` -/

theorem collectIdxs_increasing (keep : Nat → Bool) (labels : List Nat) (i : Int) :
    (collectIdxs keep labels i).Pairwise (fun x y => x < y) ∧
    ∀ x ∈ collectIdxs keep labels i, i + 1 ≤ x := by
  induction labels generalizing i with
  | nil => simp [collectIdxs]
  | cons lbl rest ih =>
    obtain ⟨h1, h2⟩ := ih (i + 1)
    simp only [collectIdxs]
    split
    · refine ⟨?_, ?_⟩
      · rw [List.pairwise_cons]
        refine ⟨fun y hy => ?_, h1⟩
        have := h2 y hy
        omega
      · intro x hx
        rcases List.mem_cons.mp hx with rfl | hx
        · exact le_refl _
        · have := h2 x hx
          omega
    · refine ⟨h1, fun x hx => ?_⟩
      have := h2 x hx
      omega

theorem kMeans_ok_of_pos (data : List ℚ) (k : Nat) (hk : 1 ≤ k) :
    ∃ r, kMeans data k = .ok r := by
  unfold kMeans
  split
  · exact ⟨_, rfl⟩
  · rw [if_neg (by omega)]
    exact ⟨_, rfl⟩

theorem detectSpaces_shape (offSamples : List Int) :
    ∃ (keep1 keep2 : Nat → Bool) (labels : List Nat),
      detectSpaces offSamples
        = .ok (collectIdxs keep1 labels 0, collectIdxs keep2 labels 0) := by
  unfold detectSpaces
  split
  · exact ⟨fun _ => true, fun _ => true, [], rfl⟩
  · rename_i hne
    have hk : 1 ≤ min 3 offSamples.length := by
      have : 0 < offSamples.length := Nat.pos_of_ne_zero hne
      omega
    obtain ⟨⟨centers, labels⟩, hr⟩ :=
      kMeans_ok_of_pos (offSamples.map (fun (s : Int) => (s : ℚ))) _ hk
    simp only [hr]
    split
    · exact ⟨fun _ => true, fun _ => true, [], rfl⟩
    · exact ⟨_, _, labels, rfl⟩

theorem splitWords_ok (table : String → Option String) (chars : List String)
    (ws : List Int) (wordStart : Int) (segs : List String) (h0 : 0 ≤ wordStart)
    (hge : ∀ w ∈ ws, wordStart ≤ w) (hs : ws.Pairwise (fun x y => x < y)) :
    ∃ wordStart1 segs1,
      splitWords table chars ws wordStart segs = .ok (wordStart1, segs1) ∧ 0 ≤ wordStart1 := by
  induction ws generalizing wordStart segs with
  | nil => exact ⟨wordStart, segs, rfl, h0⟩
  | cons w rest ih =>
    rw [List.pairwise_cons] at hs
    have hw : wordStart ≤ w := hge w (List.mem_cons_self _ _)
    simp only [splitWords]
    split
    · rename_i hlt
      have hsl : ∃ word, goSlice chars wordStart w = .ok word := by
        unfold goSlice
        rw [if_pos ⟨h0, hw, le_of_lt hlt⟩]
        exact ⟨_, rfl⟩
      obtain ⟨word, hword⟩ := hsl
      simp only [hword]
      exact ih (w + 1) _ (by omega) (fun v hv => by have := hs.1 v hv; omega) hs.2
    · exact ih wordStart segs h0 (fun v hv => hge v (List.mem_cons_of_mem _ hv)) hs.2

theorem textSegmentsOf_ok (table : String → Option String) (chars : List String)
    (ws : List Int) (hge : ∀ w ∈ ws, 1 ≤ w) (hs : ws.Pairwise (fun x y => x < y)) :
    ∃ segs, textSegmentsOf table chars ws = .ok segs := by
  obtain ⟨wordStart1, segs1, h1, h2⟩ := splitWords_ok table chars ws 0 [] (le_refl _)
    (fun w hw => by have := hge w hw; omega) hs
  unfold textSegmentsOf
  simp only [h1]
  by_cases hlt : wordStart1 < (chars.length : Int)
  · have hsl : ∃ word, goSlice chars wordStart1 chars.length = .ok word := by
      unfold goSlice
      rw [if_pos ⟨h2, le_of_lt hlt, le_refl _⟩]
      exact ⟨_, rfl⟩
    obtain ⟨word, hword⟩ := hsl
    simp only [if_pos hlt, hword]
    split <;> exact ⟨_, rfl⟩
  · simp only [if_neg hlt]
    split <;> exact ⟨_, rfl⟩

theorem mergeToText_ok (table : String → Option String) (dashDotChars : List String)
    (charBreakIdxs wordSpaceIdxs : List Int)
    (hc1 : ∀ b ∈ charBreakIdxs, 1 ≤ b) (hc2 : charBreakIdxs.Pairwise (fun x y => x < y))
    (hw1 : ∀ w ∈ wordSpaceIdxs, 1 ≤ w) (hw2 : wordSpaceIdxs.Pairwise (fun x y => x < y)) :
    ∃ text, mergeToText table dashDotChars charBreakIdxs wordSpaceIdxs = .ok text := by
  have hge : ∀ b ∈ charBreakIdxs, ((0 : Nat) : Int) ≤ b := fun b hb => by
    have := hc1 b hb
    simp only [Nat.cast_zero]
    omega
  have hsorted : charBreakIdxs.Pairwise (fun x y => x ≤ y) :=
    hc2.imp (fun h => le_of_lt h)
  have hsplit := splitChars_eq dashDotChars charBreakIdxs 0 [] (Nat.zero_le _) hge hsorted
  have hchars : ∃ chars, morseCharactersOf dashDotChars charBreakIdxs = .ok chars := by
    unfold morseCharactersOf
    rw [show (0 : Int) = ((0 : Nat) : Int) from rfl, hsplit]
    simp only [Nat.cast_lt]
    split
    · rename_i hlt
      rw [goSlice_ok dashDotChars _ _ (le_of_lt hlt) (le_refl _)]
      exact ⟨_, rfl⟩
    · exact ⟨_, rfl⟩
  obtain ⟨chars, hch⟩ := hchars
  obtain ⟨segs, hsegs⟩ := textSegmentsOf_ok table chars wordSpaceIdxs hw1 hw2
  unfold mergeToText
  simp only [hch, hsegs]
  exact ⟨_, rfl⟩

/-- C20: for every lookup table, every OFF-duration list and every symbol list (of any
length), `detectSpaces` calls `kMeans` with `k = min(3, len) ≥ 1` on a non-empty list, so the
call does not divide by zero; `detectSpaces` returns break lists that are strictly increasing
and at least 1; and `mergeToText` on these breaks, hence `MorseText`, returns a text: no
slice it takes is out of bounds. -/
theorem morseText_never_fails (table : String → Option String) (offSamples : List Int)
    (dotChars : List String) :
    (offSamples.length ≠ 0 → 1 ≤ min 3 offSamples.length ∧
      ∃ r, kMeans (offSamples.map (fun (s : Int) => (s : ℚ))) (min 3 offSamples.length)
        = .ok r) ∧
    ∃ charBreakIdxs wordSpaceIdxs text,
      detectSpaces offSamples = .ok (charBreakIdxs, wordSpaceIdxs) ∧
      charBreakIdxs.Pairwise (fun x y => x < y) ∧ (∀ b ∈ charBreakIdxs, 1 ≤ b) ∧
      wordSpaceIdxs.Pairwise (fun x y => x < y) ∧ (∀ w ∈ wordSpaceIdxs, 1 ≤ w) ∧
      mergeToText table dotChars charBreakIdxs wordSpaceIdxs = .ok text ∧
      MorseText table offSamples dotChars = .ok text := by
  constructor
  · intro hne
    have hk : 1 ≤ min 3 offSamples.length := by
      have : 0 < offSamples.length := Nat.pos_of_ne_zero hne
      omega
    exact ⟨hk, kMeans_ok_of_pos _ _ hk⟩
  · obtain ⟨keep1, keep2, labels, hd⟩ := detectSpaces_shape offSamples
    have h1 := collectIdxs_increasing keep1 labels 0
    have h2 := collectIdxs_increasing keep2 labels 0
    have hc1 : ∀ b ∈ collectIdxs keep1 labels 0, 1 ≤ b := fun b hb => by
      have := h1.2 b hb
      omega
    have hw1 : ∀ b ∈ collectIdxs keep2 labels 0, 1 ≤ b := fun b hb => by
      have := h2.2 b hb
      omega
    obtain ⟨text, ht⟩ := mergeToText_ok table dotChars _ _ hc1 h1.1 hw1 h2.1
    refine ⟨_, _, text, hd, h1.1, hc1, h2.1, hw1, ht, ?_⟩
    unfold MorseText
    simp only [hd]
    exact ht

/-- C20, at four dots and the gaps [1, 3, 7]. -/
theorem morseText_never_fails_witness :
    1 ≤ min 3 [(1 : Int), 3, 7].length ∧
    ∃ text, MorseText morseMap [1, 3, 7] [".", ".", ".", "."] = .ok text :=
  ⟨((morseText_never_fails morseMap [1, 3, 7] [".", ".", ".", "."]).1 (by decide)).1,
    match (morseText_never_fails morseMap [1, 3, 7] [".", ".", ".", "."]).2 with
    | ⟨_, _, text, _, _, _, _, _, _, h⟩ => ⟨text, h⟩⟩

end Morse

namespace Morse

/-! ## Binary signals as runs of tones and gaps -/

theorem findEdgesLoop_rise (n : Nat) (i : Int) (tail rising falling : List Int) :
    findEdgesLoop 0 i (List.replicate (n + 1) 1 ++ tail) rising falling
      = findEdgesLoop 1 (i + 1 + n) tail (rising ++ [i]) falling := by
  rw [List.replicate_succ, List.cons_append]
  simp only [findEdgesLoop, true_and, if_true]
  exact findEdgesLoop_one_run n (i + 1) tail _ _

theorem findEdgesLoop_fall (n : Nat) (i : Int) (tail rising falling : List Int) :
    findEdgesLoop 1 i (List.replicate (n + 1) 0 ++ tail) rising falling
      = findEdgesLoop 0 (i + 1 + n) tail rising (falling ++ [i]) := by
  rw [List.replicate_succ, List.cons_append]
  simp only [findEdgesLoop, show ¬ ((1 : Int) = 0 ∧ (0 : Int) = 1) by decide, if_false,
    true_and, if_true]
  exact findEdgesLoop_zero_run n (i + 1) tail _ _

theorem findEdgesLoop_tonesThenGaps (runsOZ : List (Nat × Nat))
    (hpos : ∀ p ∈ runsOZ, 1 ≤ p.1 ∧ 1 ≤ p.2) (i : Int) (tail rising falling : List Int) :
    findEdgesLoop 0 i (tonesThenGaps runsOZ ++ tail) rising falling
      = findEdgesLoop 0 (i + runsLength runsOZ) tail (rising ++ risingAt i runsOZ)
          (falling ++ fallingAt i runsOZ) := by
  induction runsOZ generalizing i rising falling with
  | nil => simp [tonesThenGaps, runsLength, risingAt, fallingAt]
  | cons p rest ih =>
    obtain ⟨o, z⟩ := p
    have hp := hpos (o, z) (List.mem_cons_self _ _)
    obtain ⟨o, rfl⟩ : ∃ o', o = o' + 1 := ⟨o - 1, by have := hp.1; simp at this; omega⟩
    obtain ⟨z, rfl⟩ : ∃ z', z = z' + 1 := ⟨z - 1, by have := hp.2; simp at this; omega⟩
    simp only [tonesThenGaps, List.append_assoc]
    rw [findEdgesLoop_rise, findEdgesLoop_fall,
      ih (fun q hq => hpos q (List.mem_cons_of_mem _ hq))]
    have e1 : i + 1 + (o : Int) + 1 + (z : Int) = i + ((o + 1 : Nat) : Int) + ((z + 1 : Nat) : Int) := by
      push_cast; ring
    have e2 : i + 1 + (o : Int) = i + ((o + 1 : Nat) : Int) := by
      push_cast; ring
    have e3 : i + ((o + 1 : Nat) : Int) + ((z + 1 : Nat) : Int) + (runsLength rest : Int)
        = i + ((o + 1 + (z + 1) + runsLength rest : Nat) : Int) := by
      push_cast; ring
    simp only [risingAt, fallingAt, runsLength, List.append_assoc, List.singleton_append]
    rw [e1, e2, e3]

theorem findEdgesLoop_final_tone (t : Nat) (i : Int) (rising falling : List Int) :
    findEdgesLoop 0 i (List.replicate t 1) rising falling
      = (rising ++ (if t = 0 then [] else [i]), falling) := by
  cases t with
  | zero => simp [findEdgesLoop]
  | succ n =>
    have := findEdgesLoop_rise n i [] rising falling
    rw [List.append_nil] at this
    rw [this]
    simp [findEdgesLoop]

end Morse

namespace Morse

theorem binary_normal_form (signal : List Int) (hbin : ∀ x ∈ signal, x = 0 ∨ x = 1) :
    ∃ (a z0 : Nat) (runsOZ : List (Nat × Nat)) (t : Nat),
      signal = List.replicate a 1 ++ (List.replicate z0 0 ++
        (tonesThenGaps runsOZ ++ List.replicate t 1)) ∧
      (∀ p ∈ runsOZ, 1 ≤ p.1 ∧ 1 ≤ p.2) ∧ (z0 = 0 → runsOZ = [] ∧ t = 0) := by
  induction signal with
  | nil => exact ⟨0, 0, [], 0, by simp [tonesThenGaps], by simp, by simp⟩
  | cons x tl ih =>
    obtain ⟨a, z0, runsOZ, t, htl, hpos, hz⟩ :=
      ih (fun y hy => hbin y (List.mem_cons_of_mem _ hy))
    rcases hbin x (List.mem_cons_self _ _) with hx | hx
    · subst hx
      cases a with
      | zero =>
        refine ⟨0, z0 + 1, runsOZ, t, ?_, hpos, by simp⟩
        rw [htl]
        simp [List.replicate_succ]
      | succ a1 =>
        cases z0 with
        | zero =>
          obtain ⟨h1, h2⟩ := hz rfl
          subst h1 h2
          refine ⟨0, 1, [], a1 + 1, ?_, by simp, by simp⟩
          rw [htl]
          simp [tonesThenGaps]
        | succ z1 =>
          refine ⟨0, 1, (a1 + 1, z1 + 1) :: runsOZ, t, ?_, ?_, by simp⟩
          · rw [htl]
            simp [tonesThenGaps]
          · intro p hp
            rcases List.mem_cons.mp hp with rfl | hp
            · simp
            · exact hpos p hp
    · subst hx
      refine ⟨a + 1, z0, runsOZ, t, ?_, hpos, hz⟩
      rw [htl]
      simp [List.replicate_succ]

theorem silence_first_form (signal : List Int) (hbin : ∀ x ∈ signal, x = 0 ∨ x = 1)
    (hhead : signal.head? = some 0) :
    ∃ (z0 : Nat) (runsOZ : List (Nat × Nat)) (t : Nat),
      1 ≤ z0 ∧ (∀ p ∈ runsOZ, 1 ≤ p.1 ∧ 1 ≤ p.2) ∧
      signal = List.replicate z0 0 ++ (tonesThenGaps runsOZ ++ List.replicate t 1) := by
  obtain ⟨a, z0, runsOZ, t, hs, hpos, hz⟩ := binary_normal_form signal hbin
  cases a with
  | zero =>
    cases z0 with
    | zero =>
      obtain ⟨h1, h2⟩ := hz rfl
      subst h1 h2
      rw [hs] at hhead
      simp [tonesThenGaps] at hhead
    | succ z1 =>
      exact ⟨z1 + 1, runsOZ, t, by omega, hpos, by simpa using hs⟩
  | succ a1 =>
    rw [hs] at hhead
    simp [List.replicate_succ] at hhead

theorem tone_first_form (signal : List Int) (hbin : ∀ x ∈ signal, x = 0 ∨ x = 1)
    (hhead : signal.head? = some 1) :
    ∃ (a z0 : Nat) (runsOZ : List (Nat × Nat)) (t : Nat),
      1 ≤ a ∧ (∀ p ∈ runsOZ, 1 ≤ p.1 ∧ 1 ≤ p.2) ∧ (z0 = 0 → runsOZ = [] ∧ t = 0) ∧
      signal = List.replicate a 1 ++ (List.replicate z0 0 ++
        (tonesThenGaps runsOZ ++ List.replicate t 1)) := by
  obtain ⟨a, z0, runsOZ, t, hs, hpos, hz⟩ := binary_normal_form signal hbin
  cases a with
  | zero =>
    cases z0 with
    | zero =>
      obtain ⟨h1, h2⟩ := hz rfl
      subst h1 h2
      rw [hs] at hhead
      simp [tonesThenGaps] at hhead
    | succ z1 =>
      rw [hs] at hhead
      simp [List.replicate_succ] at hhead
  | succ a1 =>
    exact ⟨a1 + 1, z0, runsOZ, t, by omega, hpos, hz, hs⟩

theorem length_tonesThenGaps (runsOZ : List (Nat × Nat)) :
    (tonesThenGaps runsOZ).length = runsLength runsOZ := by
  induction runsOZ with
  | nil => rfl
  | cons p rest ih => simp [tonesThenGaps, runsLength, ih]; omega

theorem findEdges_silence_first (z0 : Nat) (hz0 : 1 ≤ z0) (runsOZ : List (Nat × Nat))
    (hpos : ∀ p ∈ runsOZ, 1 ≤ p.1 ∧ 1 ≤ p.2) (t : Nat) :
    findEdges (List.replicate z0 0 ++ (tonesThenGaps runsOZ ++ List.replicate t 1))
      = (risingAt z0 runsOZ ++ (if t = 0 then [] else [(z0 : Int) + runsLength runsOZ]),
          fallingAt z0 runsOZ) := by
  obtain ⟨z, rfl⟩ : ∃ z', z0 = z' + 1 := ⟨z0 - 1, by omega⟩
  rw [List.replicate_succ, List.cons_append]
  simp only [findEdges]
  rw [findEdgesLoop_zero_run, findEdgesLoop_tonesThenGaps _ hpos, findEdgesLoop_final_tone]
  have e : (1 : Int) + (z : Int) = ((z + 1 : Nat) : Int) := by push_cast; ring
  simp only [List.nil_append, e]

theorem findEdges_tone_first (a z0 : Nat) (ha : 1 ≤ a) (hz0 : 1 ≤ z0)
    (runsOZ : List (Nat × Nat)) (hpos : ∀ p ∈ runsOZ, 1 ≤ p.1 ∧ 1 ≤ p.2) (t : Nat) :
    findEdges (List.replicate a 1 ++ (List.replicate z0 0 ++
        (tonesThenGaps runsOZ ++ List.replicate t 1)))
      = (risingAt ((a : Int) + z0) runsOZ
            ++ (if t = 0 then [] else [(a : Int) + z0 + runsLength runsOZ]),
          (a : Int) :: fallingAt ((a : Int) + z0) runsOZ) := by
  obtain ⟨a1, rfl⟩ : ∃ a', a = a' + 1 := ⟨a - 1, by omega⟩
  obtain ⟨z, rfl⟩ : ∃ z', z0 = z' + 1 := ⟨z0 - 1, by omega⟩
  rw [List.replicate_succ, List.cons_append]
  simp only [findEdges]
  rw [findEdgesLoop_one_run, findEdgesLoop_fall, findEdgesLoop_tonesThenGaps _ hpos,
    findEdgesLoop_final_tone]
  have e1 : (1 : Int) + (a1 : Int) = ((a1 + 1 : Nat) : Int) := by push_cast; ring
  have e2 : ((a1 + 1 : Nat) : Int) + 1 + (z : Int)
      = ((a1 + 1 : Nat) : Int) + ((z + 1 : Nat) : Int) := by push_cast; ring
  simp only [List.nil_append, e1, e2, List.singleton_append]

end Morse

namespace Morse

theorem on_of_runs (i : Int) (runsOZ : List (Nat × Nat)) :
    List.zipWith (fun f r => f - r) (fallingAt i runsOZ) (risingAt i runsOZ)
      = runsOZ.map (fun p => (p.1 : Int)) := by
  induction runsOZ generalizing i with
  | nil => rfl
  | cons p rest ih =>
    simp only [fallingAt, risingAt, List.zipWith_cons_cons, List.map_cons, ih]
    congr 1
    ring

theorem off_of_runs (f0 : Int) (z : Nat) (rest : List (Nat × Nat)) :
    List.zipWith (fun r f => r - f) (risingAt (f0 + z) rest) (f0 :: fallingAt (f0 + z) rest)
      = ((z : Int) :: rest.map (fun p => (p.2 : Int))).dropLast := by
  induction rest generalizing f0 z with
  | nil => simp [risingAt]
  | cons p rest ih =>
    simp only [risingAt, fallingAt, List.zipWith_cons_cons, List.map_cons]
    have e : f0 + (z : Int) + (p.1 : Int) + (p.2 : Int) = (f0 + z + p.1) + (p.2 : Int) := by ring
    rw [e, ih (f0 + z + p.1) p.2, List.dropLast_cons₂]
    congr 1
    ring

theorem last_edges_of_runs (i : Int) (runsOZ : List (Nat × Nat)) (hne : runsOZ ≠ [])
    (hpos : ∀ p ∈ runsOZ, 1 ≤ p.1 ∧ 1 ≤ p.2) :
    ∃ r f, (risingAt i runsOZ).getLast? = some r ∧ (fallingAt i runsOZ).getLast? = some f ∧
      r < f ∧ f < i + runsLength runsOZ := by
  induction runsOZ generalizing i with
  | nil => exact absurd rfl hne
  | cons p rest ih =>
    have hp := hpos p (List.mem_cons_self _ _)
    cases rest with
    | nil =>
      refine ⟨i, i + p.1, by simp [risingAt], by simp [fallingAt], ?_, ?_⟩
      · have := hp.1; omega
      · simp only [runsLength]
        have := hp.2; push_cast; omega
    | cons q rest2 =>
      obtain ⟨r, f, h1, h2, h3, h4⟩ := ih (i + p.1 + p.2) (by simp)
        (fun x hx => hpos x (List.mem_cons_of_mem _ hx))
      refine ⟨r, f, ?_, ?_, h3, ?_⟩
      · simp only [risingAt] at h1 ⊢
        rw [List.getLast?_cons_cons]
        exact h1
      · simp only [fallingAt] at h2 ⊢
        rw [List.getLast?_cons_cons]
        exact h2
      · simp only [runsLength] at h4 ⊢
        push_cast at h4 ⊢
        omega

theorem correctEdges_of_runs (i : Int) (runsOZ : List (Nat × Nat))
    (hpos : ∀ p ∈ runsOZ, 1 ≤ p.1 ∧ 1 ≤ p.2) (totalLength : Int) :
    correctEdges (risingAt i runsOZ) (fallingAt i runsOZ) totalLength
      = (risingAt i runsOZ, fallingAt i runsOZ) := by
  cases hr : runsOZ with
  | nil => rfl
  | cons p rest =>
    obtain ⟨r, f, h1, h2, h3, _⟩ := last_edges_of_runs i runsOZ (by simp [hr]) hpos
    rw [hr] at h1 h2
    simp only [risingAt, fallingAt] at h1 h2 ⊢
    simp only [correctEdges]
    have hlt : ¬ (i + (p.1 : Int) < i) := by omega
    rw [if_neg hlt, h1, h2]
    simp only [Option.getD_some]
    rw [if_neg (by omega)]

theorem getLast?_append_ones (l : List Int) (t : Nat) :
    (l ++ List.replicate (t + 1) 1).getLast? = some 1 := by
  rw [List.replicate_succ', ← List.append_assoc, List.getLast?_append]
  simp

/-- C15: every binary signal that begins and ends with 0 is an initial silence of `z0 ≥ 1`
samples followed by tones and gaps of lengths `(o, z)`, all at least 1 (its maximal runs, the
last gap being the final silence); `calculateDurations` applied to the output of `findEdges`
returns as ON durations the tone lengths, in order, and as OFF durations the gap lengths except
the final silence, in order; hence with at least one tone `len(OFF) = len(ON) - 1`, and every
duration is strictly positive. -/
theorem ideal_signal_durations (signal : List Int) (hbin : ∀ x ∈ signal, x = 0 ∨ x = 1)
    (hhead : signal.head? = some 0) (hlast : signal.getLast? = some 0) :
    ∃ (z0 : Nat) (runsOZ : List (Nat × Nat)),
      1 ≤ z0 ∧ (∀ p ∈ runsOZ, 1 ≤ p.1 ∧ 1 ≤ p.2) ∧
      signal = List.replicate z0 0 ++ tonesThenGaps runsOZ ∧
      calculateDurations (findEdges signal).1 (findEdges signal).2 signal.length
        = (runsOZ.map (fun p => (p.1 : Int)), (runsOZ.map (fun p => (p.2 : Int))).dropLast) ∧
      ((calculateDurations (findEdges signal).1 (findEdges signal).2 signal.length).1 ≠ [] →
        (calculateDurations (findEdges signal).1 (findEdges signal).2 signal.length).2.length + 1
          = (calculateDurations (findEdges signal).1 (findEdges signal).2 signal.length).1.length) ∧
      (∀ d ∈ (calculateDurations (findEdges signal).1 (findEdges signal).2 signal.length).1,
        0 < d) ∧
      (∀ d ∈ (calculateDurations (findEdges signal).1 (findEdges signal).2 signal.length).2,
        0 < d) := by
  obtain ⟨z0, runsOZ, t, hz0, hpos, hs⟩ := silence_first_form signal hbin hhead
  have ht : t = 0 := by
    cases t with
    | zero => rfl
    | succ n =>
      rw [hs, ← List.append_assoc, getLast?_append_ones] at hlast
      simp at hlast
  subst ht
  have hs2 : signal = List.replicate z0 0 ++ tonesThenGaps runsOZ := by simpa using hs
  have hedges : findEdges signal = (risingAt z0 runsOZ, fallingAt z0 runsOZ) := by
    rw [hs, findEdges_silence_first z0 hz0 runsOZ hpos 0]
    simp
  have hdur : calculateDurations (findEdges signal).1 (findEdges signal).2 signal.length
      = (runsOZ.map (fun p => (p.1 : Int)), (runsOZ.map (fun p => (p.2 : Int))).dropLast) := by
    rw [hedges]
    simp only [calculateDurations, correctEdges_of_runs _ _ hpos, on_of_runs]
    congr 1
    cases runsOZ with
    | nil => rfl
    | cons p rest =>
      simp only [risingAt, fallingAt, List.drop_succ_cons, List.drop_zero, List.map_cons]
      have e : (z0 : Int) + (p.1 : Int) + (p.2 : Int) = ((z0 : Int) + p.1) + (p.2 : Int) := by
        ring
      rw [e, off_of_runs]
  refine ⟨z0, runsOZ, hz0, hpos, hs2, hdur, ?_, ?_, ?_⟩
  · rw [hdur]
    intro hne
    have : runsOZ ≠ [] := by
      intro h
      rw [h] at hne
      exact hne rfl
    simp only [List.length_dropLast, List.length_map]
    have := List.length_pos.mpr this
    omega
  · rw [hdur]
    intro d hd
    simp only [List.mem_map] at hd
    obtain ⟨p, hp, rfl⟩ := hd
    have := (hpos p hp).1
    omega
  · rw [hdur]
    intro d hd
    have hd2 := List.dropLast_subset _ hd
    simp only [List.mem_map] at hd2
    obtain ⟨p, hp, rfl⟩ := hd2
    have := (hpos p hp).2
    omega

/-- C15, at the signal [0,1,1,0,0,0,1,0]. -/
theorem ideal_signal_durations_witness :
    calculateDurations (findEdges [0, 1, 1, 0, 0, 0, 1, 0]).1 (findEdges [0, 1, 1, 0, 0, 0, 1, 0]).2
      ([(0 : Int), 1, 1, 0, 0, 0, 1, 0]).length = ([2, 1], [3]) ∧
    ∀ d ∈ (calculateDurations (findEdges [0, 1, 1, 0, 0, 0, 1, 0]).1
      (findEdges [0, 1, 1, 0, 0, 0, 1, 0]).2 ([(0 : Int), 1, 1, 0, 0, 0, 1, 0]).length).1, 0 < d :=
  ⟨by decide,
    match ideal_signal_durations [0, 1, 1, 0, 0, 0, 1, 0] (by decide) (by decide) (by decide) with
    | ⟨_, _, _, _, _, _, _, h, _⟩ => h⟩

end Morse

namespace Morse

/-! ## Tones cut by the buffer boundaries -/

theorem getLast?_append_tonesThenGaps (runsOZ : List (Nat × Nat))
    (hpos : ∀ p ∈ runsOZ, 1 ≤ p.1 ∧ 1 ≤ p.2) (l : List Int) (hl : l.getLast? = some 0) :
    (l ++ tonesThenGaps runsOZ).getLast? = some 0 := by
  induction runsOZ generalizing l with
  | nil => simpa [tonesThenGaps] using hl
  | cons p rest ih =>
    have hp := (hpos p (List.mem_cons_self _ _)).2
    obtain ⟨z, hz⟩ : ∃ z', p.2 = z' + 1 := ⟨p.2 - 1, by omega⟩
    simp only [tonesThenGaps]
    rw [← List.append_assoc, ← List.append_assoc]
    apply ih (fun q hq => hpos q (List.mem_cons_of_mem _ hq))
    rw [hz, List.replicate_succ', ← List.append_assoc, List.getLast?_append]
    simp

theorem length_risingAt (i : Int) (runsOZ : List (Nat × Nat)) :
    (risingAt i runsOZ).length = runsOZ.length := by
  induction runsOZ generalizing i with
  | nil => rfl
  | cons p rest ih => simp [risingAt, ih]

theorem length_fallingAt (i : Int) (runsOZ : List (Nat × Nat)) :
    (fallingAt i runsOZ).length = runsOZ.length := by
  induction runsOZ generalizing i with
  | nil => rfl
  | cons p rest ih => simp [fallingAt, ih]

/-- C13 (as stated, refuted): the binary signal [0,1,1] begins with 0 and ends with 1, and
its one rising edge, at index 1, has no matching falling edge; `findEdges` returns the rising
edges [1] and no falling edge, and `calculateDurations` returns no ON duration at all, not the
one duration (3 - 1) - 1 = 1. -/
theorem single_unfinished_tone_dropped :
    ([(0 : Int), 1, 1]).head? = some 0 ∧ ([(0 : Int), 1, 1]).getLast? = some 1 ∧
    findEdges [0, 1, 1] = ([1], []) ∧
    calculateDurations (findEdges [0, 1, 1]).1 (findEdges [0, 1, 1]).2 ([(0 : Int), 1, 1]).length
      = ([], []) ∧
    (calculateDurations (findEdges [0, 1, 1]).1 (findEdges [0, 1, 1]).2
      ([(0 : Int), 1, 1]).length).1 ≠ [1] := by
  refine ⟨by decide, by decide, by decide, by decide, by decide⟩

/-- C13 (amended): for every binary signal whose first sample is 0, whose last sample is 1 and
which contains at least one falling edge, `calculateDurations` applied to the output of
`findEdges` appends the virtual falling edge `len(signal) - 1` and returns one ON duration per
rising edge, the last one being `(len(signal) - 1) - r` for the last rising edge `r`. -/
theorem unfinished_tone_durations (signal : List Int) (hbin : ∀ x ∈ signal, x = 0 ∨ x = 1)
    (hhead : signal.head? = some 0) (hlast : signal.getLast? = some 1)
    (hfall : (findEdges signal).2 ≠ []) :
    correctEdges (findEdges signal).1 (findEdges signal).2 signal.length
      = ((findEdges signal).1, (findEdges signal).2 ++ [(signal.length : Int) - 1]) ∧
    (calculateDurations (findEdges signal).1 (findEdges signal).2 signal.length).1.length
      = (findEdges signal).1.length ∧
    ∃ r, (findEdges signal).1.getLast? = some r ∧
      (calculateDurations (findEdges signal).1 (findEdges signal).2 signal.length).1.getLast?
        = some ((signal.length : Int) - 1 - r) := by
  obtain ⟨z0, runsOZ, t, hz0, hpos, hs⟩ := silence_first_form signal hbin hhead
  have ht : t ≠ 0 := by
    intro ht
    subst ht
    have h0 : (List.replicate z0 (0 : Int)).getLast? = some 0 := by
      obtain ⟨z, rfl⟩ : ∃ z', z0 = z' + 1 := ⟨z0 - 1, by omega⟩
      rw [List.replicate_succ']
      simp
    have := getLast?_append_tonesThenGaps runsOZ hpos _ h0
    rw [hs] at hlast
    simp only [List.replicate_zero, List.append_nil] at hlast
    rw [this] at hlast
    simp at hlast
  have hedges : findEdges signal
      = (risingAt z0 runsOZ ++ [(z0 : Int) + runsLength runsOZ], fallingAt z0 runsOZ) := by
    rw [hs, findEdges_silence_first z0 hz0 runsOZ hpos t, if_neg ht]
  rw [hedges] at hfall ⊢
  simp only at hfall ⊢
  have hne : runsOZ ≠ [] := by
    intro h
    rw [h] at hfall
    exact hfall rfl
  obtain ⟨r, f, h1, h2, h3, h4⟩ := last_edges_of_runs z0 runsOZ hne hpos
  have hcorr : correctEdges (risingAt z0 runsOZ ++ [(z0 : Int) + runsLength runsOZ])
      (fallingAt z0 runsOZ) signal.length
      = (risingAt z0 runsOZ ++ [(z0 : Int) + runsLength runsOZ],
          fallingAt z0 runsOZ ++ [(signal.length : Int) - 1]) := by
    cases hr : runsOZ with
    | nil => exact absurd hr hne
    | cons p rest =>
      rw [hr] at h2
      simp only [risingAt, fallingAt, List.cons_append] at h2 ⊢
      simp only [correctEdges]
      have hlt : ¬ ((z0 : Int) + (p.1 : Int) < z0) := by omega
      rw [if_neg hlt, h2]
      have hl : ((z0 : Int) :: (risingAt ((z0 : Int) + p.1 + p.2) rest
          ++ [(z0 : Int) + runsLength (p :: rest)])).getLast?
          = some ((z0 : Int) + runsLength (p :: rest)) := by
        rw [← List.cons_append, List.getLast?_append]
        simp
      rw [hl]
      simp only [Option.getD_some]
      rw [hr] at h4
      rw [if_pos (by omega)]
      simp
  have hon : (calculateDurations (risingAt z0 runsOZ ++ [(z0 : Int) + runsLength runsOZ])
      (fallingAt z0 runsOZ) signal.length).1
      = runsOZ.map (fun p => (p.1 : Int))
          ++ [(signal.length : Int) - 1 - ((z0 : Int) + runsLength runsOZ)] := by
    simp only [calculateDurations, hcorr]
    rw [List.zipWith_append _ _ _ _ _ (by rw [length_fallingAt, length_risingAt]), on_of_runs]
    simp
  refine ⟨hcorr, ?_, (z0 : Int) + runsLength runsOZ, ?_, ?_⟩
  · rw [hon]
    simp [length_risingAt]
  · rw [List.getLast?_append]
    simp
  · rw [hon, List.getLast?_append]
    simp

/-- C13 (amended), at the signal [0,1,0,1,1]. -/
theorem unfinished_tone_durations_witness :
    (calculateDurations (findEdges [0, 1, 0, 1, 1]).1 (findEdges [0, 1, 0, 1, 1]).2
      ([(0 : Int), 1, 0, 1, 1]).length).1 = [1, 1] ∧
    (calculateDurations (findEdges [0, 1, 0, 1, 1]).1 (findEdges [0, 1, 0, 1, 1]).2
      ([(0 : Int), 1, 0, 1, 1]).length).1.length = (findEdges [0, 1, 0, 1, 1]).1.length :=
  ⟨by decide,
    (unfinished_tone_durations [0, 1, 0, 1, 1] (by decide) (by decide) (by decide)
      (by decide)).2.1⟩

end Morse

namespace Morse

theorem findEdges_all_ones (a : Nat) : findEdges (List.replicate a 1) = ([], []) := by
  cases a with
  | zero => rfl
  | succ n =>
    rw [List.replicate_succ]
    simp only [findEdges]
    have := findEdgesLoop_one_run n 1 [] [] []
    rw [List.append_nil] at this
    rw [this]
    rfl

/-- C14 (as stated, refuted): the binary signal [1,1,0] begins with 1 and contains the
falling edge 2; `findEdges` returns no rising edge and the falling edges [2], and
`calculateDurations` returns no ON duration at all, not the duration 2 + 1 = 3. -/
theorem single_leading_tone_dropped :
    ([(1 : Int), 1, 0]).head? = some 1 ∧
    findEdges [1, 1, 0] = ([], [2]) ∧
    calculateDurations (findEdges [1, 1, 0]).1 (findEdges [1, 1, 0]).2 ([(1 : Int), 1, 0]).length
      = ([], []) ∧
    (calculateDurations (findEdges [1, 1, 0]).1 (findEdges [1, 1, 0]).2
      ([(1 : Int), 1, 0]).length).1 ≠ [3] := by
  refine ⟨by decide, by decide, by decide, by decide⟩

/-- C14 (amended): for every binary signal whose first sample is 1 and which contains a
falling edge and a rising edge, `calculateDurations` applied to the output of `findEdges`
prepends the virtual rising edge `-1`, and the first ON duration is
`falling[0] - (-1) = falling[0] + 1`. -/
theorem leading_tone_duration (signal : List Int) (hbin : ∀ x ∈ signal, x = 0 ∨ x = 1)
    (hhead : signal.head? = some 1) (hfall : (findEdges signal).2 ≠ [])
    (hrise : (findEdges signal).1 ≠ []) :
    (correctEdges (findEdges signal).1 (findEdges signal).2 signal.length).1
      = (-1) :: (findEdges signal).1 ∧
    ∃ f0, (findEdges signal).2.head? = some f0 ∧
      (calculateDurations (findEdges signal).1 (findEdges signal).2 signal.length).1.head?
        = some (f0 + 1) := by
  obtain ⟨a, z0, runsOZ, t, ha, hpos, hz, hs⟩ := tone_first_form signal hbin hhead
  have hz0 : 1 ≤ z0 := by
    rcases Nat.eq_zero_or_pos z0 with h | h
    · exfalso
      obtain ⟨h1, h2⟩ := hz h
      subst h h1 h2
      rw [hs] at hfall
      simp only [List.replicate_zero, tonesThenGaps, List.append_nil] at hfall
      rw [findEdges_all_ones] at hfall
      exact hfall rfl
    · exact h
  have hedges := findEdges_tone_first a z0 ha hz0 runsOZ hpos t
  rw [← hs] at hedges
  rw [hedges] at hrise ⊢
  simp only at hrise ⊢
  have hhd : ∃ r0 rest, risingAt ((a : Int) + z0) runsOZ
      ++ (if t = 0 then [] else [(a : Int) + z0 + runsLength runsOZ]) = r0 :: rest ∧
      (a : Int) < r0 := by
    cases runsOZ with
    | nil =>
      by_cases ht : t = 0
      · rw [if_pos ht] at hrise
        exact absurd rfl hrise
      · rw [if_neg ht]
        refine ⟨_, [], rfl, ?_⟩
        simp only [runsLength]
        push_cast
        omega
    | cons p rest =>
      refine ⟨(a : Int) + z0, _, rfl, ?_⟩
      omega
  obtain ⟨r0, rest, hR, hlt⟩ := hhd
  rw [hR]
  have hc1 : (correctEdges (r0 :: rest) ((a : Int) :: fallingAt ((a : Int) + z0) runsOZ)
      signal.length).1 = (-1) :: r0 :: rest := by
    simp only [correctEdges, if_pos hlt]
  refine ⟨hc1, (a : Int), rfl, ?_⟩
  simp only [calculateDurations, hc1]
  have hc2 : ∃ tl, (correctEdges (r0 :: rest) ((a : Int) :: fallingAt ((a : Int) + z0) runsOZ)
      signal.length).2 = (a : Int) :: tl := by
    simp only [correctEdges, if_pos hlt]
    split
    · exact ⟨_, rfl⟩
    · exact ⟨_, rfl⟩
  obtain ⟨tl, htl⟩ := hc2
  rw [htl]
  simp

/-- C14 (amended), at the signal [1,1,0,1,0]. -/
theorem leading_tone_duration_witness :
    (calculateDurations (findEdges [1, 1, 0, 1, 0]).1 (findEdges [1, 1, 0, 1, 0]).2
      ([(1 : Int), 1, 0, 1, 0]).length).1 = [3, 1] ∧
    (correctEdges (findEdges [1, 1, 0, 1, 0]).1 (findEdges [1, 1, 0, 1, 0]).2
      ([(1 : Int), 1, 0, 1, 0]).length).1 = (-1) :: (findEdges [1, 1, 0, 1, 0]).1 :=
  ⟨by decide,
    (leading_tone_duration [1, 1, 0, 1, 0] (by decide) (by decide) (by decide) (by decide)).1⟩

end Morse

namespace Morse

/-! ## Nearest centre: general facts -/

theorem nearestLoop_stay (d : ℚ) (centers : List ℚ) (cIdx : Nat) (minDist : ℚ) (label : Nat)
    (h : ∀ c ∈ centers, minDist ≤ |d - c|) :
    nearestLoop d centers cIdx minDist label = label := by
  induction centers generalizing cIdx with
  | nil => rfl
  | cons c rest ih =>
    simp only [nearestLoop]
    rw [if_neg (not_lt.mpr (h c (List.mem_cons_self _ _)))]
    exact ih _ (fun c2 hc2 => h c2 (List.mem_cons_of_mem _ hc2))

theorem nearestLoop_member (d : ℚ) (centers : List ℚ) (cIdx : Nat) (minDist : ℚ) (label : Nat)
    (hpos : 0 < minDist) (hmem : d ∈ centers) :
    nearestLoop d centers cIdx minDist label = cIdx + centers.indexOf d := by
  induction centers generalizing cIdx minDist label with
  | nil => simp at hmem
  | cons c rest ih =>
    simp only [nearestLoop]
    by_cases hcd : c = d
    · subst hcd
      have h0 : |c - c| = 0 := by simp
      rw [h0, if_pos hpos, List.indexOf_cons_self]
      exact nearestLoop_stay c rest _ 0 cIdx (fun c2 _ => abs_nonneg _)
    · have hmem2 : d ∈ rest := by
        rcases List.mem_cons.mp hmem with h | h
        · exact absurd h.symm hcd
        · exact h
      have hdpos : 0 < |d - c| := abs_pos.mpr (sub_ne_zero.mpr (fun h => hcd h.symm))
      rw [List.indexOf_cons_ne _ hcd]
      split
      · rw [ih _ _ _ hdpos hmem2]
        omega
      · rw [ih _ _ _ hpos hmem2]
        omega

/-- A point that is one of the centres is assigned to the first centre equal to it. -/
theorem nearest_member (centers : List ℚ) (d : ℚ) (hmem : d ∈ centers) :
    nearest centers d = centers.indexOf d := by
  unfold nearest
  rw [nearestLoop_member d centers 0 maxFloat64 0 maxFloat64_pos hmem]
  omega

/-- A point to which no later centre is strictly nearer than the first keeps label 0. -/
theorem nearest_zero (c0 : ℚ) (rest : List ℚ) (d : ℚ) (h : ∀ c ∈ rest, |d - c0| ≤ |d - c|) :
    nearest (c0 :: rest) d = 0 := by
  unfold nearest
  simp only [nearestLoop]
  split
  · exact nearestLoop_stay d rest _ _ 0 h
  · rename_i hge
    exact nearestLoop_stay d rest _ _ 0 (fun c hc => le_trans (not_lt.mp hge) (h c hc))

/-! ## Centres that sit on every data value -/

theorem updateCenters_fixed (data centers : List ℚ) (hcover : ∀ x ∈ data, x ∈ centers) :
    updateCenters data (data.map (fun x => centers.indexOf x)) centers centers.length
      = centers := by
  unfold updateCenters
  apply List.ext_getElem
  · simp
  · intro i h1 h2
    simp only [List.getElem_map, List.getElem_range]
    split
    · rename_i hpos
      have hex : ∃ x ∈ data, centers.indexOf x = i := by
        rw [clusterCount_map] at hpos
        obtain ⟨x, hx, hfx⟩ := List.countP_pos_iff.mp hpos
        exact ⟨x, hx, by simpa using hfx⟩
      have hall : ∀ x ∈ data, centers.indexOf x = i → x = centers[i] := by
        intro x hx hxi
        have hlt : centers.indexOf x < centers.length := List.indexOf_lt_length.mpr (hcover x hx)
        have := List.getElem_indexOf hlt
        simp only [hxi] at this
        exact this.symm
      exact (cluster_mean_const (fun x => centers.indexOf x) data i centers[i] hall hex).2
    · simp [List.getD_eq_getElem?_getD, List.getElem?_eq_getElem h2]

theorem centersChanged_self (centers : List ℚ) : centersChanged centers centers = false := by
  unfold centersChanged
  rw [Bool.eq_false_iff]
  intro h
  rw [List.any_eq_true] at h
  obtain ⟨b, hb, hid⟩ := h
  rw [List.zipWith_same, List.mem_map] at hb
  obtain ⟨c, _, hc⟩ := hb
  simp [tolerance] at hc
  rw [← hc] at hid
  simp only [decide_eq_true_eq, id_eq] at hid
  norm_num at hid

theorem kMeansIter_fixed (data centers : List ℚ) (hcover : ∀ x ∈ data, x ∈ centers)
    (fuel : Nat) (labels : List Nat) :
    kMeansIter data centers.length (fuel + 1) centers labels
      = (centers, data.map (fun x => centers.indexOf x)) := by
  have hasg : assign data centers = data.map (fun x => centers.indexOf x) := by
    unfold assign
    exact List.map_congr_left (fun x hx => nearest_member centers x (hcover x hx))
  rw [kMeansIter_succ, hasg, updateCenters_fixed data centers hcover, centersChanged_self]
  simp

end Morse

namespace Morse

/-! ## Nearest centre: the first minimiser -/

theorem nearestLoop_spec (d : ℚ) (centers : List ℚ) (cIdx : Nat) (minDist : ℚ) (label : Nat) :
    (nearestLoop d centers cIdx minDist label = label ∧ ∀ c ∈ centers, minDist ≤ |d - c|) ∨
    (∃ j, j < centers.length ∧ nearestLoop d centers cIdx minDist label = cIdx + j ∧
      |d - centers.getD j 0| < minDist ∧
      (∀ j2, j2 < centers.length → |d - centers.getD j 0| ≤ |d - centers.getD j2 0|) ∧
      (∀ j2, j2 < j → |d - centers.getD j 0| < |d - centers.getD j2 0|)) := by
  induction centers generalizing cIdx minDist label with
  | nil => left; exact ⟨rfl, by simp⟩
  | cons c rest ih =>
    simp only [nearestLoop]
    by_cases hlt : |d - c| < minDist
    · rw [if_pos hlt]
      right
      rcases ih (cIdx + 1) (|d - c|) cIdx with ⟨h1, h2⟩ | ⟨j, hj, h1, h2, h3, h4⟩
      · refine ⟨0, by simp, by rw [h1]; rfl, by simpa using hlt, ?_, by simp⟩
        intro j2 hj2
        cases j2 with
        | zero => simp
        | succ n =>
          have hn : n < rest.length := by simpa using hj2
          simp only [List.getD_cons_zero, List.getD_cons_succ]
          rw [List.getD_eq_getElem _ _ hn]
          exact h2 _ (List.getElem_mem _)
      · refine ⟨j + 1, by simpa using hj, by rw [h1]; omega, ?_, ?_, ?_⟩
        · simp only [List.getD_cons_succ]
          exact lt_trans h2 hlt
        · intro j2 hj2
          cases j2 with
          | zero =>
            simp only [List.getD_cons_zero, List.getD_cons_succ]
            exact le_of_lt h2
          | succ n =>
            simp only [List.getD_cons_succ]
            exact h3 n (by simpa using hj2)
        · intro j2 hj2
          cases j2 with
          | zero =>
            simp only [List.getD_cons_zero, List.getD_cons_succ]
            exact h2
          | succ n =>
            simp only [List.getD_cons_succ]
            exact h4 n (by omega)
    · rw [if_neg hlt]
      rcases ih (cIdx + 1) minDist label with ⟨h1, h2⟩ | ⟨j, hj, h1, h2, h3, h4⟩
      · left
        refine ⟨h1, ?_⟩
        intro c2 hc2
        rcases List.mem_cons.mp hc2 with rfl | hc2
        · exact not_lt.mp hlt
        · exact h2 c2 hc2
      · right
        refine ⟨j + 1, by simpa using hj, by rw [h1]; omega, ?_, ?_, ?_⟩
        · simp only [List.getD_cons_succ]
          exact h2
        · intro j2 hj2
          cases j2 with
          | zero =>
            simp only [List.getD_cons_zero, List.getD_cons_succ]
            exact le_of_lt (lt_of_lt_of_le h2 (not_lt.mp hlt))
          | succ n =>
            simp only [List.getD_cons_succ]
            exact h3 n (by simpa using hj2)
        · intro j2 hj2
          cases j2 with
          | zero =>
            simp only [List.getD_cons_zero, List.getD_cons_succ]
            exact lt_of_lt_of_le h2 (not_lt.mp hlt)
          | succ n =>
            simp only [List.getD_cons_succ]
            exact h4 n (by omega)

/-- When every centre is within `math.MaxFloat64` of the point, the label is the first index
at which the distance to the point is minimal. -/
theorem nearest_spec (d : ℚ) (centers : List ℚ) (hne : centers ≠ [])
    (hfin : ∀ c ∈ centers, |d - c| < maxFloat64) :
    nearest centers d < centers.length ∧
    (∀ j, j < centers.length →
      |d - centers.getD (nearest centers d) 0| ≤ |d - centers.getD j 0|) ∧
    (∀ j, j < nearest centers d →
      |d - centers.getD (nearest centers d) 0| < |d - centers.getD j 0|) := by
  unfold nearest
  rcases nearestLoop_spec d centers 0 maxFloat64 0 with ⟨_, h2⟩ | ⟨j, hj, h1, _, h3, h4⟩
  · exfalso
    obtain ⟨c, hc⟩ := List.exists_mem_of_ne_nil centers hne
    exact absurd (hfin c hc) (not_lt.mpr (h2 c hc))
  · rw [h1, Nat.zero_add]
    exact ⟨hj, h3, h4⟩

theorem le_midpoint_of_nearer (u c1 c2 : ℚ) (hc : c1 < c2) (h : |u - c1| ≤ |u - c2|) :
    2 * u ≤ c1 + c2 := by
  rcases abs_cases (u - c1) with ⟨h1, _⟩ | ⟨h1, _⟩ <;>
  rcases abs_cases (u - c2) with ⟨h2, _⟩ | ⟨h2, _⟩ <;>
  rw [h1, h2] at h <;> linarith

theorem ge_midpoint_of_nearer (u c1 c2 : ℚ) (hc : c2 < c1) (h : |u - c1| ≤ |u - c2|) :
    c1 + c2 ≤ 2 * u := by
  rcases abs_cases (u - c1) with ⟨h1, _⟩ | ⟨h1, _⟩ <;>
  rcases abs_cases (u - c2) with ⟨h2, _⟩ | ⟨h2, _⟩ <;>
  rw [h1, h2] at h <;> linarith

end Morse

namespace Morse

/-! ## Centres stay within the range of the data -/

theorem cluster_mean_ge (f : ℚ → Nat) (data : List ℚ) (c : Nat) (p : ℚ)
    (hall : ∀ x ∈ data, f x = c → p ≤ x) (hpos : clusterCount (data.map f) c > 0) :
    p ≤ clusterSum data (data.map f) c / (clusterCount (data.map f) c : ℚ) := by
  have hsum : p * (clusterCount (data.map f) c : ℚ) ≤ clusterSum data (data.map f) c := by
    rw [clusterSum_map, clusterCount_map]
    clear hpos
    induction data with
    | nil => simp
    | cons x rest ih =>
      have hr := ih (fun y hy => hall y (List.mem_cons_of_mem _ hy))
      simp only [List.map_cons, List.sum_cons, List.countP_cons]
      by_cases h : f x = c
      · have hx := hall x (List.mem_cons_self _ _) h
        simp only [h, if_true, decide_True, Nat.cast_add, Nat.cast_one]
        linarith
      · simp only [h, if_false, decide_False, Bool.false_eq_true, Nat.add_zero, zero_add]
        exact hr
  have hc : (0 : ℚ) < (clusterCount (data.map f) c : ℚ) := by exact_mod_cast hpos
  rw [le_div_iff₀ hc]
  exact hsum

theorem cluster_mean_le (f : ℚ → Nat) (data : List ℚ) (c : Nat) (p : ℚ)
    (hall : ∀ x ∈ data, f x = c → x ≤ p) (hpos : clusterCount (data.map f) c > 0) :
    clusterSum data (data.map f) c / (clusterCount (data.map f) c : ℚ) ≤ p := by
  have hsum : clusterSum data (data.map f) c ≤ p * (clusterCount (data.map f) c : ℚ) := by
    rw [clusterSum_map, clusterCount_map]
    clear hpos
    induction data with
    | nil => simp
    | cons x rest ih =>
      have hr := ih (fun y hy => hall y (List.mem_cons_of_mem _ hy))
      simp only [List.map_cons, List.sum_cons, List.countP_cons]
      by_cases h : f x = c
      · have hx := hall x (List.mem_cons_self _ _) h
        simp only [h, if_true, decide_True, Nat.cast_add, Nat.cast_one]
        linarith
      · simp only [h, if_false, decide_False, Bool.false_eq_true, Nat.add_zero, zero_add]
        exact hr
  have hc : (0 : ℚ) < (clusterCount (data.map f) c : ℚ) := by exact_mod_cast hpos
  rw [div_le_iff₀ hc]
  exact hsum

theorem exists_data_bounds (data : List ℚ) (hne : data ≠ []) :
    ∃ lo ∈ data, ∃ hi ∈ data, ∀ x ∈ data, lo ≤ x ∧ x ≤ hi := by
  induction data with
  | nil => exact absurd rfl hne
  | cons x rest ih =>
    by_cases hr : rest = []
    · subst hr
      exact ⟨x, by simp, x, by simp, by simp⟩
    · obtain ⟨lo, hlo, hi, hhi, hb⟩ := ih hr
      refine ⟨min x lo, ?_, max x hi, ?_, ?_⟩
      · rcases min_choice x lo with h | h
        · rw [h]; exact List.mem_cons_self _ _
        · rw [h]; exact List.mem_cons_of_mem _ hlo
      · rcases max_choice x hi with h | h
        · rw [h]; exact List.mem_cons_self _ _
        · rw [h]; exact List.mem_cons_of_mem _ hhi
      · intro y hy
        rcases List.mem_cons.mp hy with rfl | hy
        · exact ⟨min_le_left _ _, le_max_left _ _⟩
        · exact ⟨le_trans (min_le_right _ _) (hb y hy).1, le_trans (hb y hy).2 (le_max_right _ _)⟩

theorem initCenters_mem (data : List ℚ) (hne : data ≠ []) (step k : Nat) :
    (initCenters (sortFloat64s data) step k).length = k ∧
    ∀ c ∈ initCenters (sortFloat64s data) step k, c ∈ data := by
  unfold initCenters
  refine ⟨by simp, ?_⟩
  intro c hc
  simp only [List.mem_map, List.mem_range] at hc
  obtain ⟨i, _, rfl⟩ := hc
  have hperm : List.Perm (sortFloat64s data) data := List.perm_insertionSort _ data
  have hlen : 0 < (sortFloat64s data).length := by
    rw [hperm.length_eq]
    exact List.length_pos.mpr hne
  have hidx : min (i * step) ((sortFloat64s data).length - 1) < (sortFloat64s data).length :=
    lt_of_le_of_lt (min_le_right _ _) (by omega)
  rw [List.getD_eq_getElem _ _ hidx]
  exact hperm.mem_iff.mp (List.getElem_mem _)

theorem updateCenters_bounds (data centers : List ℚ) (k : Nat) (lo hi : ℚ)
    (hlen : centers.length = k) (hb : ∀ c ∈ centers, lo ≤ c ∧ c ≤ hi)
    (hdata : ∀ x ∈ data, lo ≤ x ∧ x ≤ hi) (f : ℚ → Nat) :
    (updateCenters data (data.map f) centers k).length = k ∧
    ∀ c ∈ updateCenters data (data.map f) centers k, lo ≤ c ∧ c ≤ hi := by
  unfold updateCenters
  refine ⟨by simp, ?_⟩
  intro c hc
  simp only [List.mem_map, List.mem_range] at hc
  obtain ⟨i, hi2, rfl⟩ := hc
  split
  · rename_i hpos
    exact ⟨cluster_mean_ge f data i lo (fun x hx _ => (hdata x hx).1) hpos,
      cluster_mean_le f data i hi (fun x hx _ => (hdata x hx).2) hpos⟩
  · have hlt : i < centers.length := by omega
    rw [List.getD_eq_getElem _ _ hlt]
    exact hb _ (List.getElem_mem _)

theorem kMeansIter_shape (data : List ℚ) (k : Nat) (lo hi : ℚ)
    (hdata : ∀ x ∈ data, lo ≤ x ∧ x ≤ hi) (fuel : Nat) (centers : List ℚ) (labels : List Nat)
    (hlen : centers.length = k) (hb : ∀ c ∈ centers, lo ≤ c ∧ c ≤ hi) :
    ∃ prev : List ℚ, prev.length = k ∧ (∀ c ∈ prev, lo ≤ c ∧ c ≤ hi) ∧
      kMeansIter data k (fuel + 1) centers labels
        = (updateCenters data (data.map (nearest prev)) prev k, data.map (nearest prev)) := by
  induction fuel generalizing centers labels with
  | zero =>
    refine ⟨centers, hlen, hb, ?_⟩
    rw [kMeansIter_succ]
    split <;> rfl
  | succ n ih =>
    rw [kMeansIter_succ]
    split
    · have hu := updateCenters_bounds data centers k lo hi hlen hb hdata (nearest centers)
      exact ih _ _ hu.1 hu.2
    · exact ⟨centers, hlen, hb, rfl⟩

end Morse

namespace Morse

/-! ## Rank labels follow the data -/

theorem findIdx?_member (S : List ℚ) (u : ℚ) (hu : u ∈ S) :
    ∃ i, S.findIdx? (fun sc => decide (u = sc)) = some i := by
  have h : ∃ x, x ∈ S ∧ (fun sc => decide (u = sc)) x = true := ⟨u, hu, by simp⟩
  exact ⟨_, List.findIdx?_eq_some_of_exists h⟩

theorem firstIdx_lt (S : List ℚ) (hs : S.Pairwise (fun a b => a ≤ b)) (u v : ℚ)
    (hu : u ∈ S) (hv : v ∈ S)
    (hlt : (S.findIdx? (fun sc => decide (u = sc))).getD 0
      < (S.findIdx? (fun sc => decide (v = sc))).getD 0) :
    u < v := by
  induction S with
  | nil => simp at hu
  | cons s rest ih =>
    rw [List.pairwise_cons] at hs
    simp only [List.findIdx?_cons, List.findIdx?_succ, decide_eq_true_eq, Nat.zero_add] at hlt
    by_cases hus : u = s
    · by_cases hvs : v = s
      · simp [hus, hvs] at hlt
      · have hv2 : v ∈ rest := by
          rcases List.mem_cons.mp hv with h | h
          · exact absurd h hvs
          · exact h
        have := hs.1 v hv2
        rw [hus]
        exact lt_of_le_of_ne this (fun h => hvs h.symm)
    · have hu2 : u ∈ rest := by
        rcases List.mem_cons.mp hu with h | h
        · exact absurd h hus
        · exact h
      obtain ⟨i, hi⟩ := findIdx?_member rest u hu2
      by_cases hvs : v = s
      · simp [hus, hvs, hi] at hlt
      · have hv2 : v ∈ rest := by
          rcases List.mem_cons.mp hv with h | h
          · exact absurd h hvs
          · exact h
        obtain ⟨j, hj⟩ := findIdx?_member rest v hv2
        apply ih hs.2 hu2 hv2
        rw [hi, hj]
        simp only [hus, hvs, if_false, hi, hj, Option.map_some', Option.getD_some] at hlt
        simp only [Option.getD_some]
        omega

theorem updateCenters_getD (data : List ℚ) (labels : List Nat) (centers : List ℚ) (k i : Nat)
    (hi : i < k) :
    (updateCenters data labels centers k).getD i 0
      = if clusterCount labels i > 0 then
          clusterSum data labels i / (clusterCount labels i : ℚ)
        else centers.getD i 0 := by
  unfold updateCenters
  rw [List.getD_eq_getElem _ _ (by simpa using hi)]
  simp

theorem remapLabel_eq (C S : List ℚ) (l : Nat) (hl : l < C.length) :
    remapLabel C S l = (S.findIdx? (fun sc => decide (C.getD l 0 = sc))).getD 0 := by
  unfold remapLabel
  rw [List.get?_eq_getElem?, List.getElem?_eq_getElem hl, List.getD_eq_getElem _ _ hl]

theorem rank_order (data prev : List ℚ) (k : Nat) (lo hi : ℚ) (hk : 1 ≤ k)
    (hdata : ∀ x ∈ data, lo ≤ x ∧ x ≤ hi) (hspread : hi - lo < maxFloat64)
    (hlen : prev.length = k) (hb : ∀ c ∈ prev, lo ≤ c ∧ c ≤ hi)
    (x y : ℚ) (hx : x ∈ data) (hy : y ∈ data)
    (hlt : remapLabel (updateCenters data (data.map (nearest prev)) prev k)
        (sortFloat64s (updateCenters data (data.map (nearest prev)) prev k)) (nearest prev x)
      < remapLabel (updateCenters data (data.map (nearest prev)) prev k)
        (sortFloat64s (updateCenters data (data.map (nearest prev)) prev k))
        (nearest prev y)) :
    x < y := by
  have hne : prev ≠ [] := by
    intro h
    rw [h] at hlen
    simp at hlen
    omega
  have hfin : ∀ u ∈ data, ∀ c ∈ prev, |u - c| < maxFloat64 := by
    intro u hu c hc
    have h1 := hdata u hu
    have h2 := hb c hc
    have : |u - c| ≤ hi - lo := by
      rw [abs_le]
      constructor <;> linarith
    exact lt_of_le_of_lt this hspread
  obtain ⟨hx1, hx2, hx3⟩ := nearest_spec x prev hne (hfin x hx)
  obtain ⟨hy1, hy2, hy3⟩ := nearest_spec y prev hne (hfin y hy)
  have hx0 := hx1
  have hy0 := hy1
  rw [hlen] at hx1 hy1
  have hClen : (updateCenters data (data.map (nearest prev)) prev k).length = k := by
    simp [updateCenters]
  rw [remapLabel_eq _ _ _ (by rw [hClen]; exact hx1),
    remapLabel_eq _ _ _ (by rw [hClen]; exact hy1)] at hlt
  have hperm : List.Perm (sortFloat64s (updateCenters data (data.map (nearest prev)) prev k))
      (updateCenters data (data.map (nearest prev)) prev k) := List.perm_insertionSort _ _
  have hmemx : (updateCenters data (data.map (nearest prev)) prev k).getD (nearest prev x) 0
      ∈ sortFloat64s (updateCenters data (data.map (nearest prev)) prev k) := by
    rw [hperm.mem_iff, List.getD_eq_getElem _ _ (by rw [hClen]; exact hx1)]
    exact List.getElem_mem _
  have hmemy : (updateCenters data (data.map (nearest prev)) prev k).getD (nearest prev y) 0
      ∈ sortFloat64s (updateCenters data (data.map (nearest prev)) prev k) := by
    rw [hperm.mem_iff, List.getD_eq_getElem _ _ (by rw [hClen]; exact hy1)]
    exact List.getElem_mem _
  have hC := firstIdx_lt _ (List.sorted_insertionSort _ _) _ _ hmemx hmemy hlt
  have hcx : clusterCount (data.map (nearest prev)) (nearest prev x) > 0 := by
    rw [clusterCount_map]
    exact List.countP_pos_iff.mpr ⟨x, hx, by simp⟩
  have hcy : clusterCount (data.map (nearest prev)) (nearest prev y) > 0 := by
    rw [clusterCount_map]
    exact List.countP_pos_iff.mpr ⟨y, hy, by simp⟩
  rw [updateCenters_getD _ _ _ _ _ hx1, updateCenters_getD _ _ _ _ _ hy1, if_pos hcx,
    if_pos hcy] at hC
  have hxy : x ≠ y := by
    intro h
    rw [h] at hC
    exact lt_irrefl _ hC
  rcases lt_trichotomy (prev.getD (nearest prev x) 0) (prev.getD (nearest prev y) 0)
    with hc | hc | hc
  · have h1 := le_midpoint_of_nearer x _ _ hc (hx2 _ hy0)
    have h2 := ge_midpoint_of_nearer y _ _ hc (hy2 _ hx0)
    exact lt_of_le_of_ne (by linarith) hxy
  · exfalso
    have hl : nearest prev x ≠ nearest prev y := by
      intro h
      rw [h] at hC
      exact lt_irrefl _ hC
    rcases Nat.lt_or_gt_of_ne hl with h | h
    · have := hy3 _ h
      rw [hc] at this
      exact lt_irrefl _ this
    · have := hx3 _ h
      rw [hc] at this
      exact lt_irrefl _ this
  · exfalso
    have h1 := cluster_mean_ge (nearest prev) data (nearest prev x)
      ((prev.getD (nearest prev x) 0 + prev.getD (nearest prev y) 0) / 2)
      (fun u hu hux => by
        obtain ⟨_, hu2, _⟩ := nearest_spec u prev hne (hfin u hu)
        rw [hux] at hu2
        have := ge_midpoint_of_nearer u _ _ hc (hu2 _ hy0)
        linarith) hcx
    have h2 := cluster_mean_le (nearest prev) data (nearest prev y)
      ((prev.getD (nearest prev x) 0 + prev.getD (nearest prev y) 0) / 2)
      (fun u hu huy => by
        obtain ⟨_, hu2, _⟩ := nearest_spec u prev hne (hfin u hu)
        rw [huy] at hu2
        have := le_midpoint_of_nearer u _ _ hc (hu2 _ hx0)
        linarith) hcy
    linarith

end Morse

namespace Morse

theorem firstIdx_spec (S : List ℚ) (u : ℚ) (hu : u ∈ S) :
    (S.findIdx? (fun sc => decide (u = sc))).getD 0 < S.length ∧
    S.getD ((S.findIdx? (fun sc => decide (u = sc))).getD 0) 0 = u := by
  obtain ⟨i, hi⟩ := findIdx?_member S u hu
  rw [hi, Option.getD_some]
  obtain ⟨h, hp, _⟩ := List.findIdx?_eq_some_iff_getElem.mp hi
  refine ⟨h, ?_⟩
  rw [List.getD_eq_getElem _ _ h]
  have hp2 : u = S[i] := by simpa using hp
  exact hp2.symm

/-- A sum over the points whose cluster satisfies `P` is the sum, over the clusters that
satisfy `P`, of the sums over each cluster. -/
theorem sum_fibers (data : List ℚ) (f : ℚ → Nat) (k : Nat) (hf : ∀ y ∈ data, f y < k)
    (P : Nat → Prop) [DecidablePred P] (h : ℚ → ℚ) :
    (data.map (fun y => if P (f y) then h y else 0)).sum
      = ∑ r in Finset.range k,
          if P r then (data.map (fun y => if f y = r then h y else 0)).sum else 0 := by
  induction data with
  | nil => simp
  | cons y rest ih =>
    simp only [List.map_cons, List.sum_cons]
    rw [ih (fun z hz => hf z (List.mem_cons_of_mem _ hz))]
    have hsplit : ∀ r, (if P r then (if f y = r then h y else 0)
          + (rest.map (fun y => if f y = r then h y else 0)).sum else 0)
        = (if f y = r then (if P r then h y else 0) else 0)
          + (if P r then (rest.map (fun y => if f y = r then h y else 0)).sum else 0) := by
      intro r
      split_ifs <;> simp
    simp only [hsplit, Finset.sum_add_distrib, Finset.sum_ite_eq, Finset.mem_range,
      if_pos (hf y (List.mem_cons_self _ _))]

theorem countP_cast (data : List ℚ) (q : ℚ → Prop) [DecidablePred q] :
    ((data.countP (fun x => decide (q x)) : Nat) : ℚ)
      = (data.map (fun y => if q y then (1 : ℚ) else 0)).sum := by
  induction data with
  | nil => simp
  | cons y rest ih =>
    simp only [List.countP_cons, List.map_cons, List.sum_cons, Nat.cast_add, ih]
    by_cases hq : q y <;> simp [hq, add_comm]

/-- The centre ranked `l` in the sorted centres is the mean of the points labelled `l`. -/
theorem rank_mean (data prev : List ℚ) (k : Nat)
    (hf : ∀ y ∈ data, nearest prev y < k) (x0 : ℚ) (hx0 : x0 ∈ data) :
    remapLabel (updateCenters data (data.map (nearest prev)) prev k)
        (sortFloat64s (updateCenters data (data.map (nearest prev)) prev k)) (nearest prev x0)
      < k ∧
    (sortFloat64s (updateCenters data (data.map (nearest prev)) prev k)).getD
        (remapLabel (updateCenters data (data.map (nearest prev)) prev k)
          (sortFloat64s (updateCenters data (data.map (nearest prev)) prev k))
          (nearest prev x0)) 0
      = labelMean data
          (data.map (fun x => remapLabel (updateCenters data (data.map (nearest prev)) prev k)
            (sortFloat64s (updateCenters data (data.map (nearest prev)) prev k))
            (nearest prev x)))
          (remapLabel (updateCenters data (data.map (nearest prev)) prev k)
            (sortFloat64s (updateCenters data (data.map (nearest prev)) prev k))
            (nearest prev x0)) := by
  generalize hC : updateCenters data (data.map (nearest prev)) prev k = C
  generalize hS : sortFloat64s C = S
  have hClen : C.length = k := by
    rw [← hC]
    simp [updateCenters]
  have hperm : List.Perm S C := by
    rw [← hS]
    exact List.perm_insertionSort _ _
  have hSlen : S.length = k := by rw [hperm.length_eq, hClen]
  have hrank : ∀ r, r < k → remapLabel C S r < k ∧ S.getD (remapLabel C S r) 0 = C.getD r 0 := by
    intro r hr
    have hmem : C.getD r 0 ∈ S := by
      rw [hperm.mem_iff, List.getD_eq_getElem _ _ (by rw [hClen]; exact hr)]
      exact List.getElem_mem _
    rw [remapLabel_eq C S r (by rw [hClen]; exact hr)]
    have := firstIdx_spec S (C.getD r 0) hmem
    rw [hSlen] at this
    exact this
  generalize hl : remapLabel C S (nearest prev x0) = l
  have hl0 := hrank (nearest prev x0) (hf x0 hx0)
  rw [hl] at hl0
  refine ⟨hl0.1, ?_⟩
  have hfib : ∀ r, r < k → remapLabel C S r = l →
      (data.map (fun y => if nearest prev y = r then y else 0)).sum
        = S.getD l 0 * (data.map (fun y => if nearest prev y = r then (1 : ℚ) else 0)).sum := by
    intro r hr hrl
    rw [← clusterSum_map (nearest prev) data r,
      ← countP_cast data (fun y => nearest prev y = r), ← clusterCount_map (nearest prev) data r]
    by_cases hcnt : clusterCount (data.map (nearest prev)) r > 0
    · have hget := updateCenters_getD data (data.map (nearest prev)) prev k r hr
      rw [hC, if_pos hcnt] at hget
      have hv := (hrank r hr).2
      rw [hrl, hget] at hv
      have hpos : (0 : ℚ) < (clusterCount (data.map (nearest prev)) r : ℚ) := by
        exact_mod_cast hcnt
      rw [hv]
      field_simp
    · have hz : clusterCount (data.map (nearest prev)) r = 0 := by omega
      have hnone : ∀ x ∈ data, ¬ nearest prev x = r := by
        rw [clusterCount_map, List.countP_eq_zero] at hz
        intro x hx
        simpa using hz x hx
      have hs0 : clusterSum data (data.map (nearest prev)) r = 0 := by
        rw [clusterSum_map]
        apply List.sum_eq_zero
        intro z hz
        obtain ⟨y, hy, rfl⟩ := List.mem_map.mp hz
        rw [if_neg (hnone y hy)]
      rw [hs0, hz]
      simp
  have hsum : clusterSum data (data.map (fun x => remapLabel C S (nearest prev x))) l
      = S.getD l 0 * (clusterCount (data.map (fun x => remapLabel C S (nearest prev x))) l : ℚ) := by
    rw [clusterSum_map (fun x => remapLabel C S (nearest prev x)),
      clusterCount_map (fun x => remapLabel C S (nearest prev x)),
      countP_cast data (fun y => remapLabel C S (nearest prev y) = l),
      sum_fibers data (nearest prev) k hf (fun r => remapLabel C S r = l) (fun y => y),
      sum_fibers data (nearest prev) k hf (fun r => remapLabel C S r = l) (fun _ => 1),
      Finset.mul_sum]
    apply Finset.sum_congr rfl
    intro r hr
    by_cases hrl : remapLabel C S r = l
    · rw [if_pos hrl, if_pos hrl]
      exact hfib r (Finset.mem_range.mp hr) hrl
    · rw [if_neg hrl, if_neg hrl, mul_zero]
  have hcnt : 0 < clusterCount (data.map (fun x => remapLabel C S (nearest prev x))) l := by
    rw [clusterCount_map]
    exact List.countP_pos_iff.mpr ⟨x0, hx0, by simp [hl]⟩
  have hpos : (0 : ℚ)
      < (clusterCount (data.map (fun x => remapLabel C S (nearest prev x))) l : ℚ) := by
    exact_mod_cast hcnt
  unfold labelMean
  rw [hsum]
  field_simp

/-- The structure of the labels of `kMeans` on data whose values lie within `math.MaxFloat64`
of one another: they are a function of the value, ordered like the values, and each label in
use is the rank of the mean of its points among the sorted centres. -/
theorem kMeans_ranks (data : List ℚ) (k : Nat) (hne : data ≠ []) (hk : 1 ≤ k)
    (hfin : ∀ x ∈ data, ∀ y ∈ data, |x - y| < maxFloat64) :
    ∃ centers, ∃ g : ℚ → Nat, kMeans data k = .ok (centers, data.map g) ∧
      centers.length = k ∧
      (∀ x ∈ data, ∀ y ∈ data, g x < g y → x < y) ∧
      (∀ x ∈ data, g x < k ∧
        (sortFloat64s centers).getD (g x) 0 = labelMean data (data.map g) (g x)) := by
  obtain ⟨lo, hlo, hi, hhi, hdata⟩ := exists_data_bounds data hne
  have hspread : hi - lo < maxFloat64 := lt_of_le_of_lt (le_abs_self _) (hfin hi hhi lo hlo)
  have hinit := initCenters_mem data hne (data.length / k) k
  obtain ⟨prev, hplen, hpb, hiter⟩ := kMeansIter_shape data k lo hi hdata 99
    (initCenters (sortFloat64s data) (data.length / k) k) [] hinit.1
    (fun c hc => hdata c (hinit.2 c hc))
  have hlen0 : ¬ data.length = 0 := fun h => hne (List.length_eq_zero.mp h)
  have hk0 : ¬ k = 0 := by omega
  have hpne : prev ≠ [] := by
    intro h
    rw [h] at hplen
    simp at hplen
    omega
  have hf : ∀ y ∈ data, nearest prev y < k := by
    intro y hy
    have := (nearest_spec y prev hpne (fun c hc => by
      have h1 := hdata y hy
      have h2 := hpb c hc
      have : |y - c| ≤ hi - lo := by
        rw [abs_le]
        constructor <;> linarith
      exact lt_of_le_of_lt this hspread)).1
    rw [hplen] at this
    exact this
  refine ⟨updateCenters data (data.map (nearest prev)) prev k,
    fun x => remapLabel (updateCenters data (data.map (nearest prev)) prev k)
      (sortFloat64s (updateCenters data (data.map (nearest prev)) prev k)) (nearest prev x),
    ?_, ?_, ?_, ?_⟩
  · unfold kMeans
    rw [if_neg hlen0, if_neg hk0]
    simp only []
    rw [show (100 : Nat) = 99 + 1 from rfl, hiter, List.map_map]
    rfl
  · simp [updateCenters]
  · intro x hx y hy hlt
    exact rank_order data prev k lo hi hk hdata hspread hplen hpb x y hx hy hlt
  · intro x hx
    exact rank_mean data prev k hf x hx

theorem kMeans_long_run_labels :
    ∃ centers labels,
      kMeans ((List.replicate 2000000 (1 : Int) ++ [2]).map (fun (s : Int) => (s : ℚ))) 2
        = .ok (centers, labels) ∧
      labels.length = 2000001 ∧ (∀ l ∈ labels, l = 1) := by
  refine ⟨_, _, kMeans_long_run 2000000 (by norm_num), ?_, ?_⟩
  · rw [List.length_map, List.length_append, List.length_replicate, List.length_singleton]
  · intro l hl
    obtain ⟨_, _, h⟩ := List.mem_map.mp hl
    exact h.symm

/-- C12 (as stated, refuted): on the 2000000 durations of 1 sample followed by one duration
of 2 samples, `kMeans` with k = 2 returns 2000001 labels which are all 1: label 0 is not the
smallest-duration cluster, no point carries it, and the points of the smallest duration carry
the label 1. -/
theorem kMeans_label_zero_unused :
    ∃ centers labels,
      kMeans ((List.replicate 2000000 (1 : Int) ++ [2]).map (fun (s : Int) => (s : ℚ))) 2
        = .ok (centers, labels) ∧
      labels.length = 2000001 ∧ (∀ l ∈ labels, l = 1) ∧ 0 ∉ labels := by
  obtain ⟨centers, labels, hk, hlen, hall⟩ := kMeans_long_run_labels
  exact ⟨centers, labels, hk, hlen, hall, fun h => absurd (hall 0 h) (by decide)⟩

/-- C12 (amended): for every non-empty list of durations (Go `int` values, converted to
`float64`) and every `k ≥ 1`, `kMeans` returns `k` centres and one label per point; the labels
are ordered like the data: whenever `labels[i] < labels[j]`, `data[i] < data[j]`; and every
label `l` in use is below `k` and is the rank of its cluster: the centre at position `l` of the
sorted centres is the mean of the points labelled `l`.  So a higher label never holds a smaller
value and the smallest label in use is the smallest-duration cluster. -/
theorem kMeans_labels_ordered (samples : List Int) (k : Nat) (hne : samples ≠ []) (hk : 1 ≤ k)
    (hrange : ∀ d ∈ samples, -2 ^ 63 ≤ d ∧ d < 2 ^ 63) :
    ∃ centers labels,
      kMeans (samples.map (fun (s : Int) => (s : ℚ))) k = .ok (centers, labels) ∧
      labels.length = samples.length ∧ centers.length = k ∧
      (∀ i j (hi : i < samples.length) (hj : j < samples.length) (hi2 : i < labels.length)
        (hj2 : j < labels.length),
        labels.get ⟨i, hi2⟩ < labels.get ⟨j, hj2⟩ → samples.get ⟨i, hi⟩ < samples.get ⟨j, hj⟩) ∧
      (∀ l ∈ labels, l < k ∧
        (sortFloat64s centers).getD l 0
          = labelMean (samples.map (fun (s : Int) => (s : ℚ))) labels l) := by
  have hneq : samples.map (fun (s : Int) => (s : ℚ)) ≠ [] := by
    intro h
    exact hne (List.map_eq_nil_iff.mp h)
  have hfin : ∀ x ∈ samples.map (fun (s : Int) => (s : ℚ)),
      ∀ y ∈ samples.map (fun (s : Int) => (s : ℚ)), |x - y| < maxFloat64 := by
    intro x hx y hy
    obtain ⟨d, hd, rfl⟩ := List.mem_map.mp hx
    obtain ⟨e, he, rfl⟩ := List.mem_map.mp hy
    have h1 := hrange d hd
    have h2 := hrange e he
    have h3 : |d - e| < 2 ^ 64 := by
      rw [abs_lt]
      constructor <;> omega
    have h4 : |((d : ℚ) - (e : ℚ))| < 2 ^ 64 := by exact_mod_cast h3
    have h5 : (2 : ℚ) ^ 64 < maxFloat64 := by
      unfold maxFloat64
      norm_num
    exact lt_trans h4 h5
  obtain ⟨centers, g, hkm, hclen, hord, hmean⟩ :=
    kMeans_ranks (samples.map (fun (s : Int) => (s : ℚ))) k hneq hk hfin
  refine ⟨centers, (samples.map (fun (s : Int) => (s : ℚ))).map g, hkm, by simp, hclen, ?_, ?_⟩
  · intro i j hi hj hi2 hj2 hlt
    simp only [List.get_eq_getElem, List.getElem_map] at hlt ⊢
    have := hord _ (List.mem_map.mpr ⟨samples[i], List.getElem_mem _, rfl⟩)
      _ (List.mem_map.mpr ⟨samples[j], List.getElem_mem _, rfl⟩) hlt
    exact_mod_cast this
  · intro l hl
    obtain ⟨x, hx, rfl⟩ := List.mem_map.mp hl
    exact hmean x hx

/-- C12 (amended), at the durations [3, 1, 7, 1] and k = 3, where the labels are
[1, 0, 2, 0] and the centres [3, 1, 7]. -/
theorem kMeans_labels_ordered_witness :
    kMeans [3, 1, 7, 1] 3 = .ok ([3, 1, 7], [1, 0, 2, 0]) ∧
    ∃ centers labels, kMeans [3, 1, 7, 1] 3 = .ok (centers, labels) ∧
      labels.length = 4 ∧ centers.length = 3 ∧
      ∀ l ∈ labels, l < 3 ∧ (sortFloat64s centers).getD l 0 = labelMean [3, 1, 7, 1] labels l := by
  refine ⟨by decide!, ?_⟩
  obtain ⟨centers, labels, h1, h2, h3, _, h5⟩ := kMeans_labels_ordered [3, 1, 7, 1] 3
    (by decide) (by decide) (by decide)
  refine ⟨centers, labels, ?_, ?_, h3, ?_⟩
  · simpa using h1
  · simpa using h2
  · simpa using h5

end Morse

namespace Morse

/-! ## Break positions -/

theorem collectIdxs_map {α : Type} (keep : Nat → Bool) (f : α → Nat) (xs : List α) (i : Int) :
    collectIdxs keep (xs.map f) i = positionsWhere (fun x => keep (f x)) xs i := by
  induction xs generalizing i with
  | nil => rfl
  | cons x rest ih => simp only [List.map_cons, collectIdxs, positionsWhere, ih]

theorem positionsWhere_congr {α : Type} (p q : α → Bool) (xs : List α) (i : Int)
    (h : ∀ x ∈ xs, p x = q x) : positionsWhere p xs i = positionsWhere q xs i := by
  induction xs generalizing i with
  | nil => rfl
  | cons x rest ih =>
    simp only [positionsWhere, h x (List.mem_cons_self _ _),
      ih _ (fun y hy => h y (List.mem_cons_of_mem _ hy))]

theorem positionsWhere_map {α β : Type} (p : β → Bool) (g : α → β) (xs : List α) (i : Int) :
    positionsWhere p (xs.map g) i = positionsWhere (fun x => p (g x)) xs i := by
  induction xs generalizing i with
  | nil => rfl
  | cons x rest ih => simp only [List.map_cons, positionsWhere, ih]

theorem positionsWhere_none {α : Type} (p : α → Bool) (xs : List α) (i : Int)
    (h : ∀ x ∈ xs, p x = false) : positionsWhere p xs i = [] := by
  induction xs generalizing i with
  | nil => rfl
  | cons x rest ih =>
    simp only [positionsWhere, h x (List.mem_cons_self _ _), Bool.false_eq_true, if_false]
    exact ih _ (fun y hy => h y (List.mem_cons_of_mem _ hy))

/-! ## The `(label, mean)` pairs of `detectSpaces` -/

theorem present_labels (labels T : List Nat) (hT : T.Pairwise (fun a b => a < b))
    (hmem : ∀ l, l ∈ labels ↔ l ∈ T) :
    (labels.insertionSort (fun a b => a ≤ b)).dedup = T := by
  apply List.eq_of_perm_of_sorted (r := fun a b : Nat => a ≤ b)
  · rw [List.perm_ext_iff_of_nodup (List.nodup_dedup _) (hT.imp (fun h => ne_of_lt h))]
    intro l
    rw [List.mem_dedup, (List.perm_insertionSort _ labels).mem_iff]
    exact hmem l
  · exact (List.sorted_insertionSort (fun a b : Nat => a ≤ b) labels).sublist
      (List.dedup_sublist _)
  · exact hT.imp (fun h => le_of_lt h)

theorem sortedPairs_eq (floatSamples : List ℚ) (labels T : List Nat)
    (hT : T.Pairwise (fun a b => a < b)) (hmem : ∀ l, l ∈ labels ↔ l ∈ T)
    (hmeans : (T.map (fun lbl => (lbl, labelMean floatSamples labels lbl))).Pairwise
      (fun p q => p.2 ≤ q.2)) :
    sortedPairs floatSamples labels
      = T.map (fun lbl => (lbl, labelMean floatSamples labels lbl)) := by
  unfold sortedPairs
  simp only []
  rw [present_labels labels T hT hmem]
  exact List.Sorted.insertionSort_eq hmeans

theorem detectSpaces_of_kMeans (offSamples : List Int) (centers : List ℚ) (labels : List Nat)
    (hne : offSamples.length ≠ 0)
    (hk : kMeans (offSamples.map (fun (s : Int) => (s : ℚ))) (min 3 offSamples.length)
      = .ok (centers, labels))
    (hl : labels.length ≠ 0) :
    detectSpaces offSamples
      = .ok (collectIdxs (fun lbl => decide (lbl ≠
              (((sortedPairs (offSamples.map (fun (s : Int) => (s : ℚ))) labels).get? 0).map
                Prod.fst).getD 0)) labels 0,
          collectIdxs (fun lbl => decide
              ((sortedPairs (offSamples.map (fun (s : Int) => (s : ℚ))) labels).length = 3 ∧
                lbl = (((sortedPairs (offSamples.map (fun (s : Int) => (s : ℚ))) labels).get? 2).map
                  Prod.fst).getD 0)) labels 0) := by
  unfold detectSpaces
  rw [if_neg hne]
  simp only [hk]
  rw [if_neg hl]

end Morse

namespace Morse

/-! ## `kMeans` when the initial centres cover the data -/

theorem kMeans_covered (data : List ℚ) (k : Nat) (hne : data ≠ []) (hk : 1 ≤ k)
    (hcover : ∀ x ∈ data, x ∈ initCenters (sortFloat64s data) (data.length / k) k) :
    kMeans data k
      = .ok (initCenters (sortFloat64s data) (data.length / k) k,
          data.map (fun x =>
            ((sortFloat64s (initCenters (sortFloat64s data) (data.length / k) k)).findIdx?
              (fun sc => decide (x = sc))).getD 0)) := by
  have hlen : (initCenters (sortFloat64s data) (data.length / k) k).length = k :=
    (initCenters_mem data hne _ k).1
  have hfix := kMeansIter_fixed data _ hcover 99 []
  rw [hlen] at hfix
  have hlen0 : ¬ data.length = 0 := fun h => hne (List.length_eq_zero.mp h)
  have hk0 : ¬ k = 0 := by omega
  unfold kMeans
  rw [if_neg hlen0, if_neg hk0]
  simp only []
  rw [show (100 : Nat) = 99 + 1 from rfl, hfix]
  simp only [List.map_map]
  congr 2
  apply List.map_congr_left
  intro x hx
  have hlt : List.indexOf x (initCenters (sortFloat64s data) (data.length / k) k)
      < (initCenters (sortFloat64s data) (data.length / k) k).length :=
    List.indexOf_lt_length.mpr (hcover x hx)
  simp only [Function.comp]
  rw [remapLabel_eq _ _ _ hlt, List.getD_eq_getElem _ _ hlt, List.getElem_indexOf hlt]

theorem firstIdx_low (a b : ℚ) (hab : a < b) (C : List ℚ) (hval : ∀ x ∈ C, x = a ∨ x = b)
    (ha : a ∈ C) :
    ((sortFloat64s C).findIdx? (fun sc => decide (a = sc))).getD 0 = 0 := by
  rw [sortFloat64s_two_valued a b hab C hval]
  obtain ⟨p, hp⟩ : ∃ p, C.count a = p + 1 :=
    ⟨C.count a - 1, by have := List.count_pos_iff.mpr ha; omega⟩
  rw [hp, List.replicate_succ, List.cons_append]
  simp

theorem firstIdx_high (a b : ℚ) (hab : a < b) (C : List ℚ) (hval : ∀ x ∈ C, x = a ∨ x = b)
    (ha : a ∈ C) (hb : b ∈ C) :
    ((sortFloat64s C).findIdx? (fun sc => decide (b = sc))).getD 0 ≠ 0 := by
  have hbS : b ∈ sortFloat64s C := (List.perm_insertionSort _ C).mem_iff.mpr hb
  rw [sortFloat64s_two_valued a b hab C hval] at hbS ⊢
  obtain ⟨p, hp⟩ : ∃ p, C.count a = p + 1 :=
    ⟨C.count a - 1, by have := List.count_pos_iff.mpr ha; omega⟩
  rw [hp, List.replicate_succ, List.cons_append] at hbS ⊢
  have hba : ¬ b = a := ne_of_gt hab
  have hb2 : b ∈ List.replicate p a ++ List.replicate (C.count b) b := by
    rcases List.mem_cons.mp hbS with h | h
    · exact absurd h hba
    · exact h
  obtain ⟨i, hi⟩ := findIdx?_member _ b hb2
  simp only [List.findIdx?_cons, hba, decide_False, Bool.false_eq_true, if_false,
    List.findIdx?_succ, hi, Nat.zero_add, Option.map_some', Option.getD_some]
  omega

theorem firstIdx_single (a : ℚ) (C : List ℚ) (hval : ∀ x ∈ C, x = a) (hne : C ≠ []) :
    ((sortFloat64s C).findIdx? (fun sc => decide (a = sc))).getD 0 = 0 := by
  have hperm : List.Perm (sortFloat64s C) C := List.perm_insertionSort _ C
  cases hS : sortFloat64s C with
  | nil =>
    rw [hS] at hperm
    exact absurd hperm.symm.eq_nil hne
  | cons s rest =>
    have hs : s = a := hval s (hperm.mem_iff.mp (by rw [hS]; exact List.mem_cons_self _ _))
    simp [hs]

theorem initCenters_two_valued_three (a b : ℚ) (hab : a < b) (data : List ℚ)
    (hval : ∀ x ∈ data, x = a ∨ x = b) (ha : a ∈ data) (hb : b ∈ data) :
    initCenters (sortFloat64s data) (data.length / 3) 3
      = [a, if data.count a ≤ data.length / 3 then b else a,
          if data.count a ≤ 2 * (data.length / 3) then b else a] := by
  have hlen := length_two_valued a b hab data hval
  have hpa : 0 < data.count a := List.count_pos_iff.mpr ha
  have hpb : 0 < data.count b := List.count_pos_iff.mpr hb
  rw [sortFloat64s_two_valued a b hab data hval]
  simp only [initCenters, List.range_succ, List.range_zero, List.nil_append, List.map_cons,
    List.map_nil, List.cons_append, List.length_append, List.length_replicate]
  have h0 : min (0 * (data.length / 3)) (data.count a + data.count b - 1) = 0 := by simp
  have h1 : min (1 * (data.length / 3)) (data.count a + data.count b - 1) = data.length / 3 := by
    rw [one_mul]
    apply min_eq_left
    omega
  have h2 : min (2 * (data.length / 3)) (data.count a + data.count b - 1)
      = 2 * (data.length / 3) := by
    apply min_eq_left
    omega
  rw [h0, h1, h2, getD_two_runs _ _ _ _ _ (by omega), getD_two_runs _ _ _ _ _ (by omega),
    getD_two_runs _ _ _ _ _ (by omega), if_pos hpa]
  congr 1
  congr 1
  · by_cases hc : data.count a ≤ data.length / 3
    · rw [if_pos hc, if_neg (by omega)]
    · rw [if_neg hc, if_pos (by omega)]
  · congr 1
    by_cases hc : data.count a ≤ 2 * (data.length / 3)
    · rw [if_pos hc, if_neg (by omega)]
    · rw [if_neg hc, if_pos (by omega)]

end Morse

namespace Morse

/-! ## Two-valued data with three equal initial centres -/

theorem updateCenters_merged_three (a : ℚ) (data : List ℚ) (ha : a ∈ data) (c0 c1 c2 : ℚ) :
    updateCenters data (data.map (fun x => if x = a then 0 else 0)) [c0, c1, c2] 3
      = [data.sum / (data.length : ℚ), c1, c2] := by
  have h0 := cluster_all (fun x => if x = a then 0 else 0) data 0 (fun x _ => by simp)
  have h1 := cluster_none (fun x => if x = a then 0 else 0) data 1 (fun x _ => by simp)
  have h2 := cluster_none (fun x => if x = a then 0 else 0) data 2 (fun x _ => by simp)
  have hpos : data.length > 0 := List.length_pos_of_mem ha
  simp only [updateCenters, List.range_succ, List.range_zero, List.nil_append, List.map_cons,
    List.map_nil, List.cons_append, h0.1, h0.2, h1, h2, if_pos hpos, gt_iff_lt,
    lt_self_iff_false, if_false]
  simp

theorem updateCenters_swapped_three (a b : ℚ) (hab : a < b) (data : List ℚ)
    (hval : ∀ x ∈ data, x = a ∨ x = b) (ha : a ∈ data) (hb : b ∈ data) (c0 c1 c2 : ℚ) :
    updateCenters data (data.map (fun x => if x = a then 1 else 0)) [c0, c1, c2] 3
      = [b, a, c2] := by
  have hba : ¬ b = a := ne_of_gt hab
  have h0 := cluster_mean_const (fun x => if x = a then 1 else 0) data 0 b
    (fun x hx hfx => by
      rcases hval x hx with h | h
      · simp [h] at hfx
      · exact h)
    ⟨b, hb, by simp [hba]⟩
  have h1 := cluster_mean_const (fun x => if x = a then 1 else 0) data 1 a
    (fun x _ hx => by
      by_cases hxa : x = a
      · exact hxa
      · simp [hxa] at hx)
    ⟨a, ha, by simp⟩
  have h2 := cluster_none (fun x => if x = a then 1 else 0) data 2
    (fun x _ => by by_cases hxa : x = a <;> simp [hxa])
  simp only [updateCenters, List.range_succ, List.range_zero, List.nil_append, List.map_cons,
    List.map_nil, List.cons_append, if_pos h0.1, if_pos h1.1, h0.2, h1.2, h2, gt_iff_lt,
    lt_self_iff_false, if_false]
  simp

theorem mean_between (a b : ℚ) (hab : a < b) (data : List ℚ)
    (hval : ∀ x ∈ data, x = a ∨ x = b) (ha : a ∈ data) (hb : b ∈ data) :
    a < data.sum / (data.length : ℚ) ∧ data.sum / (data.length : ℚ) < b := by
  have hn : (0 : ℚ) < (data.length : ℚ) := by
    exact_mod_cast List.length_pos_of_mem ha
  constructor
  · rw [lt_div_iff₀ hn, mul_comm]
    exact sum_gt_of_two_valued a b hab data hval hb
  · rw [div_lt_iff₀ hn, mul_comm]
    exact sum_lt_of_two_valued a b hab data hval ha

theorem assign_equal_three (a b : ℚ) (data : List ℚ) (hval : ∀ x ∈ data, x = a ∨ x = b) :
    assign data [a, a, a] = data.map (fun x => if x = a then 0 else 0) := by
  rw [assign_two_valued a b data hval, nearest_zero a [a, a] a (fun c _ => by simp),
    nearest_zero a [a, a] b (fun c hc => by
      have : c = a := by simpa using hc
      rw [this])]

theorem centersChanged_three (a m : ℚ) (ham : a < m) :
    centersChanged [a, a, a] [m, a, a] = decide (tolerance < m - a) := by
  have h1 : |a - m| = m - a := by
    rw [abs_sub_comm, abs_of_pos (sub_pos.mpr ham)]
  have h2 : ¬ (tolerance < 0) := by
    unfold tolerance
    norm_num
  simp [centersChanged, h1, h2]

theorem kMeansIter_stalled_three (a b : ℚ) (hab : a < b) (data : List ℚ)
    (hval : ∀ x ∈ data, x = a ∨ x = b) (ha : a ∈ data) (hb : b ∈ data) (fuel : Nat)
    (labels : List Nat) (hstall : ¬ tolerance < data.sum / (data.length : ℚ) - a) :
    kMeansIter data 3 (fuel + 1) [a, a, a] labels
      = ([data.sum / (data.length : ℚ), a, a], data.map (fun x => if x = a then 0 else 0)) := by
  have hm := mean_between a b hab data hval ha hb
  rw [kMeansIter_succ, assign_equal_three a b data hval, updateCenters_merged_three a data ha,
    centersChanged_three a _ hm.1]
  simp [hstall]

theorem kMeansIter_merged_three (a b : ℚ) (hab : a < b) (data : List ℚ)
    (hval : ∀ x ∈ data, x = a ∨ x = b) (ha : a ∈ data) (hb : b ∈ data) (fuel : Nat)
    (labels : List Nat) (hmove : tolerance < data.sum / (data.length : ℚ) - a) :
    kMeansIter data 3 (fuel + 3) [a, a, a] labels
      = ([b, a, a], data.map (fun x => if x = a then 1 else 0)) := by
  have hm := mean_between a b hab data hval ha hb
  have hba : ¬ b = a := ne_of_gt hab
  have hasg2 : assign data [data.sum / (data.length : ℚ), a, a]
      = data.map (fun x => if x = a then 1 else 0) := by
    have hidx : List.indexOf a [data.sum / (data.length : ℚ), a, a] = 1 := by
      rw [List.indexOf_cons_ne _ (ne_of_gt hm.1), List.indexOf_cons_self]
    rw [assign_two_valued a b data hval, nearest_member _ a (by simp), hidx,
      nearest_zero _ [a, a] b (fun c hc => by
        have : c = a := by simpa using hc
        rw [this, abs_of_pos (sub_pos.mpr hm.2), abs_of_pos (sub_pos.mpr hab)]
        linarith)]
  have hfix : kMeansIter data 3 (fuel + 1) [b, a, a] (data.map (fun x => if x = a then 1 else 0))
      = ([b, a, a], data.map (fun x => if x = a then 1 else 0)) := by
    have := kMeansIter_fixed data [b, a, a]
      (fun x hx => by rcases hval x hx with h | h <;> simp [h]) fuel
      (data.map (fun x => if x = a then 1 else 0))
    simp only [List.length_cons, List.length_nil] at this
    rw [this]
    congr 1
    apply List.map_congr_left
    intro x hx
    rcases hval x hx with h | h
    · rw [h, if_pos rfl, List.indexOf_cons_ne _ hba, List.indexOf_cons_self]
    · rw [h, if_neg hba, List.indexOf_cons_self]
  rw [show fuel + 3 = (fuel + 2) + 1 from rfl, kMeansIter_succ, assign_equal_three a b data hval,
    updateCenters_merged_three a data ha, centersChanged_three a _ hm.1,
    decide_eq_true hmove, if_pos rfl,
    show fuel + 2 = (fuel + 1) + 1 from rfl, kMeansIter_succ, hasg2,
    updateCenters_swapped_three a b hab data hval ha hb]
  split
  · exact hfix
  · rfl

end Morse

namespace Morse

/-! ## Gap classification from the labels -/

theorem detectSpaces_one_label (offSamples : List Int) (centers : List ℚ) (l : Nat)
    (hne : offSamples.length ≠ 0)
    (hk : kMeans (offSamples.map (fun (s : Int) => (s : ℚ))) (min 3 offSamples.length)
      = .ok (centers, (offSamples.map (fun (s : Int) => (s : ℚ))).map (fun _ => l))) :
    detectSpaces offSamples = .ok ([], []) := by
  have hne2 : offSamples ≠ [] := fun h => hne (by rw [h]; rfl)
  obtain ⟨d0, hd0⟩ := List.exists_mem_of_ne_nil offSamples hne2
  have hpairs : sortedPairs (offSamples.map (fun (s : Int) => (s : ℚ)))
      ((offSamples.map (fun (s : Int) => (s : ℚ))).map (fun _ => l))
      = [l].map (fun lbl => (lbl, labelMean (offSamples.map (fun (s : Int) => (s : ℚ)))
          ((offSamples.map (fun (s : Int) => (s : ℚ))).map (fun _ => l)) lbl)) := by
    apply sortedPairs_eq
    · simp
    · intro l2
      simp only [List.mem_map, List.mem_singleton]
      constructor
      · rintro ⟨_, _, rfl⟩; rfl
      · intro h; exact ⟨(d0 : ℚ), ⟨d0, hd0, rfl⟩, h.symm⟩
    · simp
  rw [detectSpaces_of_kMeans offSamples centers _ hne hk (by simpa using hne), hpairs]
  simp only [List.map_cons, List.map_nil, List.get?_cons_zero, Option.map_some',
    Option.getD_some, List.length_singleton]
  rw [collectIdxs_map, collectIdxs_map, positionsWhere_none _ _ _ (fun x _ => by simp),
    positionsWhere_none _ _ _ (fun x _ => by simp)]

theorem detectSpaces_two_labels (offSamples : List Int) (a b : Int) (hab : a < b)
    (hval : ∀ d ∈ offSamples, d = a ∨ d = b) (ha : a ∈ offSamples) (hb : b ∈ offSamples)
    (centers : List ℚ) (l : Nat) (hl : l ≠ 0)
    (hk : kMeans (offSamples.map (fun (s : Int) => (s : ℚ))) (min 3 offSamples.length)
      = .ok (centers, (offSamples.map (fun (s : Int) => (s : ℚ))).map
          (fun x => if x = (a : ℚ) then 0 else l))) :
    detectSpaces offSamples
      = .ok (positionsWhere (fun d => decide (d = b)) offSamples 0, []) := by
  have hne : offSamples.length ≠ 0 := by
    have := List.length_pos_of_mem ha
    omega
  have habq : (a : ℚ) < (b : ℚ) := by exact_mod_cast hab
  have hbaq : ¬ (b : ℚ) = (a : ℚ) := ne_of_gt habq
  have hvalq : ∀ x ∈ offSamples.map (fun (s : Int) => (s : ℚ)), x = (a : ℚ) ∨ x = (b : ℚ) := by
    intro x hx
    simp only [List.mem_map] at hx
    obtain ⟨d, hd, rfl⟩ := hx
    rcases hval d hd with h | h
    · left; rw [h]
    · right; rw [h]
  have haq : (a : ℚ) ∈ offSamples.map (fun (s : Int) => (s : ℚ)) :=
    List.mem_map.mpr ⟨a, ha, rfl⟩
  have hbq : (b : ℚ) ∈ offSamples.map (fun (s : Int) => (s : ℚ)) :=
    List.mem_map.mpr ⟨b, hb, rfl⟩
  have hm0 := cluster_mean_const (fun x => if x = (a : ℚ) then 0 else l)
    (offSamples.map (fun (s : Int) => (s : ℚ))) 0 (a : ℚ)
    (fun x _ hx => by
      by_cases hxa : x = (a : ℚ)
      · exact hxa
      · simp [hxa] at hx
        exact absurd hx hl)
    ⟨(a : ℚ), haq, by simp⟩
  have hm1 := cluster_mean_const (fun x => if x = (a : ℚ) then 0 else l)
    (offSamples.map (fun (s : Int) => (s : ℚ))) l (b : ℚ)
    (fun x hx hfx => by
      rcases hvalq x hx with h | h
      · simp [h] at hfx
        exact absurd hfx.symm hl
      · exact h)
    ⟨(b : ℚ), hbq, by simp [hbaq]⟩
  have hpairs : sortedPairs (offSamples.map (fun (s : Int) => (s : ℚ)))
      ((offSamples.map (fun (s : Int) => (s : ℚ))).map (fun x => if x = (a : ℚ) then 0 else l))
      = [(0, (a : ℚ)), (l, (b : ℚ))] := by
    rw [sortedPairs_eq _ _ [0, l] (by simp; omega)]
    · simp only [List.map_cons, List.map_nil, labelMean, hm0.2, hm1.2]
    · intro l2
      constructor
      · intro h
        obtain ⟨x, _, rfl⟩ := List.mem_map.mp h
        by_cases hxa : x = (a : ℚ)
        · simp [hxa]
        · simp [hxa]
      · intro h
        simp only [List.mem_cons, List.mem_singleton, List.not_mem_nil, or_false] at h
        rcases h with h | h
        · exact List.mem_map.mpr ⟨(a : ℚ), haq, by simp [h]⟩
        · exact List.mem_map.mpr ⟨(b : ℚ), hbq, by simp [h, hbaq]⟩
    · simp only [List.map_cons, List.map_nil, labelMean, hm0.2, hm1.2]
      simp
      exact le_of_lt hab
  rw [detectSpaces_of_kMeans offSamples centers _ hne hk (by simpa using hne), hpairs]
  simp only [List.get?_cons_zero, Option.map_some', Option.getD_some, List.length_cons,
    List.length_nil]
  congr 2
  · rw [collectIdxs_map, positionsWhere_map]
    apply positionsWhere_congr
    intro d hd
    rcases hval d hd with h | h
    · rw [h]
      have : ¬ a = b := ne_of_lt hab
      simp [this]
    · rw [h]
      simp [hbaq, hl]
  · rw [collectIdxs_map]
    exact positionsWhere_none _ _ _ (fun x _ => by simp)

end Morse

namespace Morse

/-! ## `kMeans` on the gaps: one or two distinct values -/

theorem kMeans_covered_two_valued (a b : ℚ) (hab : a < b) (data : List ℚ) (k : Nat)
    (hk : 1 ≤ k) (hval : ∀ x ∈ data, x = a ∨ x = b) (ha : a ∈ data)
    (hca : a ∈ initCenters (sortFloat64s data) (data.length / k) k)
    (hcb : b ∈ initCenters (sortFloat64s data) (data.length / k) k) :
    ∃ C l, l ≠ 0 ∧ kMeans data k = .ok (C, data.map (fun x => if x = a then 0 else l)) := by
  have hne : data ≠ [] := List.ne_nil_of_mem ha
  have hcover : ∀ x ∈ data, x ∈ initCenters (sortFloat64s data) (data.length / k) k := by
    intro x hx
    rcases hval x hx with h | h
    · rw [h]; exact hca
    · rw [h]; exact hcb
  have hCval : ∀ x ∈ initCenters (sortFloat64s data) (data.length / k) k, x = a ∨ x = b :=
    fun x hx => hval x ((initCenters_mem data hne _ k).2 x hx)
  refine ⟨initCenters (sortFloat64s data) (data.length / k) k,
    ((sortFloat64s (initCenters (sortFloat64s data) (data.length / k) k)).findIdx?
      (fun sc => decide (b = sc))).getD 0,
    firstIdx_high a b hab _ hCval hca hcb, ?_⟩
  rw [kMeans_covered data k hne hk hcover]
  congr 2
  apply List.map_congr_left
  intro x hx
  rcases hval x hx with h | h
  · rw [h, if_pos rfl]
    exact firstIdx_low a b hab _ hCval hca
  · rw [h, if_neg (ne_of_gt hab)]

theorem kMeans_two_valued_gaps (a b : ℚ) (hab : a < b) (data : List ℚ)
    (hval : ∀ x ∈ data, x = a ∨ x = b) (ha : a ∈ data) (hb : b ∈ data)
    (hmove : 3 ≤ data.length → 2 * (data.length / 3) < data.count a →
      tolerance < data.sum / (data.length : ℚ) - a) :
    ∃ C l, l ≠ 0 ∧
      kMeans data (min 3 data.length) = .ok (C, data.map (fun x => if x = a then 0 else l)) := by
  have hlen := length_two_valued a b hab data hval
  have hpa : 0 < data.count a := List.count_pos_iff.mpr ha
  have hpb : 0 < data.count b := List.count_pos_iff.mpr hb
  by_cases h3 : 3 ≤ data.length
  · rw [min_eq_left h3]
    have hinit := initCenters_two_valued_three a b hab data hval ha hb
    by_cases hc : data.count a ≤ 2 * (data.length / 3)
    · rw [if_pos hc] at hinit
      exact kMeans_covered_two_valued a b hab data 3 (by omega) hval ha
        (by rw [hinit]; simp) (by rw [hinit]; simp)
    · have hc1 : ¬ data.count a ≤ data.length / 3 := by omega
      rw [if_neg hc, if_neg hc1] at hinit
      have hiter := kMeansIter_merged_three a b hab data hval ha hb 97 []
        (hmove h3 (by omega))
      have hCval : ∀ x ∈ [b, a, a], x = a ∨ x = b := by
        intro x hx
        simp only [List.mem_cons, List.mem_singleton, List.not_mem_nil, or_false] at hx
        rcases hx with h | h | h
        · right; exact h
        · left; exact h
        · left; exact h
      refine ⟨[b, a, a],
        ((sortFloat64s [b, a, a]).findIdx? (fun sc => decide (b = sc))).getD 0,
        firstIdx_high a b hab _ hCval (by simp) (by simp), ?_⟩
      have hlen0 : ¬ data.length = 0 := by omega
      unfold kMeans
      rw [if_neg hlen0, if_neg (by decide)]
      simp only []
      rw [hinit, show (100 : Nat) = 97 + 3 from rfl, hiter]
      simp only [List.map_map]
      congr 2
      apply List.map_congr_left
      intro x hx
      simp only [Function.comp]
      rcases hval x hx with h | h
      · rw [h, if_pos rfl, if_pos rfl, remapLabel_eq _ _ _ (by simp)]
        exact firstIdx_low a b hab _ hCval (by simp)
      · rw [h, if_neg (ne_of_gt hab), if_neg (ne_of_gt hab), remapLabel_eq _ _ _ (by simp)]
        rfl
  · have hn2 : data.length = 2 := by omega
    have hk2 : min 3 data.length = 2 := by omega
    rw [hk2]
    have hinit := initCenters_two_valued a b hab data hval ha hb
    rw [if_pos (by omega)] at hinit
    exact kMeans_covered_two_valued a b hab data 2 (by omega) hval ha
      (by rw [hinit]; simp) (by rw [hinit]; simp)

theorem kMeans_two_valued_stalled (a b : ℚ) (hab : a < b) (data : List ℚ)
    (hval : ∀ x ∈ data, x = a ∨ x = b) (ha : a ∈ data) (hb : b ∈ data)
    (h3 : 3 ≤ data.length) (hmaj : 2 * (data.length / 3) < data.count a)
    (hstall : ¬ tolerance < data.sum / (data.length : ℚ) - a) :
    ∃ C l, kMeans data (min 3 data.length) = .ok (C, data.map (fun _ => l)) := by
  rw [min_eq_left h3]
  have hinit := initCenters_two_valued_three a b hab data hval ha hb
  have hc : ¬ data.count a ≤ 2 * (data.length / 3) := by omega
  have hc1 : ¬ data.count a ≤ data.length / 3 := by omega
  rw [if_neg hc, if_neg hc1] at hinit
  have hiter := kMeansIter_stalled_three a b hab data hval ha hb 99 [] hstall
  refine ⟨[data.sum / (data.length : ℚ), a, a],
    remapLabel [data.sum / (data.length : ℚ), a, a]
      (sortFloat64s [data.sum / (data.length : ℚ), a, a]) 0, ?_⟩
  have hlen0 : ¬ data.length = 0 := by omega
  unfold kMeans
  rw [if_neg hlen0, if_neg (by decide)]
  simp only []
  rw [hinit, show (100 : Nat) = 99 + 1 from rfl, hiter]
  simp only [List.map_map]
  congr 2
  apply List.map_congr_left
  intro x _
  simp only [Function.comp, ite_self]

theorem kMeans_single_valued (a : ℚ) (data : List ℚ) (hval : ∀ x ∈ data, x = a)
    (hne : data ≠ []) :
    ∃ C, kMeans data (min 3 data.length) = .ok (C, data.map (fun _ => 0)) := by
  have hpos : 0 < data.length := List.length_pos.mpr hne
  have hk : 1 ≤ min 3 data.length := by omega
  have hinit := initCenters_mem data hne (data.length / min 3 data.length) (min 3 data.length)
  have hCval : ∀ x ∈ initCenters (sortFloat64s data) (data.length / min 3 data.length)
      (min 3 data.length), x = a := fun x hx => hval x (hinit.2 x hx)
  have hCne : initCenters (sortFloat64s data) (data.length / min 3 data.length)
      (min 3 data.length) ≠ [] := by
    intro h
    rw [h] at hinit
    simp at hinit
    omega
  obtain ⟨c, hc⟩ := List.exists_mem_of_ne_nil _ hCne
  have hca : a ∈ initCenters (sortFloat64s data) (data.length / min 3 data.length)
      (min 3 data.length) := by
    rw [← hCval c hc]
    exact hc
  refine ⟨initCenters (sortFloat64s data) (data.length / min 3 data.length)
    (min 3 data.length), ?_⟩
  rw [kMeans_covered data _ hne hk (fun x hx => by rw [hval x hx]; exact hca)]
  congr 2
  apply List.map_congr_left
  intro x hx
  rw [hval x hx]
  exact firstIdx_single a _ hCval hCne

end Morse

namespace Morse

/-! ## Gap lists with one or two distinct values -/

theorem detectSpaces_long_run (n : Nat) (hn : 1000000 ≤ n) :
    detectSpaces (List.replicate n 1 ++ [2]) = .ok ([], []) := by
  have hmap : (List.replicate n (1 : Int) ++ [2]).map (fun (s : Int) => (s : ℚ))
      = List.replicate n (1 : ℚ) ++ [2] := by
    simp
  have hlen : (List.replicate n (1 : ℚ) ++ [2]).length = n + 1 := by simp
  have hlen2 : (List.replicate n (1 : Int) ++ [2]).length = n + 1 := by simp
  have hcount : (List.replicate n (1 : ℚ) ++ [2]).count 1 = n := by
    rw [List.count_append, List.count_replicate]
    simp
  have hsum : (List.replicate n (1 : ℚ) ++ [2]).sum = (n : ℚ) + 2 := by
    rw [List.sum_append, List.sum_replicate]
    simp
  obtain ⟨C, l, hk⟩ := kMeans_two_valued_stalled 1 2 (by norm_num)
    (List.replicate n (1 : ℚ) ++ [2])
    (fun x hx => by
      rcases List.mem_append.mp hx with h | h
      · left; exact List.eq_of_mem_replicate h
      · right; simpa using h)
    (List.mem_append_left _ (List.mem_replicate.mpr ⟨by omega, rfl⟩))
    (List.mem_append_right _ (by simp))
    (by rw [hlen]; omega)
    (by rw [hlen, hcount]; omega)
    (by
      rw [hlen, hsum]
      unfold tolerance
      have hq : (1000000 : ℚ) ≤ (n : ℚ) := by exact_mod_cast hn
      have hpos : (0 : ℚ) < ((n + 1 : Nat) : ℚ) := by positivity
      rw [not_lt, sub_le_iff_le_add, div_le_iff₀ hpos]
      push_cast
      nlinarith)
  rw [hlen] at hk
  apply detectSpaces_one_label _ C l (by rw [hlen2]; omega)
  rw [hmap, hlen2]
  exact hk

theorem positionsWhere_long_run (n : Nat) (i : Int) :
    positionsWhere (fun d => decide (d = (2 : Int))) (List.replicate n 1 ++ [2]) i
      = [i + n + 1] := by
  induction n generalizing i with
  | zero => simp [positionsWhere]
  | succ m ih =>
    rw [List.replicate_succ, List.cons_append]
    simp only [positionsWhere, show ¬ ((1 : Int) = 2) by decide, decide_False,
      Bool.false_eq_true, if_false]
    rw [ih]
    congr 1
    push_cast
    ring

/-- C17 (as stated, refuted): the OFF list made of 2000000 gaps of 1 sample followed by one
gap of 2 samples takes exactly the two values 1 < 2, and its gap of value 2 is at position
2000001; yet `detectSpaces` returns no character break (and no word break): all three initial
centres are 1, the first round moves one centre to the mean, which is within 1e-6 of 1, and
the loop stops with a single cluster. -/
theorem detectSpaces_long_run_no_break :
    (∀ d ∈ List.replicate 2000000 (1 : Int) ++ [2], d = 1 ∨ d = 2) ∧
    (1 : Int) ∈ List.replicate 2000000 (1 : Int) ++ [2] ∧
    (2 : Int) ∈ List.replicate 2000000 (1 : Int) ++ [2] ∧
    positionsWhere (fun d => decide (d = (2 : Int))) (List.replicate 2000000 1 ++ [2]) 0
      = [2000001] ∧
    detectSpaces (List.replicate 2000000 1 ++ [2]) = .ok ([], []) := by
  refine ⟨?_, ?_, ?_, ?_, detectSpaces_long_run 2000000 (by norm_num)⟩
  · intro d hd
    rcases List.mem_append.mp hd with h | h
    · left; exact List.eq_of_mem_replicate h
    · right; exact List.mem_singleton.mp h
  · exact List.mem_append_left _ (List.mem_replicate.mpr ⟨by norm_num, rfl⟩)
  · exact List.mem_append_right _ (List.mem_singleton.mpr rfl)
  · rw [positionsWhere_long_run]
    norm_num

/-- C17 (amended): for every OFF-duration list whose values take exactly two distinct values
`a < b`, and in which the mean gap exceeds `a` by more than the tolerance 1e-6 whenever the list
has at least 3 gaps of which more than `2 * (len / 3)` have the value `a`, `detectSpaces` returns
as character-break positions exactly the positions `i + 1` with `off[i] = b` and returns no
word-break position; for a list whose values are all equal it returns no break of either
kind. -/
theorem detectSpaces_two_valued (offSamples : List Int) (a b : Int) :
    (a < b → (∀ d ∈ offSamples, d = a ∨ d = b) → a ∈ offSamples → b ∈ offSamples →
      (3 ≤ offSamples.length → 2 * (offSamples.length / 3) < offSamples.count a →
        (1 : ℚ) / 1000000
          < (offSamples.map (fun (s : Int) => (s : ℚ))).sum / (offSamples.length : ℚ) - a) →
      detectSpaces offSamples
        = .ok (positionsWhere (fun d => decide (d = b)) offSamples 0, [])) ∧
    ((∀ d ∈ offSamples, d = a) → detectSpaces offSamples = .ok ([], [])) := by
  constructor
  · intro hab hval ha hb hmove
    have habq : (a : ℚ) < (b : ℚ) := by exact_mod_cast hab
    have hcount : (offSamples.map (fun (s : Int) => (s : ℚ))).count (a : ℚ)
        = offSamples.count a :=
      List.count_map_of_injective _ _ (fun x y h => by exact_mod_cast h) a
    obtain ⟨C, l, hl, hk⟩ := kMeans_two_valued_gaps (a : ℚ) (b : ℚ) habq
      (offSamples.map (fun (s : Int) => (s : ℚ)))
      (fun x hx => by
        obtain ⟨d, hd, rfl⟩ := List.mem_map.mp hx
        rcases hval d hd with h | h
        · left; rw [h]
        · right; rw [h])
      (List.mem_map.mpr ⟨a, ha, rfl⟩) (List.mem_map.mpr ⟨b, hb, rfl⟩)
      (by
        rw [List.length_map, hcount]
        intro h3 hmaj
        exact hmove h3 hmaj)
    rw [List.length_map] at hk
    exact detectSpaces_two_labels offSamples a b hab hval ha hb C l hl hk
  · intro hval
    by_cases hne : offSamples = []
    · rw [hne]; rfl
    · obtain ⟨C, hk⟩ := kMeans_single_valued (a : ℚ)
        (offSamples.map (fun (s : Int) => (s : ℚ)))
        (fun x hx => by
          obtain ⟨d, hd, rfl⟩ := List.mem_map.mp hx
          rw [hval d hd])
        (by simpa using hne)
      rw [List.length_map] at hk
      exact detectSpaces_one_label offSamples C 0
        (fun h => hne (List.length_eq_zero.mp h)) hk

/-- C17 (amended), at the gaps [1,1,3,1,1,3,1,1] and at the equal gaps [4,4]. -/
theorem detectSpaces_two_valued_witness :
    detectSpaces [1, 1, 3, 1, 1, 3, 1, 1] = .ok ([3, 6], []) ∧
    detectSpaces [4, 4] = .ok ([], []) :=
  ⟨((detectSpaces_two_valued [1, 1, 3, 1, 1, 3, 1, 1] 1 3).1 (by decide) (by decide)
      (by decide) (by decide) (fun _ _ => by decide!)).trans (by decide),
    (detectSpaces_two_valued [4, 4] 4 4).2 (by decide)⟩

end Morse

namespace Morse

/-! ## Gap lists with three distinct values -/

theorem sorted_head_min (a : ℚ) (data : List ℚ) (ha : a ∈ data) (hmin : ∀ x ∈ data, a ≤ x) :
    (sortFloat64s data).getD 0 0 = a := by
  have hperm : List.Perm (sortFloat64s data) data := List.perm_insertionSort _ data
  have hsorted : (sortFloat64s data).Pairwise (fun x y => x ≤ y) :=
    List.sorted_insertionSort _ data
  cases hS : sortFloat64s data with
  | nil =>
    rw [hS] at hperm
    exact absurd hperm.symm.eq_nil (List.ne_nil_of_mem ha)
  | cons s rest =>
    rw [hS] at hsorted hperm
    rw [List.pairwise_cons] at hsorted
    simp only [List.getD_cons_zero]
    have hs : a ≤ s := hmin s (hperm.mem_iff.mp (List.mem_cons_self _ _))
    have haS : a ∈ s :: rest := hperm.mem_iff.mpr ha
    rcases List.mem_cons.mp haS with h | h
    · exact h.symm
    · exact le_antisymm (hsorted.1 a h) hs

theorem detectSpaces_three_labels (offSamples : List Int) (a b c : Int) (hab : a < b)
    (hbc : b < c) (hval : ∀ d ∈ offSamples, d = a ∨ d = b ∨ d = c)
    (ha : a ∈ offSamples) (hb : b ∈ offSamples) (hc : c ∈ offSamples) (centers : List ℚ)
    (hk : kMeans (offSamples.map (fun (s : Int) => (s : ℚ))) (min 3 offSamples.length)
      = .ok (centers, (offSamples.map (fun (s : Int) => (s : ℚ))).map
          (fun x => if x = (a : ℚ) then 0 else if x = (b : ℚ) then 1 else 2))) :
    detectSpaces offSamples
      = .ok (positionsWhere (fun d => decide (d = b ∨ d = c)) offSamples 0,
          positionsWhere (fun d => decide (d = c)) offSamples 0) := by
  have hne : offSamples.length ≠ 0 := by
    have := List.length_pos_of_mem ha
    omega
  have habq : (a : ℚ) < (b : ℚ) := by exact_mod_cast hab
  have hbcq : (b : ℚ) < (c : ℚ) := by exact_mod_cast hbc
  have hbaq : ¬ (b : ℚ) = (a : ℚ) := ne_of_gt habq
  have hcaq : ¬ (c : ℚ) = (a : ℚ) := ne_of_gt (lt_trans habq hbcq)
  have hcbq : ¬ (c : ℚ) = (b : ℚ) := ne_of_gt hbcq
  have hvalq : ∀ x ∈ offSamples.map (fun (s : Int) => (s : ℚ)),
      x = (a : ℚ) ∨ x = (b : ℚ) ∨ x = (c : ℚ) := by
    intro x hx
    obtain ⟨d, hd, rfl⟩ := List.mem_map.mp hx
    rcases hval d hd with h | h | h
    · left; rw [h]
    · right; left; rw [h]
    · right; right; rw [h]
  have haq : (a : ℚ) ∈ offSamples.map (fun (s : Int) => (s : ℚ)) :=
    List.mem_map.mpr ⟨a, ha, rfl⟩
  have hbq : (b : ℚ) ∈ offSamples.map (fun (s : Int) => (s : ℚ)) :=
    List.mem_map.mpr ⟨b, hb, rfl⟩
  have hcq : (c : ℚ) ∈ offSamples.map (fun (s : Int) => (s : ℚ)) :=
    List.mem_map.mpr ⟨c, hc, rfl⟩
  have hm0 := cluster_mean_const
    (fun x => if x = (a : ℚ) then 0 else if x = (b : ℚ) then 1 else 2)
    (offSamples.map (fun (s : Int) => (s : ℚ))) 0 (a : ℚ)
    (fun x _ hx => by
      beta_reduce at hx
      by_cases hxa : x = (a : ℚ)
      · exact hxa
      · rw [if_neg hxa] at hx
        split at hx <;> omega)
    ⟨(a : ℚ), haq, by simp⟩
  have hm1 := cluster_mean_const
    (fun x => if x = (a : ℚ) then 0 else if x = (b : ℚ) then 1 else 2)
    (offSamples.map (fun (s : Int) => (s : ℚ))) 1 (b : ℚ)
    (fun x _ hx => by
      beta_reduce at hx
      by_cases hxa : x = (a : ℚ)
      · rw [if_pos hxa] at hx
        omega
      · by_cases hxb : x = (b : ℚ)
        · exact hxb
        · rw [if_neg hxa, if_neg hxb] at hx
          omega)
    ⟨(b : ℚ), hbq, by simp [hbaq]⟩
  have hm2 := cluster_mean_const
    (fun x => if x = (a : ℚ) then 0 else if x = (b : ℚ) then 1 else 2)
    (offSamples.map (fun (s : Int) => (s : ℚ))) 2 (c : ℚ)
    (fun x hx hfx => by
      rcases hvalq x hx with h | h | h
      · simp [h] at hfx
      · simp [h, hbaq] at hfx
      · exact h)
    ⟨(c : ℚ), hcq, by simp [hcaq, hcbq]⟩
  have hpairs : sortedPairs (offSamples.map (fun (s : Int) => (s : ℚ)))
      ((offSamples.map (fun (s : Int) => (s : ℚ))).map
        (fun x => if x = (a : ℚ) then 0 else if x = (b : ℚ) then 1 else 2))
      = [(0, (a : ℚ)), (1, (b : ℚ)), (2, (c : ℚ))] := by
    rw [sortedPairs_eq _ _ [0, 1, 2] (by decide)]
    · simp only [List.map_cons, List.map_nil, labelMean, hm0.2, hm1.2, hm2.2]
    · intro l2
      constructor
      · intro h
        obtain ⟨x, _, rfl⟩ := List.mem_map.mp h
        by_cases hxa : x = (a : ℚ)
        · rw [if_pos hxa]; simp
        · by_cases hxb : x = (b : ℚ)
          · rw [if_neg hxa, if_pos hxb]; simp
          · rw [if_neg hxa, if_neg hxb]; simp
      · intro h
        simp only [List.mem_cons, List.mem_singleton, List.not_mem_nil, or_false] at h
        rcases h with h | h | h
        · exact List.mem_map.mpr ⟨(a : ℚ), haq, by simp [h]⟩
        · exact List.mem_map.mpr ⟨(b : ℚ), hbq, by simp [h, hbaq]⟩
        · exact List.mem_map.mpr ⟨(c : ℚ), hcq, by simp [h, hcaq, hcbq]⟩
    · simp only [List.map_cons, List.map_nil, labelMean, hm0.2, hm1.2, hm2.2]
      simp
      exact ⟨⟨le_of_lt hab, le_of_lt (lt_trans hab hbc)⟩, le_of_lt hbc⟩
  rw [detectSpaces_of_kMeans offSamples centers _ hne hk (by simpa using hne), hpairs]
  simp only [List.get?_cons_zero, List.get?_cons_succ, Option.map_some', Option.getD_some,
    List.length_cons, List.length_nil]
  have hac : ¬ a = b := ne_of_lt hab
  have hac2 : ¬ a = c := ne_of_lt (lt_trans hab hbc)
  have hbc2 : ¬ b = c := ne_of_lt hbc
  congr 2
  · rw [collectIdxs_map, positionsWhere_map]
    apply positionsWhere_congr
    intro d hd
    rcases hval d hd with h | h | h
    · rw [h]; simp [hac, hac2]
    · rw [h]; simp [hbaq]
    · rw [h]; simp [hcaq, hcbq]
  · rw [collectIdxs_map, positionsWhere_map]
    apply positionsWhere_congr
    intro d hd
    rcases hval d hd with h | h | h
    · rw [h]; simp [hac2]
    · rw [h]; simp [hbaq, hbc2]
    · rw [h]; simp [hcaq, hcbq]

end Morse

namespace Morse

/-! ## Three gap lengths -/

/-- The labels returned by `kMeans` are a function of the data values. -/
theorem kMeans_labels_function (data : List ℚ) (k : Nat) (hne : data ≠ []) (hk : 1 ≤ k) :
    ∃ centers, ∃ g : ℚ → Nat, kMeans data k = .ok (centers, data.map g) := by
  obtain ⟨lo, _, hi, _, hdata⟩ := exists_data_bounds data hne
  have hinit := initCenters_mem data hne (data.length / k) k
  obtain ⟨prev, _, _, hiter⟩ := kMeansIter_shape data k lo hi hdata 99
    (initCenters (sortFloat64s data) (data.length / k) k) [] hinit.1
    (fun c hc => hdata c (hinit.2 c hc))
  have hlen0 : ¬ data.length = 0 := fun h => hne (List.length_eq_zero.mp h)
  have hk0 : ¬ k = 0 := by omega
  refine ⟨updateCenters data (data.map (nearest prev)) prev k,
    fun x => remapLabel (updateCenters data (data.map (nearest prev)) prev k)
      (sortFloat64s (updateCenters data (data.map (nearest prev)) prev k)) (nearest prev x), ?_⟩
  unfold kMeans
  rw [if_neg hlen0, if_neg hk0]
  simp only []
  rw [show (100 : Nat) = 99 + 1 from rfl, hiter, List.map_map]
  rfl

theorem positionsWhere_ne_nil {α : Type} (p : α → Bool) (xs : List α) (i : Int)
    (h : ∃ x ∈ xs, p x = true) : positionsWhere p xs i ≠ [] := by
  induction xs generalizing i with
  | nil =>
    obtain ⟨x, hx, _⟩ := h
    exact absurd hx (List.not_mem_nil x)
  | cons y rest ih =>
    simp only [positionsWhere]
    by_cases hy : p y = true
    · rw [if_pos hy]
      exact List.cons_ne_nil _ _
    · rw [if_neg hy]
      obtain ⟨x, hx, hpx⟩ := h
      rcases List.mem_cons.mp hx with rfl | hx
      · exact absurd hpx hy
      · exact ih _ ⟨x, hx, hpx⟩

theorem sortedPairs_length (floatSamples : List ℚ) (labels : List Nat) :
    (sortedPairs floatSamples labels).length = labels.dedup.length := by
  unfold sortedPairs
  simp only [List.length_insertionSort, List.length_map]
  exact ((List.perm_insertionSort _ labels).dedup).length_eq

/-- When three values carry three different labels, the pairs of `detectSpaces` are the three
values with their labels, in ascending order of the values. -/
theorem sortedPairs_three (fs : List ℚ) (g : ℚ → Nat) (a b c : ℚ) (hab : a < b) (hbc : b < c)
    (hval : ∀ x ∈ fs, x = a ∨ x = b ∨ x = c) (ha : a ∈ fs) (hb : b ∈ fs) (hc : c ∈ fs)
    (h1 : g a ≠ g b) (h2 : g a ≠ g c) (h3 : g b ≠ g c) :
    sortedPairs fs (fs.map g) = [(g a, a), (g b, b), (g c, c)] := by
  have hma := (cluster_mean_const g fs (g a) a (fun x hx hgx => by
    rcases hval x hx with h | h | h
    · exact h
    · rw [h] at hgx; exact absurd hgx.symm h1
    · rw [h] at hgx; exact absurd hgx.symm h2) ⟨a, ha, rfl⟩).2
  have hmb := (cluster_mean_const g fs (g b) b (fun x hx hgx => by
    rcases hval x hx with h | h | h
    · rw [h] at hgx; exact absurd hgx h1
    · exact h
    · rw [h] at hgx; exact absurd hgx.symm h3) ⟨b, hb, rfl⟩).2
  have hmc := (cluster_mean_const g fs (g c) c (fun x hx hgx => by
    rcases hval x hx with h | h | h
    · rw [h] at hgx; exact absurd hgx h2
    · rw [h] at hgx; exact absurd hgx h3
    · exact h) ⟨c, hc, rfl⟩).2
  have hnd : [g a, g b, g c].Nodup := by
    simp only [List.nodup_cons, List.mem_cons, List.mem_singleton, List.not_mem_nil,
      or_false, not_or, not_false_eq_true, List.nodup_nil, and_true]
    exact ⟨⟨h1, h2⟩, h3⟩
  have hpres : List.Perm (((fs.map g).insertionSort (fun x y => x ≤ y)).dedup)
      [g a, g b, g c] := by
    rw [List.perm_ext_iff_of_nodup (List.nodup_dedup _) hnd]
    intro l
    rw [List.mem_dedup, (List.perm_insertionSort _ (fs.map g)).mem_iff]
    constructor
    · intro h
      obtain ⟨x, hx, rfl⟩ := List.mem_map.mp h
      rcases hval x hx with h | h | h <;> rw [h] <;> simp
    · intro h
      simp only [List.mem_cons, List.mem_singleton, List.not_mem_nil, or_false] at h
      rcases h with h | h | h <;> rw [h]
      · exact List.mem_map_of_mem g ha
      · exact List.mem_map_of_mem g hb
      · exact List.mem_map_of_mem g hc
  have hperm : List.Perm (sortedPairs fs (fs.map g)) [(g a, a), (g b, b), (g c, c)] := by
    unfold sortedPairs
    simp only []
    refine (List.perm_insertionSort _ _).trans ?_
    have := hpres.map (fun lbl => (lbl, labelMean fs (fs.map g) lbl))
    simpa only [List.map_cons, List.map_nil, labelMean, hma, hmb, hmc] using this
  have htarget : [(g a, a), (g b, b), (g c, c)].Pairwise
      (fun (p q : Nat × ℚ) => p.2 < q.2) := by
    simp only [List.pairwise_cons, List.mem_cons, List.mem_singleton, List.not_mem_nil,
      forall_eq_or_imp, forall_eq, List.Pairwise.nil, and_true, IsEmpty.forall_iff,
      implies_true]
    exact ⟨⟨hab, lt_trans hab hbc⟩, hbc⟩
  have hsorted : (sortedPairs fs (fs.map g)).Pairwise
      (fun (p q : Nat × ℚ) => p.2 < q.2) := by
    have hle : (sortedPairs fs (fs.map g)).Pairwise (fun (p q : Nat × ℚ) => p.2 ≤ q.2) := by
      haveI : IsTotal (Nat × ℚ) (fun p q => p.2 ≤ q.2) := ⟨fun p q => le_total p.2 q.2⟩
      haveI : IsTrans (Nat × ℚ) (fun p q => p.2 ≤ q.2) :=
        ⟨fun p q r h1 h2 => le_trans h1 h2⟩
      unfold sortedPairs
      exact List.sorted_insertionSort (fun (p q : Nat × ℚ) => p.2 ≤ q.2) _
    have hne : (sortedPairs fs (fs.map g)).Pairwise (fun (p q : Nat × ℚ) => p.2 ≠ q.2) := by
      rw [hperm.pairwise_iff (fun h => Ne.symm h)]
      exact htarget.imp (fun h => ne_of_lt h)
    exact (hle.and hne).imp (fun h => lt_of_le_of_ne h.1 h.2)
  haveI : IsAntisymm (Nat × ℚ) (fun p q => p.2 < q.2) :=
    ⟨fun p q h1 h2 => absurd h1 (not_lt_of_gt h2)⟩
  exact List.eq_of_perm_of_sorted hperm hsorted htarget

/-- On gaps of three lengths whose `kMeans` labels are three different labels, `detectSpaces`
separates the three lengths. -/
theorem detectSpaces_three_clusters (offSamples : List Int) (a b c : Int) (hab : a < b)
    (hbc : b < c) (hval : ∀ d ∈ offSamples, d = a ∨ d = b ∨ d = c)
    (ha : a ∈ offSamples) (hb : b ∈ offSamples) (hc : c ∈ offSamples) (centers : List ℚ)
    (g : ℚ → Nat)
    (hk : kMeans (offSamples.map (fun (s : Int) => (s : ℚ))) (min 3 offSamples.length)
      = .ok (centers, (offSamples.map (fun (s : Int) => (s : ℚ))).map g))
    (h1 : g (a : ℚ) ≠ g (b : ℚ)) (h2 : g (a : ℚ) ≠ g (c : ℚ)) (h3 : g (b : ℚ) ≠ g (c : ℚ)) :
    detectSpaces offSamples
      = .ok (positionsWhere (fun d => decide (d = b ∨ d = c)) offSamples 0,
          positionsWhere (fun d => decide (d = c)) offSamples 0) := by
  have hne : offSamples.length ≠ 0 := by
    have := List.length_pos_of_mem ha
    omega
  have habq : (a : ℚ) < (b : ℚ) := by exact_mod_cast hab
  have hbcq : (b : ℚ) < (c : ℚ) := by exact_mod_cast hbc
  have hvalq : ∀ x ∈ offSamples.map (fun (s : Int) => (s : ℚ)),
      x = (a : ℚ) ∨ x = (b : ℚ) ∨ x = (c : ℚ) := by
    intro x hx
    obtain ⟨d, hd, rfl⟩ := List.mem_map.mp hx
    rcases hval d hd with h | h | h
    · left; rw [h]
    · right; left; rw [h]
    · right; right; rw [h]
  have hpairs := sortedPairs_three (offSamples.map (fun (s : Int) => (s : ℚ))) g a b c habq hbcq
    hvalq (List.mem_map.mpr ⟨a, ha, rfl⟩) (List.mem_map.mpr ⟨b, hb, rfl⟩)
    (List.mem_map.mpr ⟨c, hc, rfl⟩) h1 h2 h3
  rw [detectSpaces_of_kMeans offSamples centers _ hne hk (by simpa using hne), hpairs]
  simp only [List.get?_cons_zero, List.get?_cons_succ, Option.map_some', Option.getD_some,
    List.length_cons, List.length_nil]
  have hac : ¬ a = b := ne_of_lt hab
  have hac2 : ¬ a = c := ne_of_lt (lt_trans hab hbc)
  have hbc2 : ¬ b = c := ne_of_lt hbc
  congr 2
  · rw [List.map_map, collectIdxs_map]
    apply positionsWhere_congr
    intro d hd
    rcases hval d hd with h | h | h
    · rw [h]; simp [hac, hac2]
    · rw [h]; simp [Ne.symm h1, Ne.symm hac]
    · rw [h]; simp [Ne.symm h2]
  · rw [List.map_map, collectIdxs_map]
    apply positionsWhere_congr
    intro d hd
    rcases hval d hd with h | h | h
    · rw [h]; simp [h2, hac2]
    · rw [h]; simp [h3, hbc2]
    · rw [h]; simp

/-- With fewer or more than three different labels `detectSpaces` returns no word break. -/
theorem detectSpaces_no_word_break (offSamples : List Int) (centers : List ℚ)
    (labels : List Nat) (hne : offSamples.length ≠ 0)
    (hk : kMeans (offSamples.map (fun (s : Int) => (s : ℚ))) (min 3 offSamples.length)
      = .ok (centers, labels)) (hl : labels.length ≠ 0) (h3 : labels.dedup.length ≠ 3) :
    ∃ charBreaks, detectSpaces offSamples = .ok (charBreaks, []) := by
  rw [detectSpaces_of_kMeans offSamples centers labels hne hk hl]
  refine ⟨collectIdxs (fun lbl => decide (lbl ≠
    (((sortedPairs (offSamples.map (fun (s : Int) => (s : ℚ))) labels).get? 0).map
      Prod.fst).getD 0)) labels 0, ?_⟩
  congr 2
  have hfalse : ∀ lbl : Nat, decide
      ((sortedPairs (offSamples.map (fun (s : Int) => (s : ℚ))) labels).length = 3 ∧
        lbl = (((sortedPairs (offSamples.map (fun (s : Int) => (s : ℚ))) labels).get? 2).map
          Prod.fst).getD 0) = false := by
    intro lbl
    rw [sortedPairs_length]
    simp [h3]
  have hcol : ∀ (keep : Nat → Bool) (ls : List Nat) (i : Int), (∀ l, keep l = false) →
      collectIdxs keep ls i = [] := by
    intro keep ls
    induction ls with
    | nil => intro i _; rfl
    | cons l rest ih =>
      intro i h
      simp only [collectIdxs, h l, Bool.false_eq_true, if_false]
      exact ih _ h
  exact hcol _ _ _ hfalse

/-- A sufficient condition on the gaps: when the sorted list has `b` at index `len / 3` and `c`
at index `2 * (len / 3)`, the three evenly spaced initial centres are `a`, `b`, `c`, all three
clusters are present and `detectSpaces` separates the three lengths. -/
theorem detectSpaces_covered_centres (offSamples : List Int) (a b c : Int) (hab : a < b)
    (hbc : b < c) (hval : ∀ d ∈ offSamples, d = a ∨ d = b ∨ d = c)
    (ha : a ∈ offSamples) (hb : b ∈ offSamples) (hc : c ∈ offSamples)
    (hmid : (sortFloat64s (offSamples.map (fun (s : Int) => (s : ℚ)))).getD
      (offSamples.length / 3) 0 = (b : ℚ))
    (hhigh : (sortFloat64s (offSamples.map (fun (s : Int) => (s : ℚ)))).getD
      (2 * (offSamples.length / 3)) 0 = (c : ℚ)) :
    detectSpaces offSamples
      = .ok (positionsWhere (fun d => decide (d = b ∨ d = c)) offSamples 0,
          positionsWhere (fun d => decide (d = c)) offSamples 0) := by
  have habq : (a : ℚ) < (b : ℚ) := by exact_mod_cast hab
  have hbcq : (b : ℚ) < (c : ℚ) := by exact_mod_cast hbc
  have hbaq : ¬ (b : ℚ) = (a : ℚ) := ne_of_gt habq
  have hcaq : ¬ (c : ℚ) = (a : ℚ) := ne_of_gt (lt_trans habq hbcq)
  have hcbq : ¬ (c : ℚ) = (b : ℚ) := ne_of_gt hbcq
  have hvalq : ∀ x ∈ offSamples.map (fun (s : Int) => (s : ℚ)),
      x = (a : ℚ) ∨ x = (b : ℚ) ∨ x = (c : ℚ) := by
    intro x hx
    obtain ⟨d, hd, rfl⟩ := List.mem_map.mp hx
    rcases hval d hd with h | h | h
    · left; rw [h]
    · right; left; rw [h]
    · right; right; rw [h]
  have haq : (a : ℚ) ∈ offSamples.map (fun (s : Int) => (s : ℚ)) :=
    List.mem_map.mpr ⟨a, ha, rfl⟩
  have hne : offSamples.map (fun (s : Int) => (s : ℚ)) ≠ [] := List.ne_nil_of_mem haq
  have h0 := sorted_head_min (a : ℚ) _ haq (fun x hx => by
    rcases hvalq x hx with h | h | h
    · rw [h]
    · rw [h]; exact le_of_lt habq
    · rw [h]; exact le_of_lt (lt_trans habq hbcq))
  have h3 : 3 ≤ offSamples.length := by
    by_contra hlt
    have hz : offSamples.length / 3 = 0 := by omega
    rw [hz, h0] at hmid
    exact hbaq hmid.symm
  have hSlen : (sortFloat64s (offSamples.map (fun (s : Int) => (s : ℚ)))).length
      = offSamples.length := by
    have hp : List.Perm (sortFloat64s (offSamples.map (fun (s : Int) => (s : ℚ))))
        (offSamples.map (fun (s : Int) => (s : ℚ))) := List.perm_insertionSort _ _
    rw [hp.length_eq, List.length_map]
  have hinit : initCenters (sortFloat64s (offSamples.map (fun (s : Int) => (s : ℚ))))
      ((offSamples.map (fun (s : Int) => (s : ℚ))).length / 3) 3
      = [(a : ℚ), (b : ℚ), (c : ℚ)] := by
    have e0 : min (0 * (offSamples.length / 3)) (offSamples.length - 1) = 0 := by simp
    have e1 : min (1 * (offSamples.length / 3)) (offSamples.length - 1)
        = offSamples.length / 3 := by
      rw [one_mul]
      apply min_eq_left
      omega
    have e2 : min (2 * (offSamples.length / 3)) (offSamples.length - 1)
        = 2 * (offSamples.length / 3) := by
      apply min_eq_left
      omega
    simp only [initCenters, List.range_succ, List.range_zero, List.nil_append, List.map_cons,
      List.map_nil, List.cons_append, hSlen, List.length_map, e0, e1, e2, h0, hmid, hhigh]
  have hsortC : sortFloat64s [(a : ℚ), (b : ℚ), (c : ℚ)] = [(a : ℚ), (b : ℚ), (c : ℚ)] := by
    simp [sortFloat64s, List.insertionSort, List.orderedInsert, le_of_lt habq, le_of_lt hbcq]
  have hk := kMeans_covered (offSamples.map (fun (s : Int) => (s : ℚ))) 3 hne (by decide)
    (fun x hx => by
      rw [hinit]
      rcases hvalq x hx with h | h | h <;> simp [h])
  rw [hinit, hsortC] at hk
  have hk2 : kMeans (offSamples.map (fun (s : Int) => (s : ℚ))) (min 3 offSamples.length)
      = .ok ([(a : ℚ), (b : ℚ), (c : ℚ)],
          (offSamples.map (fun (s : Int) => (s : ℚ))).map
            (fun x => if x = (a : ℚ) then 0 else if x = (b : ℚ) then 1 else 2)) := by
    rw [min_eq_left h3, hk]
    congr 2
    apply List.map_congr_left
    intro x hx
    rcases hvalq x hx with h | h | h
    · rw [h]; simp
    · rw [h]; simp [hbaq]
    · rw [h]; simp [hcaq, hcbq]
  exact detectSpaces_three_labels offSamples a b c hab hbc hval ha hb hc _ hk2

end Morse

namespace Morse

/-- C16 (as stated, refuted): the gaps [1,1,1,1,1,1,3,7] take exactly the three values
1 < 3 < 7; `detectSpaces` returns the character breaks [7, 8] but no word break, not the word
break after the 7 (position 8): `kMeans` returns only two different labels, the 3 and the 7
sharing one. -/
theorem detectSpaces_majority_short_no_word_break :
    detectSpaces [1, 1, 1, 1, 1, 1, 3, 7] = .ok ([7, 8], []) ∧
    positionsWhere (fun d => decide (d = (7 : Int))) [1, 1, 1, 1, 1, 1, 3, 7] 0 = [8] ∧
    kMeans [1, 1, 1, 1, 1, 1, 3, 7] 3 = .ok ([5, 1, 1], [0, 0, 0, 0, 0, 0, 2, 2]) := by
  refine ⟨by decide!, by decide, by decide!⟩

/-- C16 (amended): for every OFF-duration list whose values take exactly three distinct values
`a < b < c`, `kMeans` returns labels, and `detectSpaces` classifies the gaps as
intra-character, character and word gaps (the character-break positions are exactly the
positions `i + 1` with `off[i]` in `{b, c}`, the word-break positions exactly the positions
`i + 1` with `off[i] = c`) if and only if these labels are three different labels, that is,
all three clusters are present; with fewer different labels `detectSpaces` returns no word
break at all. -/
theorem detectSpaces_three_valued (offSamples : List Int) (a b c : Int) (hab : a < b)
    (hbc : b < c) (hval : ∀ d ∈ offSamples, d = a ∨ d = b ∨ d = c)
    (ha : a ∈ offSamples) (hb : b ∈ offSamples) (hc : c ∈ offSamples) :
    ∃ centers labels,
      kMeans (offSamples.map (fun (s : Int) => (s : ℚ))) (min 3 offSamples.length)
        = .ok (centers, labels) ∧
      (labels.dedup.length = 3 ↔
        detectSpaces offSamples
          = .ok (positionsWhere (fun d => decide (d = b ∨ d = c)) offSamples 0,
              positionsWhere (fun d => decide (d = c)) offSamples 0)) ∧
      (labels.dedup.length ≠ 3 → ∃ charBreaks, detectSpaces offSamples = .ok (charBreaks, [])) := by
  have hne : offSamples.length ≠ 0 := by
    have := List.length_pos_of_mem ha
    omega
  have hneq : offSamples.map (fun (s : Int) => (s : ℚ)) ≠ [] := by
    intro h
    exact hne (by simpa using congrArg List.length h)
  obtain ⟨centers, g, hk⟩ := kMeans_labels_function (offSamples.map (fun (s : Int) => (s : ℚ)))
    (min 3 offSamples.length) hneq (by omega)
  have hl : ((offSamples.map (fun (s : Int) => (s : ℚ))).map g).length ≠ 0 := by
    simpa using hne
  have hnone := detectSpaces_no_word_break offSamples centers _ hne hk hl
  refine ⟨centers, _, hk, ⟨?_, ?_⟩, hnone⟩
  · intro h3
    have hsub : ∀ l ∈ ((offSamples.map (fun (s : Int) => (s : ℚ))).map g).dedup,
        l = g (a : ℚ) ∨ l = g (b : ℚ) ∨ l = g (c : ℚ) := by
      intro l hl
      rw [List.mem_dedup, List.map_map] at hl
      obtain ⟨d, hd, rfl⟩ := List.mem_map.mp hl
      rcases hval d hd with h | h | h <;> rw [h] <;> simp
    have hshort : ∀ u v : Nat,
        (∀ l ∈ ((offSamples.map (fun (s : Int) => (s : ℚ))).map g).dedup, l = u ∨ l = v) →
        False := by
      intro u v h
      have hs : ((offSamples.map (fun (s : Int) => (s : ℚ))).map g).dedup ⊆ [u, v] := by
        intro l hl
        rcases h l hl with h | h <;> rw [h] <;> simp
      have := (List.subperm_of_subset (List.nodup_dedup _) hs).length_le
      simp only [List.length_cons, List.length_nil] at this
      omega
    have h1 : g (a : ℚ) ≠ g (b : ℚ) := by
      intro he
      exact hshort (g (b : ℚ)) (g (c : ℚ)) (fun l hl => by
        rcases hsub l hl with h | h | h
        · left; rw [h, he]
        · left; exact h
        · right; exact h)
    have h2 : g (a : ℚ) ≠ g (c : ℚ) := by
      intro he
      exact hshort (g (b : ℚ)) (g (c : ℚ)) (fun l hl => by
        rcases hsub l hl with h | h | h
        · right; rw [h, he]
        · left; exact h
        · right; exact h)
    have h3' : g (b : ℚ) ≠ g (c : ℚ) := by
      intro he
      exact hshort (g (a : ℚ)) (g (c : ℚ)) (fun l hl => by
        rcases hsub l hl with h | h | h
        · left; exact h
        · right; rw [h, he]
        · right; exact h)
    exact detectSpaces_three_clusters offSamples a b c hab hbc hval ha hb hc centers g hk
      h1 h2 h3'
  · intro hds
    by_contra h3
    obtain ⟨cb, hcb⟩ := hnone h3
    rw [hcb] at hds
    have hw : positionsWhere (fun d => decide (d = c)) offSamples 0 = [] := by
      have := congrArg (fun r => match r with
        | Except.ok (p : List Int × List Int) => p.2
        | Except.error _ => []) hds
      simpa using this.symm
    exact positionsWhere_ne_nil _ offSamples 0 ⟨c, hc, by simp⟩ hw

/-- C16 (amended), at the gaps [1, 1, 3, 7], where `kMeans` returns the labels [0, 0, 1, 2]. -/
theorem detectSpaces_three_valued_witness :
    kMeans [1, 1, 3, 7] 3 = .ok ([3, 1, 7], [0, 0, 1, 2]) ∧
    detectSpaces [1, 1, 3, 7] = .ok ([3, 4], [4]) := by
  obtain ⟨centers, labels, hk, hiff, _⟩ := detectSpaces_three_valued [1, 1, 3, 7] 1 3 7
    (by decide) (by decide) (by decide) (by decide) (by decide) (by decide)
  have hk2 : kMeans [1, 1, 3, 7] 3 = .ok ([3, 1, 7], [0, 0, 1, 2]) := by decide!
  have hk3 : kMeans (([1, 1, 3, 7] : List Int).map (fun (s : Int) => (s : ℚ)))
      (min 3 ([1, 1, 3, 7] : List Int).length) = .ok ([3, 1, 7], [0, 0, 1, 2]) := by decide!
  rw [hk3] at hk
  have hl : labels = [0, 0, 1, 2] := by
    injection hk with h
    exact (congrArg Prod.snd h).symm
  subst hl
  exact ⟨hk2, (hiff.mp (by decide)).trans (by decide)⟩

end Morse
